import Mathlib

/-!
Verification of the go-order declaration sorter (td0m/go-order, src/main.go and
src/unnamed/part_001) against its natural-language specification.

The program is embedded shallowly:

* raw source bytes are `List Nat` (one `Nat` per byte; concrete examples are ASCII);
* `go/token` positions are 1-based `Nat`s exactly as in `token.Pos`
  (`Pos` = position of the first byte, `End` = one past the last byte);
* the fragments of `go/ast` that `main.go` consumes are mirrored by `GoDecl`,
  `CommentGroup` and `GoFile` below;
* Go functions that can panic are modeled with `Option` (`none` = panic, which
  aborts the whole operation before any output is produced);
* the attachment map `map[ast.Decl][]byte` (keyed by declaration identity,
  including the `nil` sentinel) is modeled as a total function
  `Option GoDecl → List Nat`.  Go's map yields the empty slice for an absent
  key and `write` skips absent keys, but writing an empty byte slice is a
  no-op, so the total-function model produces byte-identical output.
-/

namespace GoOrder

/-- A byte of the source file (0..255; concrete examples use ASCII). -/
abbrev Byte := Nat

/-- ASCII bytes of a string; all concrete inputs in this file are ASCII, where
`Char.toNat` is exactly the UTF-8 byte. -/
def asciiBytes (s : String) : List Byte :=
  s.data.map Char.toNat

/-- The subset of `go/token` tokens that can tag a declaration: `token.IMPORT`,
`token.CONST`, `token.VAR`, `token.TYPE` for `*ast.GenDecl`, and `token.FUNC`
for `*ast.FuncDecl`. -/
inductive GoTok
  | IMPORT
  | CONST
  | VAR
  | TYPE
  | FUNC
deriving DecidableEq, Repr

/-- Model of `var order = map[token.Token]int{...}` from src/main.go lines 18-24. -/
def order : GoTok → Nat
  | .IMPORT => 0
  | .CONST => 1
  | .VAR => 2
  | .TYPE => 3
  | .FUNC => 4

/-- The shape of a receiver type expression (`ast.Expr`), as far as `funcName`
inspects it: a plain identifier, a `*ast.StarExpr` around an expression, or any
other expression shape. -/
inductive GoExpr
  | ident (name : String)
  | star (x : GoExpr)
  | otherExpr
deriving DecidableEq, Repr

/-- An `ast.Spec` inside a `*ast.GenDecl`: `*ast.TypeSpec` (carrying the type
name), `*ast.ValueSpec` (carrying the declared names), `*ast.ImportSpec`, or
anything else. -/
inductive GoSpec
  | typeSpec (name : String)
  | valueSpec (names : List String)
  | importSpec
  | otherSpec
deriving DecidableEq, Repr

/-- The fields of `*ast.FuncDecl` that src/main.go reads: byte span, name, and
the receiver field list (`none` models `Recv == nil`; the list holds the type
expression of each receiver field). -/
structure FuncDeclData where
  pos : Nat
  endPos : Nat
  name : String
  recv : Option (List GoExpr)
deriving DecidableEq, Repr

/-- The fields of `*ast.GenDecl` that src/main.go reads. -/
structure GenDeclData where
  pos : Nat
  endPos : Nat
  tok : GoTok
  specs : List GoSpec
deriving DecidableEq, Repr

/-- An `ast.Decl`: `*ast.FuncDecl`, `*ast.GenDecl`, or any other implementation
of the interface (e.g. `*ast.BadDecl`), which `getToken` does not recognize. -/
inductive GoDecl
  | funcDecl (f : FuncDeclData)
  | genDecl (g : GenDeclData)
  | badDecl (pos endPos : Nat)
deriving DecidableEq, Repr

instance : Inhabited GoDecl := ⟨GoDecl.badDecl 0 0⟩

/-- The `Pos()` of a declaration (1-based byte position of its first byte). -/
def GoDecl.pos : GoDecl → Nat
  | .funcDecl f => f.pos
  | .genDecl g => g.pos
  | .badDecl p _ => p

/-- The `End()` of a declaration (one past its last byte, 1-based). -/
def GoDecl.endPos : GoDecl → Nat
  | .funcDecl f => f.endPos
  | .genDecl g => g.endPos
  | .badDecl _ e => e

/-- An `*ast.CommentGroup` as used by `assignRootCommentsToDecl`: only its
`Pos()` and `End()` are read. -/
structure CommentGroup where
  pos : Nat
  endPos : Nat
deriving DecidableEq, Repr

/-- The fields of `*ast.File` that src/main.go reads: position of the `package`
keyword, the package name bytes, the optional doc comment (the `Text` of each
comment in `tree.Doc.List`, as bytes), the declarations, and the root comment
groups. -/
structure GoFile where
  packagePos : Nat
  name : List Byte
  doc : Option (List (List Byte))
  decls : List GoDecl
  comments : List CommentGroup
deriving DecidableEq, Repr

/-- `Config` from src/main.go lines 26-29. -/
structure Config where
  sortAlphabetically : Bool
  writeToFile : Bool
deriving DecidableEq, Repr

/-- `funcOrMethod` from src/main.go lines 31-34. -/
structure funcOrMethod where
  name : String
  recv : String
deriving DecidableEq, Repr

/-- Go slice `content[a:b]` (0-based, end-exclusive). -/
def sliceB (content : List Byte) (a b : Nat) : List Byte :=
  (content.drop a).take (b - a)

/-- The newline byte. -/
def nlByte : Byte := 10

/-- Model of `funcName` (src/main.go lines 90-108).  Returns `none` where the
Go code panics: explicitly for an unexpected receiver-type shape, and through
the failing type assertion `recvType.X.(*ast.Ident)` when a `StarExpr` does not
wrap a plain identifier. -/
def funcName (f : FuncDeclData) : Option funcOrMethod :=
  match f.recv with
  | none => some { name := f.name, recv := "" }
  | some [] => some { name := f.name, recv := "" }
  | some (t :: _) =>
    match t with
    | GoExpr.star (GoExpr.ident n) => some { name := f.name, recv := n }
    | GoExpr.star _ => none
    | GoExpr.ident n => some { name := f.name, recv := n }
    | GoExpr.otherExpr => none

/-- Model of `getToken` (src/main.go lines 110-120).  `none` models the
`panic("unimpl for")` on a declaration that is neither a `*ast.FuncDecl` nor a
`*ast.GenDecl`. -/
def getToken : GoDecl → Option GoTok
  | .funcDecl _ => some GoTok.FUNC
  | .genDecl g => some g.tok
  | .badDecl _ _ => none

/-- Lexicographic strict order on code-point lists. -/
def charListLess : List Char → List Char → Bool
  | [], [] => false
  | [], _ :: _ => true
  | _ :: _, [] => false
  | a :: as, b :: bs =>
    if a.toNat < b.toNat then true
    else if b.toNat < a.toNat then false
    else charListLess as bs

/-- `strings.Compare(a, b) < 0`.  Go compares the UTF-8 byte sequences;
lexicographic order on UTF-8 bytes coincides with lexicographic order on the
code points, which is what `charListLess` computes. -/
def strLess (a b : String) : Bool :=
  charListLess a.data b.data

/-- `s.(*ast.TypeSpec).Name.Name`; `none` models the panicking type
assertion. -/
def typeSpecName : GoSpec → Option String
  | GoSpec.typeSpec n => some n
  | _ => none

/-- `s.(*ast.ValueSpec).Names[0].Name`; `none` models the panicking type
assertion and the out-of-range index on an empty name list. -/
def valueSpecName : GoSpec → Option String
  | GoSpec.valueSpec (n :: _) => some n
  | _ => none

/-- The comparison closure passed to `sort.Slice` inside `sortAST`
(src/main.go lines 205-271), translated clause by clause.  `none` models a
panic raised while comparing (which aborts the whole run). -/
def declLess (conf : Config) (a b : GoDecl) : Option Bool := do
  let aType ← getToken a
  let bType ← getToken b
  if aType ≠ bType then
    pure (decide (order aType < order bType))
  else if conf.sortAlphabetically then
    match a, b with
    | GoDecl.funcDecl fa, GoDecl.funcDecl fb => do
      let na ← funcName fa
      let nb ← funcName fb
      if na.recv = "" ∧ na.name = "main" then pure false
      else if nb.recv = "" ∧ nb.name = "main" then pure true
      else if na.recv = "" ∧ nb.recv ≠ "" then pure false
      else if nb.recv = "" ∧ na.recv ≠ "" then pure true
      else if na.recv ≠ nb.recv then pure (strLess na.recv nb.recv)
      else pure (strLess na.name nb.name)
    | GoDecl.genDecl ga, GoDecl.genDecl gb =>
      match ga.specs, gb.specs with
      | [sa], [sb] =>
        if ga.tok = GoTok.TYPE ∧ gb.tok = GoTok.TYPE then do
          let x ← typeSpecName sa
          let y ← typeSpecName sb
          pure (strLess x y)
        else if (ga.tok = GoTok.VAR ∧ gb.tok = GoTok.VAR) ∨
            (ga.tok = GoTok.CONST ∧ gb.tok = GoTok.CONST) then do
          let x ← valueSpecName sa
          let y ← valueSpecName sb
          pure (strLess x y)
        else pure false
      | _, _ => pure false
    | _, _ => pure false
  else pure false

/-!
## The Sort Engine: `sort.Slice`

`sortAST` sorts `t.Decls` with `sort.Slice` (not `sort.SliceStable`).  Since Go
1.19 `sort.Slice` runs the pattern-defeating quicksort of
`sort/zsortfunc.go`; we transcribe that algorithm below, loop by loop, over a
`List α` with index-based reads, writes and swaps (fuel makes the recursions
structural; every fuel value used is larger than the number of iterations the
Go loops can perform, and all theorems about the engine are conditioned on a
`some` result, so exhausted fuel never influences a result).  For ranges of at
most 12 elements (`maxInsertion`) `pdqsort` immediately runs its plain
insertion sort, which is transcribed first as `insertionSortM`; this regime is
what `sort.Slice` performs on every file with at most 12 declarations.
Comparisons are monadic (`Option Bool`) because the comparator itself can
panic; a `none` comparison aborts the whole sort exactly like the Go panic
unwinding out of `sort.Slice`.
-/

/-- One downward pass of `insertionSort_func`: `acc` is the already-sorted
prefix in reversed order, and `x` is compared against it top-down
(`data.Less(j, j-1)` with `x` at index `j`), moving down while the comparison
is true and stopping at the first false. -/
def insertRevM (less : α → α → Option Bool) (x : α) : List α → Option (List α)
  | [] => some [x]
  | y :: rest => do
    let b ← less x y
    if b then do
      let r ← insertRevM less x rest
      pure (y :: r)
    else
      pure (x :: y :: rest)

/-- The outer loop of `insertionSort_func`, processing elements left to right
with the sorted prefix kept reversed in `acc`. -/
def insertionSortRevM (less : α → α → Option Bool) : List α → List α → Option (List α)
  | acc, [] => some acc
  | acc, x :: xs => do
    let acc2 ← insertRevM less x acc
    insertionSortRevM less acc2 xs

/-- `insertionSort_func(data, a, b)` from Go's sort package, on the list that
represents `data[a:b]`.  It performs exactly the comparisons of the Go loops,
in the same order, with the same short-circuiting. -/
def insertionSortM (less : α → α → Option Bool) (l : List α) : Option (List α) := do
  let r ← insertionSortRevM less [] l
  pure r.reverse

/-- Read `data[i]` (indices are always in bounds along Go's execution paths;
the default is never read there). -/
def getI [Inhabited α] (l : List α) (i : Nat) : α :=
  l.getD i default

/-- `data.Swap(i, j)`. -/
def swapL [Inhabited α] (l : List α) (i j : Nat) : List α :=
  (l.set i (getI l j)).set j (getI l i)

/-- A scan `for i <= j && p(data[i]) { i++ }`, returning the final `i`. -/
def scanUpM [Inhabited α] (p : α → Option Bool) (l : List α) :
    Nat → Nat → Nat → Option Nat
  | 0, _, _ => none
  | fuel + 1, i, j =>
    if i ≤ j then do
      let b ← p (getI l i)
      if b then scanUpM p l fuel (i + 1) j else pure i
    else
      pure i

/-- A scan `for i <= j && p(data[j]) { j-- }`, returning the final `j`.  Along
Go's execution paths `i ≥ 1` whenever the loop runs, so the Go `j` never goes
below `i - 1 ≥ 0` and `Nat` subtraction is exact. -/
def scanDnM [Inhabited α] (p : α → Option Bool) (l : List α) :
    Nat → Nat → Nat → Option Nat
  | 0, _, _ => none
  | fuel + 1, i, j =>
    if i ≤ j then do
      let b ← p (getI l j)
      if b then scanDnM p l fuel i (j - 1) else pure j
    else
      pure j

/-- The repeated interchange loop of `partition_func` after the first swap:
scan `i` up over elements less than the pivot, scan `j` down over elements not
less than the pivot, swap and continue until the pointers cross.  Returns the
final list and `j`. -/
def partitionLoopM [Inhabited α] (less : α → α → Option Bool) (pv : α) :
    Nat → List α → Nat → Nat → Option (List α × Nat)
  | 0, _, _, _ => none
  | fuel + 1, l, i, j => do
    let i2 ← scanUpM (fun x => less x pv) l (l.length + 2) i j
    let j2 ← scanDnM (fun x => do
      let b ← less x pv
      pure (!b)) l (l.length + 2) i2 j
    if i2 > j2 then
      pure (l, j2)
    else
      partitionLoopM less pv fuel (swapL l i2 j2) (i2 + 1) (j2 - 1)

/-- `partition_func(data, a, b, pivot)`: moves the pivot to `a`, partitions
`data[a+1:b]` around it, swaps the pivot into its final slot and reports that
slot together with the `alreadyPartitioned` flag. -/
def partitionM [Inhabited α] (less : α → α → Option Bool) (l0 : List α)
    (a b pivot : Nat) : Option (List α × Nat × Bool) := do
  let l := swapL l0 a pivot
  let pv := getI l a
  let i1 ← scanUpM (fun x => less x pv) l (l.length + 2) (a + 1) (b - 1)
  let j1 ← scanDnM (fun x => do
    let b2 ← less x pv
    pure (!b2)) l (l.length + 2) i1 (b - 1)
  if i1 > j1 then
    pure (swapL l j1 a, j1, true)
  else do
    let l2 := swapL l i1 j1
    let r ← partitionLoopM less pv (b + 2) l2 (i1 + 1) (j1 - 1)
    pure (swapL r.1 r.2 a, r.2, false)

/-- The interchange loop of `partitionEqual_func`. -/
def partitionEqualLoopM [Inhabited α] (less : α → α → Option Bool) (pv : α) :
    Nat → List α → Nat → Nat → Option (List α × Nat)
  | 0, _, _, _ => none
  | fuel + 1, l, i, j => do
    let i2 ← scanUpM (fun x => do
      let b ← less pv x
      pure (!b)) l (l.length + 2) i j
    let j2 ← scanDnM (fun x => less pv x) l (l.length + 2) i2 j
    if i2 > j2 then
      pure (l, i2)
    else
      partitionEqualLoopM less pv fuel (swapL l i2 j2) (i2 + 1) (j2 - 1)

/-- `partitionEqual_func(data, a, b, pivot)`: partitions elements equal to the
pivot to the front, returning the first index of the strictly-greater
suffix. -/
def partitionEqualM [Inhabited α] (less : α → α → Option Bool) (l0 : List α)
    (a b pivot : Nat) : Option (List α × Nat) := do
  let l := swapL l0 a pivot
  let pv := getI l a
  partitionEqualLoopM less pv (b + 2) l (a + 1) (b - 1)

/-- The shift-left loop of `partialInsertionSort_func`
(`for j := i - 1; j >= 1; j--`): swap downward while the adjacent pair is out
of order.  The counter argument is `j` itself; the loop stops when `j = 0`. -/
def shiftLeftM [Inhabited α] (less : α → α → Option Bool) :
    Nat → List α → Option (List α)
  | 0, l => pure l
  | j + 1, l => do
    let b ← less (getI l (j + 1)) (getI l j)
    if !b then pure l
    else shiftLeftM less j (swapL l (j + 1) j)

/-- The shift-right loop of `partialInsertionSort_func`
(`for j := i + 1; j < b; j++`). -/
def shiftRightM [Inhabited α] (less : α → α → Option Bool) :
    Nat → List α → Nat → Nat → Option (List α)
  | 0, _, _, _ => none
  | fuel + 1, l, j, b =>
    if j < b then do
      let bl ← less (getI l j) (getI l (j - 1))
      if !bl then pure l
      else shiftRightM less fuel (swapL l j (j - 1)) (j + 1) b
    else
      pure l

/-- The scan of `partialInsertionSort_func` that advances `i` over pairs
already in order (`for i < b && !data.Less(i, i-1) { i++ }`). -/
def pInsScanM [Inhabited α] (less : α → α → Option Bool) (l : List α) :
    Nat → Nat → Nat → Option Nat
  | 0, _, _ => none
  | fuel + 1, i, b =>
    if i < b then do
      let bl ← less (getI l i) (getI l (i - 1))
      if !bl then pInsScanM less l fuel (i + 1) b else pure i
    else
      pure i

/-- The outer loop of `partialInsertionSort_func` (at most `maxSteps = 5`
rounds); returns the possibly-mutated list and whether the range was brought
into sorted order. -/
def partialInsertionSortLoopM [Inhabited α] (less : α → α → Option Bool)
    (a b : Nat) : Nat → List α → Nat → Option (List α × Bool)
  | 0, l, _ => pure (l, false)
  | steps + 1, l, i => do
    let i2 ← pInsScanM less l (b + 2) i b
    if i2 = b then
      pure (l, true)
    else if b - a < 50 then
      pure (l, false)
    else do
      let l1 := swapL l i2 (i2 - 1)
      let l2 ← if i2 - a ≥ 2 then shiftLeftM less (i2 - 1) l1 else pure l1
      let l3 ← if b - i2 ≥ 2 then shiftRightM less (b + 2) l2 (i2 + 1) b else pure l2
      partialInsertionSortLoopM less a b steps l3 i2

/-- `partialInsertionSort_func(data, a, b)`: `shortestShifting = 50`,
`maxSteps = 5`. -/
def partialInsertionSortM [Inhabited α] (less : α → α → Option Bool)
    (l : List α) (a b : Nat) : Option (List α × Bool) :=
  partialInsertionSortLoopM less a b 5 l (a + 1)

/-- `siftDown_func(data, lo, hi, first)`, recursing along the heap path (the
counter is an upper bound on the remaining path length). -/
def siftDownM [Inhabited α] (less : α → α → Option Bool) :
    Nat → List α → Nat → Nat → Nat → Option (List α)
  | 0, _, _, _, _ => none
  | fuel + 1, l, root, hi, first => do
    let child := 2 * root + 1
    if child ≥ hi then
      pure l
    else do
      let child ←
        if child + 1 < hi then do
          let b ← less (getI l (first + child)) (getI l (first + child + 1))
          pure (if b then child + 1 else child)
        else
          pure child
      let b ← less (getI l (first + root)) (getI l (first + child))
      if !b then pure l
      else siftDownM less fuel (swapL l (first + root) (first + child)) child hi first

/-- The heap-construction loop of `heapSort_func`
(`for i := (hi-1-1)/2; i >= 0; i--`); the counter is `i + 1`. -/
def heapBuildM [Inhabited α] (less : α → α → Option Bool) (hi first : Nat) :
    Nat → List α → Option (List α)
  | 0, l => pure l
  | cnt + 1, l => do
    let l2 ← siftDownM less (hi + 2) l cnt hi first
    heapBuildM less hi first cnt l2

/-- The extraction loop of `heapSort_func`
(`for i := hi - 1; i >= 0; i--`); the counter is `i + 1`. -/
def heapExtractM [Inhabited α] (less : α → α → Option Bool) (first : Nat) :
    Nat → List α → Option (List α)
  | 0, l => pure l
  | i + 1, l => do
    let l2 := swapL l first (first + i)
    let l3 ← siftDownM less (i + 2) l2 0 i first
    heapExtractM less first i l3

/-- `heapSort_func(data, a, b)` (`lo = 0`, `hi = b - a`, `first = a`). -/
def heapSortM [Inhabited α] (less : α → α → Option Bool) (l : List α)
    (a b : Nat) : Option (List α) := do
  let hi := b - a
  let cnt := if hi ≥ 2 then (hi - 2) / 2 + 1 else 0
  let l2 ← heapBuildM less hi a cnt l
  heapExtractM less a hi l2

/-- `math/bits.Len` on a `Nat`. -/
def bitsLen (n : Nat) : Nat :=
  if n = 0 then 0 else Nat.log2 n + 1

/-- One step of the `xorshift` generator used by `breakPatterns_func`
(64-bit: `r ^= r << 13; r ^= r >> 17; r ^= r << 5`). -/
def xorshiftNext (r : Nat) : Nat :=
  let r1 := (r ^^^ (r <<< 13)) % 2 ^ 64
  let r2 := (r1 ^^^ (r1 >>> 17)) % 2 ^ 64
  (r2 ^^^ (r2 <<< 5)) % 2 ^ 64

/-- One of the three scrambling swaps of `breakPatterns_func`. -/
def breakPatternsSwap [Inhabited α] (a length modulus idx : Nat)
    (st : List α × Nat) (i : Nat) : List α × Nat :=
  let r := xorshiftNext st.2
  let other0 := r % modulus
  let other := if other0 ≥ length then other0 - length else other0
  (swapL st.1 (idx - 1 + i) (a + other), r)

/-- `breakPatterns_func(data, a, b)`: seeds `xorshift` with the length and
swaps three elements around the prospective pivot position to random
positions (`random.Next() & (modulus - 1)` is `% modulus` since `modulus` is a
power of two).  Performs no comparisons. -/
def breakPatternsM [Inhabited α] (l : List α) (a b : Nat) : List α :=
  let length := b - a
  if length ≥ 8 then
    let modulus := 2 ^ bitsLen length
    let idx := a + length / 4 * 2 - 1
    let st1 := breakPatternsSwap a length modulus idx (l, length) 0
    let st2 := breakPatternsSwap a length modulus idx st1 1
    let st3 := breakPatternsSwap a length modulus idx st2 2
    st3.1
  else
    l

/-- The `sortedHint` of `choosePivot_func`. -/
inductive Hint
  | increasing
  | decreasing
  | unknown
deriving DecidableEq, Repr

/-- `order2_func(data, a, b, &swaps)`: orders two indices by the data they
point to (no data movement), counting the index swap. -/
def order2M [Inhabited α] (less : α → α → Option Bool) (l : List α)
    (a b swaps : Nat) : Option (Nat × Nat × Nat) := do
  let bl ← less (getI l b) (getI l a)
  if bl then pure (b, a, swaps + 1) else pure (a, b, swaps)

/-- `median_func(data, a, b, c, &swaps)`. -/
def medianM [Inhabited α] (less : α → α → Option Bool) (l : List α)
    (a b c swaps : Nat) : Option (Nat × Nat) := do
  let r1 ← order2M less l a b swaps
  let r2 ← order2M less l r1.2.1 c r1.2.2
  let r3 ← order2M less l r1.1 r2.1 r2.2.2
  pure (r3.2.1, r3.2.2)

/-- `medianAdjacent_func(data, i, &swaps)` = median of `i-1, i, i+1`. -/
def medianAdjacentM [Inhabited α] (less : α → α → Option Bool) (l : List α)
    (i swaps : Nat) : Option (Nat × Nat) :=
  medianM less l (i - 1) i (i + 1) swaps

/-- `choosePivot_func(data, a, b)` (`shortestNinther = 50`,
`maxSwaps = 4 * 3 = 12`): median of medians for long ranges, median of three
for ranges of at least 8, first-quarter... position otherwise; the swap count
yields the sortedness hint. -/
def choosePivotM [Inhabited α] (less : α → α → Option Bool) (l : List α)
    (a b : Nat) : Option (Nat × Hint) := do
  let length := b - a
  let i := a + length / 4 * 1
  let j := a + length / 4 * 2
  let k := a + length / 4 * 3
  if length ≥ 8 then do
    let (i2, j2, k2, s1) ←
      if length ≥ 50 then do
        let ra ← medianAdjacentM less l i 0
        let rb ← medianAdjacentM less l j ra.2
        let rc ← medianAdjacentM less l k rb.2
        pure (ra.1, rb.1, rc.1, rc.2)
      else
        pure (i, j, k, 0)
    let r ← medianM less l i2 j2 k2 s1
    if r.2 = 0 then pure (r.1, Hint.increasing)
    else if r.2 = 12 then pure (r.1, Hint.decreasing)
    else pure (r.1, Hint.unknown)
  else
    pure (j, Hint.increasing)

/-- `reverseRange_func(data, a, b)` reverses `data[a:b]` in place. -/
def reverseRangeL (l : List α) (a b : Nat) : List α :=
  l.take a ++ ((l.drop a).take (b - a)).reverse ++ l.drop b

/-- Run `f` on the segment `data[a:b]` and splice the result back; this is how
the in-place `insertionSort_func(data, a, b)` acts on the whole list. -/
def onSegM (l : List α) (a b : Nat) (f : List α → Option (List α)) :
    Option (List α) := do
  let mid ← f ((l.drop a).take (b - a))
  pure (l.take a ++ mid ++ l.drop b)

/-- `pdqsort_func(data, a, b, limit)` from Go's sort package (Go ≥ 1.19),
transcribed with the loop-continue steps as tail recursions.
`maxInsertion = 12`. -/
def pdqsortM [Inhabited α] (less : α → α → Option Bool) :
    Nat → List α → Nat → Nat → Nat → Bool → Bool → Option (List α)
  | 0, _, _, _, _, _, _ => none
  | fuel + 1, l, a, b, limit, wasBalanced, wasPartitioned => do
    let length := b - a
    if length ≤ 12 then
      onSegM l a b (insertionSortM less)
    else if limit = 0 then
      heapSortM less l a b
    else do
      let (l, limit) :=
        if !wasBalanced then (breakPatternsM l a b, limit - 1) else (l, limit)
      let ph ← choosePivotM less l a b
      let (l, pivot, hint) :=
        if ph.2 = Hint.decreasing then
          (reverseRangeL l a b, (b - 1) - (ph.1 - a), Hint.increasing)
        else
          (l, ph.1, ph.2)
      let (l, stop) ←
        if wasBalanced ∧ wasPartitioned ∧ hint = Hint.increasing then
          partialInsertionSortM less l a b
        else
          pure (l, false)
      if stop then
        pure l
      else do
        let useEqual ←
          if a > 0 then do
            let bl ← less (getI l (a - 1)) (getI l pivot)
            pure (!bl)
          else
            pure false
        if useEqual then do
          let r ← partitionEqualM less l a b pivot
          pdqsortM less fuel r.1 r.2 b limit wasBalanced wasPartitioned
        else do
          let r ← partitionM less l a b pivot
          let l2 := r.1
          let mid := r.2.1
          let wasPartitioned := r.2.2
          let leftLen := mid - a
          let rightLen := b - mid
          let wasBalanced := min leftLen rightLen ≥ length / 8
          if leftLen < rightLen then do
            let l3 ← pdqsortM less fuel l2 a mid limit wasBalanced wasPartitioned
            pdqsortM less fuel l3 (mid + 1) b limit wasBalanced wasPartitioned
          else do
            let l3 ← pdqsortM less fuel l2 (mid + 1) b limit wasBalanced wasPartitioned
            pdqsortM less fuel l3 a mid limit wasBalanced wasPartitioned

/-- The tail of the `pdqsort_func` loop body past the small-range and
heap-sort exits, on the working array after the `breakPatterns` step; named
so the loop body can be reasoned about in two halves
(`pdqsortM_succ` below proves the split faithful). -/
def pdqsortTail [Inhabited α] (less : α → α → Option Bool) (fuel : Nat)
    (l : List α) (a b limit : Nat) (wasBalanced wasPartitioned : Bool) :
    Option (List α) := do
  let ph ← choosePivotM less l a b
  let (l, pivot, hint) :=
    if ph.2 = Hint.decreasing then
      (reverseRangeL l a b, (b - 1) - (ph.1 - a), Hint.increasing)
    else
      (l, ph.1, ph.2)
  let (l, stop) ←
    if wasBalanced ∧ wasPartitioned ∧ hint = Hint.increasing then
      partialInsertionSortM less l a b
    else
      pure (l, false)
  if stop then
    pure l
  else do
    let useEqual ←
      if a > 0 then do
        let bl ← less (getI l (a - 1)) (getI l pivot)
        pure (!bl)
      else
        pure false
    if useEqual then do
      let r ← partitionEqualM less l a b pivot
      pdqsortM less fuel r.1 r.2 b limit wasBalanced wasPartitioned
    else do
      let r ← partitionM less l a b pivot
      let l2 := r.1
      let mid := r.2.1
      let wasPartitioned := r.2.2
      let leftLen := mid - a
      let rightLen := b - mid
      let wasBalanced := min leftLen rightLen ≥ (b - a) / 8
      if leftLen < rightLen then do
        let l3 ← pdqsortM less fuel l2 a mid limit wasBalanced wasPartitioned
        pdqsortM less fuel l3 (mid + 1) b limit wasBalanced wasPartitioned
      else do
        let l3 ← pdqsortM less fuel l2 (mid + 1) b limit wasBalanced wasPartitioned
        pdqsortM less fuel l3 a mid limit wasBalanced wasPartitioned

/-- `sort.Slice(x, less)`: `pdqsort_func(lessSwap, 0, n, bits.Len(uint(n)))`.
The fuel bounds the recursion depth, which never exceeds the range length. -/
def sortSliceM [Inhabited α] (less : α → α → Option Bool) (l : List α) :
    Option (List α) :=
  pdqsortM less (2 * l.length + 8) l 0 l.length (bitsLen l.length) true true

/-- Model of `sortAST` (src/main.go lines 204-272): `sort.Slice(t.Decls, ...)`
with the comparator `declLess conf`.  A `none` result models the comparator
panicking, which unwinds out of `sortFile` before anything is written. -/
def sortAST (decls : List GoDecl) (conf : Config) : Option (List GoDecl) :=
  sortSliceM (declLess conf) decls

/-!
## The Comment Classifier and the Serializer
-/

/-- The attachment map `map[ast.Decl][]byte`, keyed by declaration identity
with the `nil` sentinel modeled as `none`.  A missing key reads as the empty
slice, exactly like a Go map. -/
abbrev Amap := Option GoDecl → List Byte

/-- The initial map `map[ast.Decl][]byte{ nil: {'\n'} }`. -/
def initComments : Amap := fun k =>
  match k with
  | none => [nlByte]
  | some _ => []

/-- `comments[k] = append(comments[k], v...)`. -/
def mapAppend (m : Amap) (k : Option GoDecl) (v : List Byte) : Amap :=
  fun k2 => if k2 = k then m k ++ v else m k2

/-- Whether the comment survives the two `continue` filters of
`assignRootCommentsToDecl`: it does not lie before the `package` keyword
(`start < tree.Package`), and it is not contained in any declaration's span
(`d.Pos() <= start && end <= d.End()`). -/
def isRootComment (decls : List GoDecl) (packagePos : Nat) (c : CommentGroup) : Bool :=
  decide (packagePos ≤ c.pos) &&
    !(decls.any fun d => decide (d.pos ≤ c.pos) && decide (c.endPos ≤ d.endPos))

/-- The first declaration, in original order, whose `Pos()` is strictly
greater than the comment's `End()` (`d.Pos() > c.End()`). -/
def attachTarget (decls : List GoDecl) (c : CommentGroup) : Option GoDecl :=
  decls.find? fun d => decide (c.endPos < d.pos)

/-- The blank-line run captured after a comment: starting at the 0-based
offset `e`, one `'\n'` is appended per leading newline byte
(`for i := int(end); i < len(content); i++ { ... }`). -/
def newlineRun (content : List Byte) (e : Nat) : List Byte :=
  (content.drop e).takeWhile fun b => b == nlByte

/-- The bytes attached for a comment that found a following declaration:
`content[start-1 : end]` — which, positions being 1-based, is the comment's
own bytes plus the single byte that follows them — extended by the newline
run. -/
def capturedComment (content : List Byte) (c : CommentGroup) : List Byte :=
  sliceB content (c.pos - 1) c.endPos ++ newlineRun content c.endPos

/-- Processing of one comment group by the loop body of
`assignRootCommentsToDecl`: skip header and contained comments; otherwise
append the captured bytes to the first declaration starting strictly after
the comment, or append `content[start-1:]` — everything from the comment to
the end of the file — to the `nil` sentinel. -/
def assignStep (decls : List GoDecl) (packagePos : Nat) (content : List Byte)
    (m : Amap) (c : CommentGroup) : Amap :=
  if isRootComment decls packagePos c then
    match attachTarget decls c with
    | some d => mapAppend m (some d) (capturedComment content c)
    | none => mapAppend m none (content.drop (c.pos - 1))
  else
    m

/-- Model of `assignRootCommentsToDecl` (src/main.go lines 36-85). -/
def assignRootCommentsToDecl (tree : GoFile) (content : List Byte) : Amap :=
  tree.comments.foldl (assignStep tree.decls tree.packagePos content) initComments

/-- The raw byte span written for a declaration:
`contents[decl.Pos()-1 : decl.End()-1]`. -/
def declBytes (content : List Byte) (d : GoDecl) : List Byte :=
  sliceB content (d.pos - 1) (d.endPos - 1)

/-- The declaration loop of `write` (src/main.go lines 308-321): each
declaration's attached comment bytes, then its raw span, then `"\n\n"` unless
it is the last declaration. -/
def writeDeclsLoop (content : List Byte) (m : Amap) : List GoDecl → List Byte
  | [] => []
  | [d] => m (some d) ++ declBytes content d
  | d :: d2 :: rest =>
    m (some d) ++ declBytes content d ++ [nlByte, nlByte] ++
      writeDeclsLoop content m (d2 :: rest)

/-- The header doc comment emission of `write`: for each comment of
`tree.Doc.List`, its `Text` followed by a newline. -/
def docBytes : Option (List (List Byte)) → List Byte
  | none => []
  | some docs => (docs.map fun t => t ++ [nlByte]).flatten

/-- The bytes of `fmt.Fprintf(w, "package %s\n\n", tree.Name)`. -/
def pkgHeader (name : List Byte) : List Byte :=
  asciiBytes "package " ++ name ++ [nlByte, nlByte]

/-- Model of `write` (src/main.go lines 299-326). -/
def write (tree : GoFile) (content : List Byte) (m : Amap) : List Byte :=
  docBytes tree.doc ++ pkgHeader tree.name ++
    writeDeclsLoop content m tree.decls ++ m none

/-- Model of `sortFile` (src/main.go lines 275-296) after the external parse:
build the attachment map from the original declaration order, sort the
declarations, then serialize.  `none` models the panic paths, on which the
buffered writer is never flushed and no output is produced. -/
def sortFile (tree : GoFile) (content : List Byte) (conf : Config) :
    Option (List Byte) :=
  let m := assignRootCommentsToDecl tree content
  match sortAST tree.decls conf with
  | none => none
  | some sorted => some (write { tree with decls := sorted } content m)

/-!
## Analysis definitions and concrete inputs

Everything from here to the theorem section is either a projection used to
state properties, the second version of the sorter (for the equivalence
claim), or a concrete input used by a counterexample or witness.
-/

/-- The bytes the classifier appends for a surviving root comment: the
captured comment for a comment that found a following declaration, the whole
remaining file suffix for a trailing comment. -/
def assignedBytes (decls : List GoDecl) (content : List Byte) (c : CommentGroup) :
    List Byte :=
  match attachTarget decls c with
  | some _ => capturedComment content c
  | none => content.drop (c.pos - 1)

/-- Relation witnessed by an evaluated comparison between elements that end up
adjacent (in this order) after insertion sort: either `less v u` returned
`false` (the insertion of `v` stopped on `u`, or `v` never moved past `u`), or
`less u v` returned `true` (`u` was inserted past `v`). -/
def Radj (less : α → α → Option Bool) (u v : α) : Prop :=
  less v u = some false ∨ less u v = some true

/-- The kind priority of a declaration: `order` of its token.  The default is
never relevant: a declaration without a token aborts the sort whenever it is
compared, and the claim theorems condition on a completed sort. -/
def kindRank (d : GoDecl) : Nat :=
  order ((getToken d).getD GoTok.IMPORT)

/-- Whether a declaration is a free function (no receiver) named exactly
`main`, read off the same way the comparator reads it (`funcName`). -/
def isFreeMainB (d : GoDecl) : Bool :=
  match d with
  | GoDecl.funcDecl f =>
    match funcName f with
    | some fm => decide (fm.recv = "") && decide (fm.name = "main")
    | none => false
  | _ => false

/-- Parser invariant on general declarations: `go/parser` only tags a
`*ast.GenDecl` with `IMPORT`, `CONST`, `VAR` or `TYPE`, never `FUNC`. -/
def genTokOK (d : GoDecl) : Bool :=
  match d with
  | GoDecl.genDecl g => decide (g.tok ≠ GoTok.FUNC)
  | _ => true

/-- `Config` from src/unnamed/part_001 (that version has no `-w` flag). -/
structure ConfigV1 where
  sortAlphabetically : Bool
deriving DecidableEq, Repr

/-- The comparison closure passed to `sort.Slice` inside `sortAST` of
src/unnamed/part_001 (lines 147-215), translated clause by clause from that
file.  The two source files carry textually identical `sortAST` bodies; this
definition is deliberately translated from part_001 so that the equivalence
claim compares two independent transcriptions. -/
def declLessV1 (conf : ConfigV1) (a b : GoDecl) : Option Bool := do
  let aType ← getToken a
  let bType ← getToken b
  if aType ≠ bType then
    pure (decide (order aType < order bType))
  else if conf.sortAlphabetically then
    match a, b with
    | GoDecl.funcDecl fa, GoDecl.funcDecl fb => do
      let na ← funcName fa
      let nb ← funcName fb
      if na.recv = "" ∧ na.name = "main" then pure false
      else if nb.recv = "" ∧ nb.name = "main" then pure true
      else if na.recv = "" ∧ nb.recv ≠ "" then pure false
      else if nb.recv = "" ∧ na.recv ≠ "" then pure true
      else if na.recv ≠ nb.recv then pure (strLess na.recv nb.recv)
      else pure (strLess na.name nb.name)
    | GoDecl.genDecl ga, GoDecl.genDecl gb =>
      match ga.specs, gb.specs with
      | [sa], [sb] =>
        if ga.tok = GoTok.TYPE ∧ gb.tok = GoTok.TYPE then do
          let x ← typeSpecName sa
          let y ← typeSpecName sb
          pure (strLess x y)
        else if (ga.tok = GoTok.VAR ∧ gb.tok = GoTok.VAR) ∨
            (ga.tok = GoTok.CONST ∧ gb.tok = GoTok.CONST) then do
          let x ← valueSpecName sa
          let y ← valueSpecName sb
          pure (strLess x y)
        else pure false
      | _, _ => pure false
    | _, _ => pure false
  else pure false

/-- `sortAST` from src/unnamed/part_001: the same `sort.Slice` engine applied
to that file's comparator. -/
def sortASTv1 (decls : List GoDecl) (conf : ConfigV1) : Option (List GoDecl) :=
  sortSliceM (declLessV1 conf) decls

/-- A single-spec `type` declaration named `n` at span `[p, p+8)` (for the
concrete sort inputs; only the token and spec influence the comparator). -/
def tdecl (n : String) (p : Nat) : GoDecl :=
  GoDecl.genDecl { pos := p, endPos := p + 8, tok := GoTok.TYPE,
                   specs := [GoSpec.typeSpec n] }

/-- A single-spec `var` declaration named `n` at span `[p, p+8)`. -/
def vdecl (n : String) (p : Nat) : GoDecl :=
  GoDecl.genDecl { pos := p, endPos := p + 8, tok := GoTok.VAR,
                   specs := [GoSpec.valueSpec [n]] }

/-- Sixteen single-spec declarations, types and vars interleaved: the
declaration list of a file `type T1 ...; var V1 ...; type T2 ...; ...` with 16
top-level declarations.  Sixteen exceeds `maxInsertion = 12`, so `sort.Slice`
takes pdqsort's partitioning path on it. -/
def c2input : List GoDecl :=
  [tdecl "T1" 11, vdecl "V1" 21, tdecl "T2" 31, vdecl "V2" 41,
   tdecl "T3" 51, vdecl "V3" 61, tdecl "T4" 71, vdecl "V4" 81,
   tdecl "T5" 91, vdecl "V5" 101, tdecl "T6" 111, vdecl "V6" 121,
   tdecl "T7" 131, vdecl "V7" 141, tdecl "T8" 151, vdecl "V8" 161]

/-- What `sort.Slice` makes of `c2input` with alphabetical sorting disabled:
the kinds are grouped, but the relative order of the equal-comparing same-kind
declarations is scrambled by the partitioning. -/
def c2result : List GoDecl :=
  [vdecl "V5" 101, vdecl "V1" 21, vdecl "V8" 161, vdecl "V2" 41,
   vdecl "V7" 141, vdecl "V3" 61, vdecl "V6" 121, vdecl "V4" 81,
   tdecl "T5" 91, tdecl "T1" 11, tdecl "T6" 111, tdecl "T4" 71,
   tdecl "T7" 131, tdecl "T3" 51, tdecl "T8" 151, tdecl "T2" 31]

/-- The kind priority doubled, plus one for a free `main`: the projection
under which a free `main` ranks strictly above every other declaration that
`go/parser` can produce, while every comparison the alphabetical comparator
answers is compatible with it. -/
def mainRank (d : GoDecl) : Nat :=
  2 * kindRank d + (if isFreeMainB d then 1 else 0)

/-- The sub-slice `data[a:b]` of the working array. -/
def seg (l : List α) (a b : Nat) : List α :=
  (l.drop a).take (b - a)

/-- Adjacent pairs `(k, k+1)` for `lo ≤ k < hi` are weakly increasing under
the projection `f`. -/
def AdjF [Inhabited α] (f : α → Nat) (l : List α) (lo hi : Nat) : Prop :=
  ∀ k, lo ≤ k → k < hi → f (getI l k) ≤ f (getI l (k + 1))

/-- All pairs of positions in `[a, b)` are weakly increasing under `f`. -/
def SortedRange [Inhabited α] (f : α → Nat) (l : List α) (a b : Nat) : Prop :=
  ∀ i j, a ≤ i → i ≤ j → j < b → f (getI l i) ≤ f (getI l j)

/-- Every position before `a` carries an `f`-value bounded by every position
of `[a, b)` (the quicksort context: the prefix holds already-placed elements
no greater than the current working range). -/
def PrefixBound [Inhabited α] (f : α → Nat) (l : List α) (a b : Nat) : Prop :=
  ∀ i, i < a → ∀ k, a ≤ k → k < b → f (getI l i) ≤ f (getI l k)

/-- Frame of one rearrangement step of the engine: the result is a
permutation of the whole array, and every position outside `[a, b)` keeps its
`f`-value (the algorithm may exchange `f`-equal elements across the range
boundary, but never changes the `f`-value at an outside position). -/
structure FrameF [Inhabited α] (f : α → Nat) (l out : List α) (a b : Nat) : Prop where
  perm : out.Perm l
  outF : ∀ k, k < a ∨ b ≤ k → f (getI out k) = f (getI l k)

/-- Compatibility of the comparator with a projection `f` on the elements
satisfying `P`: a comparison that answers `true` never sees a strictly
`f`-descending pair, and a comparison between a strictly `f`-ascending pair
that answers at all answers `true`. -/
structure FCompat (P : α → Prop) (less : α → α → Option Bool) (f : α → Nat) : Prop where
  h1 : ∀ u v, P u → P v → less u v = some true → f u ≤ f v
  h2 : ∀ u v b2, P u → P v → less u v = some b2 → f u < f v → b2 = true

/-- `Desc r p`: heap position `p` lies in the subtree rooted at `r` (with
children `2r + 1` and `2r + 2`), the shape along which `siftDown_func`
walks. -/
inductive Desc : Nat → Nat → Prop
  | refl (r : Nat) : Desc r r
  | left (r p : Nat) : Desc (2 * r + 1) p → Desc r p
  | right (r p : Nat) : Desc (2 * r + 2) p → Desc r p

/-- The configuration `go-order file.go` runs with (no flags). -/
def plainConf : Config := { sortAlphabetically := false, writeToFile := false }

/-- The bytes of the file `package p\n\n/*c*/var x int\n`. -/
def c3content : List Byte := asciiBytes "package p\n\n/*c*/var x int\n"

/-- The declaration `var x int` of `c3content`: 0-based bytes `[16, 25)`,
hence `Pos() = 17`, `End() = 26`. -/
def c3decl : GoDecl :=
  GoDecl.genDecl { pos := 17, endPos := 26, tok := GoTok.VAR,
                   specs := [GoSpec.valueSpec ["x"]] }

/-- The comment group `/*c*/` of `c3content`: 0-based bytes `[11, 16)`, hence
`Pos() = 12` and `End() = 17` — its exclusive end offset coincides with the
declaration's start offset (the two touch with no byte in between). -/
def c3comment : CommentGroup := { pos := 12, endPos := 17 }

/-- The AST `go/parser` produces for `c3content`: the `package` keyword at
position 1, one declaration, one root comment group. -/
def c3tree : GoFile :=
  { packagePos := 1, name := asciiBytes "p", doc := none,
    decls := [c3decl], comments := [c3comment] }

/-- The bytes of the file `package p\n\nvar x int\n\n// a\n\n// b\n`: one
declaration followed by two trailing comment groups separated by a blank
line. -/
def c7content : List Byte := asciiBytes "package p\n\nvar x int\n\n// a\n\n// b\n"

/-- The declaration `var x int` of `c7content`: 0-based bytes `[11, 20)`,
`Pos() = 12`, `End() = 21`. -/
def c7decl : GoDecl :=
  GoDecl.genDecl { pos := 12, endPos := 21, tok := GoTok.VAR,
                   specs := [GoSpec.valueSpec ["x"]] }

/-- The AST of `c7content`: the comment groups `// a` (bytes `[22, 26)`) and
`// b` (bytes `[28, 32)`) are separate groups because a blank line separates
them. -/
def c7tree : GoFile :=
  { packagePos := 1, name := asciiBytes "p", doc := none,
    decls := [c7decl],
    comments := [{ pos := 23, endPos := 27 }, { pos := 29, endPos := 33 }] }

/-- The bytes `sortFile` produces from `c7tree`/`c7content`: the sentinel
bucket contributed its initial newline, then for each trailing group the
whole suffix of the file from that group's start, so the bytes of `// b`
appear twice. -/
def c7out1 : List Byte :=
  asciiBytes "package p\n\nvar x int\n// a\n\n// b\n// b\n"

/-- The AST `go/parser` produces for `c7out1`: the same single declaration,
and now two comment groups `// a` (bytes `[21, 25)`) and `// b\n// b` (bytes
`[27, 36)` — the two `// b` lines are adjacent, so they merge into one
group). -/
def c7tree2 : GoFile :=
  { packagePos := 1, name := asciiBytes "p", doc := none,
    decls := [c7decl],
    comments := [{ pos := 22, endPos := 26 }, { pos := 28, endPos := 37 }] }

/-- The bytes `sortFile` produces from `c7out1`: the trailing comments are
duplicated once more. -/
def c7out2 : List Byte :=
  asciiBytes "package p\n\nvar x int\n// a\n\n// b\n// b\n// b\n// b\n"

/-- A method whose receiver type is neither a plain identifier nor a pointer
to one (e.g. the generic receiver `A[T]`, an `*ast.IndexExpr`): `funcName`
panics on this shape — but only if it is ever called. -/
def weirdRecvFunc : FuncDeclData :=
  { pos := 12, endPos := 32, name := "M", recv := some [GoExpr.otherExpr] }

/-- The bytes of `package p\n\nfunc (x A[T]) M() {}\n\nfunc foo() {}\n`. -/
def c9contentA : List Byte :=
  asciiBytes "package p\n\nfunc (x A[T]) M() {}\n\nfunc foo() {}\n"

/-- The AST of `c9contentA`: the malformed-receiver method (bytes `[11, 31)`)
and a free function `foo` (bytes `[33, 46)`). -/
def c9treeA : GoFile :=
  { packagePos := 1, name := asciiBytes "p", doc := none,
    decls := [GoDecl.funcDecl weirdRecvFunc,
      GoDecl.funcDecl ({ pos := 34, endPos := 47, name := "foo", recv := none })],
    comments := [] }

/-- A declaration whose dynamic type `getToken` does not recognize
(an `ast.Decl` other than `*ast.FuncDecl` and `*ast.GenDecl`), spanning
0-based bytes `[11, 24)`. -/
def badKindDecl : GoDecl := GoDecl.badDecl 12 25

/-- Bytes of a file whose single declaration is of unrecognized kind. -/
def c9contentB : List Byte := asciiBytes "package p\n\nbad decl here\n"

/-- A file holding only `badKindDecl`: with a single declaration the sort
performs no comparison at all, so `getToken` is never called. -/
def c9treeB : GoFile :=
  { packagePos := 1, name := asciiBytes "p", doc := none,
    decls := [badKindDecl], comments := [] }

/-- A file with an unrecognized-kind declaration and a second declaration:
the very first comparison of the sort touches the bad declaration. -/
def c9treeC : GoFile :=
  { packagePos := 1, name := asciiBytes "p", doc := none,
    decls := [badKindDecl, vdecl "x" 27], comments := [] }

/-- The configuration `go-order -a file.go` runs with. -/
def alphaConf : Config := { sortAlphabetically := true, writeToFile := false }

/-- Bytes of the file
`package p\n\n// doc B\nfunc B() {}\n\nfunc A() {}\n`: a comment documenting
`B`, which alphabetical sorting moves past `A`. -/
def wcontent : List Byte :=
  asciiBytes "package p\n\n// doc B\nfunc B() {}\n\nfunc A() {}\n"

/-- `func B() {}` of `wcontent`: 0-based bytes `[20, 31)`. -/
def wdeclB : GoDecl :=
  GoDecl.funcDecl { pos := 21, endPos := 32, name := "B", recv := none }

/-- `func A() {}` of `wcontent`: 0-based bytes `[33, 44)`. -/
def wdeclA : GoDecl :=
  GoDecl.funcDecl { pos := 34, endPos := 45, name := "A", recv := none }

/-- The comment group `// doc B` of `wcontent`: 0-based bytes `[11, 19)`. -/
def wcomment : CommentGroup := { pos := 12, endPos := 20 }

/-- The AST of `wcontent`. -/
def wtree : GoFile :=
  { packagePos := 1, name := asciiBytes "p", doc := none,
    decls := [wdeclB, wdeclA], comments := [wcomment] }

/-- An import declaration (for the kind-grouping witness). -/
def c5import : GoDecl :=
  GoDecl.genDecl { pos := 32, endPos := 40, tok := GoTok.IMPORT,
                   specs := [GoSpec.importSpec] }

/-- A free function `f` (for the kind-grouping witness). -/
def c5func : GoDecl :=
  GoDecl.funcDecl { pos := 42, endPos := 55, name := "f", recv := none }

/-- Four declarations of four kinds, deliberately out of kind order:
`type`, `var`, `import`, `func`. -/
def c5input : List GoDecl :=
  [tdecl "T" 12, vdecl "v" 22, c5import, c5func]

/-- A free function named `main`. -/
def c6main : GoDecl :=
  GoDecl.funcDecl { pos := 12, endPos := 25, name := "main", recv := none }

/-- A method `func (t *T) String()`. -/
def c6method : GoDecl :=
  GoDecl.funcDecl { pos := 28, endPos := 45, name := "String",
                    recv := some [GoExpr.star (GoExpr.ident "T")] }

/-- A free function `a`. -/
def c6free : GoDecl :=
  GoDecl.funcDecl { pos := 48, endPos := 60, name := "a", recv := none }

/-- A file whose `Func`-kind declarations are a free `main` (listed first), a
method and another free function, plus a `var`. -/
def c6input : List GoDecl :=
  [c6main, c6method, c6free, vdecl "x" 62]

theorem assignStep_eq (decls : List GoDecl) (pp : Nat) (content : List Byte)
    (m : Amap) (c : CommentGroup) :
    assignStep decls pp content m c =
      if isRootComment decls pp c then
        mapAppend m (attachTarget decls c) (assignedBytes decls content c)
      else m := by
  unfold assignStep assignedBytes
  cases h : attachTarget decls c <;> simp [h]

theorem mapAppend_apply (m : Amap) (t k : Option GoDecl) (v : List Byte) :
    mapAppend m t v k = if k = t then m k ++ v else m k := by
  unfold mapAppend
  split <;> simp_all

/-- Closed form of the classifier fold: the final content of bucket `k` is its
initial content followed by, for every surviving root comment whose target is
`k` in source order, the bytes the loop appends for it. -/
theorem foldl_assignStep_apply (decls : List GoDecl) (pp : Nat)
    (content : List Byte) :
    ∀ (cs : List CommentGroup) (m : Amap) (k : Option GoDecl),
      cs.foldl (assignStep decls pp content) m k =
        m k ++ ((cs.filter fun c => isRootComment decls pp c &&
            decide (attachTarget decls c = k)).map
          (assignedBytes decls content)).flatten
  | [], m, k => by simp
  | c :: cs, m, k => by
    rw [List.foldl_cons, foldl_assignStep_apply decls pp content cs, assignStep_eq]
    by_cases hroot : isRootComment decls pp c = true
    · by_cases hk : attachTarget decls c = k
      · subst hk
        simp [hroot, mapAppend_apply, List.filter_cons]
      · have hne : (decide (attachTarget decls c = k)) = false := by
          simpa using hk
        simp [hroot, mapAppend_apply, List.filter_cons, hne]
        intro hkk
        exact absurd hkk.symm hk
    · have hroot2 : isRootComment decls pp c = false := by
        simpa using hroot
      simp [hroot2, List.filter_cons]

/-- The bucket contents of the attachment map, in closed form. -/
theorem assignRoot_apply (tree : GoFile) (content : List Byte)
    (k : Option GoDecl) :
    assignRootCommentsToDecl tree content k =
      initComments k ++
        ((tree.comments.filter fun c =>
            isRootComment tree.decls tree.packagePos c &&
            decide (attachTarget tree.decls c = k)).map
          (assignedBytes tree.decls content)).flatten :=
  foldl_assignStep_apply tree.decls tree.packagePos content tree.comments
    initComments k

/-- The declaration loop of `write` emits the blocks
`attached comments ++ raw span`, separated by exactly one `"\n\n"`. -/
theorem writeDeclsLoop_eq (content : List Byte) (m : Amap) :
    ∀ l : List GoDecl,
      writeDeclsLoop content m l =
        List.intercalate [nlByte, nlByte]
          (l.map fun d => m (some d) ++ declBytes content d)
  | [] => by simp [writeDeclsLoop, List.intercalate]
  | [d] => by simp [writeDeclsLoop, List.intercalate]
  | d :: d2 :: rest => by
    rw [writeDeclsLoop, writeDeclsLoop_eq content m (d2 :: rest)]
    simp [List.intercalate, List.intersperse]

/-- Every emitted declaration block appears contiguously in the output of the
declaration loop. -/
theorem writeDeclsLoop_mem_split (content : List Byte) (m : Amap) :
    ∀ (l : List GoDecl) (d : GoDecl), d ∈ l →
      ∃ pre post, writeDeclsLoop content m l =
        pre ++ (m (some d) ++ declBytes content d) ++ post
  | [], d, hd => absurd hd (List.not_mem_nil d)
  | [d0], d, hd => by
    rcases List.mem_singleton.mp hd with rfl
    exact ⟨[], [], by simp [writeDeclsLoop]⟩
  | d0 :: d2 :: rest, d, hd => by
    rcases List.mem_cons.mp hd with rfl | hd2
    · exact ⟨[], [nlByte, nlByte] ++ writeDeclsLoop content m (d2 :: rest), by
        simp [writeDeclsLoop]⟩
    · obtain ⟨pre, post, hsplit⟩ := writeDeclsLoop_mem_split content m (d2 :: rest) d hd2
      refine ⟨m (some d0) ++ declBytes content d0 ++ [nlByte, nlByte] ++ pre, post, ?_⟩
      rw [writeDeclsLoop, hsplit]
      simp

/-- A member's image is a contiguous segment of the flattened map. -/
theorem flatten_map_mem_split (f : α → List β) :
    ∀ (l : List α) (a : α), a ∈ l → ∃ u v, (l.map f).flatten = u ++ f a ++ v
  | [], a, ha => absurd ha (List.not_mem_nil a)
  | x :: xs, a, ha => by
    rcases List.mem_cons.mp ha with rfl | ha2
    · exact ⟨[], (xs.map f).flatten, by simp⟩
    · obtain ⟨u, v, huv⟩ := flatten_map_mem_split f xs a ha2
      exact ⟨f x ++ u, v, by simp [huv]⟩

/-- `List.find?` finds the first element satisfying the test: the found
element satisfies it and everything before it fails it. -/
theorem find?_first_split (p : α → Bool) :
    ∀ (l : List α) (a : α), l.find? p = some a →
      p a = true ∧ ∃ l1 l2, l = l1 ++ a :: l2 ∧ ∀ x ∈ l1, p x = false
  | [], a, h => by simp [List.find?] at h
  | x :: xs, a, h => by
    by_cases hx : p x = true
    · rw [List.find?_cons_of_pos _ hx] at h
      cases h
      exact ⟨hx, [], xs, rfl, by simp⟩
    · have hx2 : p x = false := by simpa using hx
      rw [List.find?_cons_of_neg _ (by simp [hx2])] at h
      obtain ⟨hpa, l1, l2, hsplit, hfail⟩ := find?_first_split p xs a h
      exact ⟨hpa, x :: l1, l2, by simp [hsplit], by
        intro y hy
        rcases List.mem_cons.mp hy with rfl | hy2
        · exact hx2
        · exact hfail y hy2⟩

/-!
## Properties of the insertion-sort regime

For every comparison this sort makes, the comparator actually returned a
value; consequently each adjacent pair `(u, v)` of the result was settled by
an evaluated comparison, which is what `Radj` records.
-/

theorem insertRevM_spec (less : α → α → Option Bool) (x : α) :
    ∀ (acc acc2 : List α), insertRevM less x acc = some acc2 →
      List.Chain' (fun a b => Radj less b a) acc →
      acc2.Perm (x :: acc) ∧ List.Chain' (fun a b => Radj less b a) acc2 ∧
        (acc2.head? = some x ∨ acc2.head? = acc.head?)
  | [], acc2, h, _ => by
    cases h
    exact ⟨List.Perm.refl _, by simp, Or.inl rfl⟩
  | y :: rest, acc2, h, hchain => by
    rw [insertRevM] at h
    cases hb : less x y with
    | none => rw [hb] at h; cases h
    | some b =>
      rw [hb] at h
      cases b with
      | false =>
        simp only [Option.bind_eq_bind] at h
        cases h
        refine ⟨List.Perm.refl _, ?_, Or.inl rfl⟩
        exact List.Chain'.cons (Or.inl hb) hchain
      | true =>
        simp only [Option.bind_eq_bind] at h
        cases hr : insertRevM less x rest with
        | none => rw [hr] at h; cases h
        | some r =>
          rw [hr] at h
          cases h
          obtain ⟨hperm, hch, hhead⟩ :=
            insertRevM_spec less x rest r hr (List.Chain'.tail hchain)
          refine ⟨?_, ?_, Or.inr rfl⟩
          · exact (hperm.cons y).trans (List.Perm.swap x y rest)
          · cases r with
            | nil =>
              have := hperm.symm.length_eq
              simp at this
            | cons z r2 =>
              refine List.Chain'.cons ?_ hch
              rcases hhead with hz | hz
              · cases hz
                exact Or.inr hb
              · cases rest with
                | nil => simp at hz
                | cons w rest2 =>
                  cases hz
                  exact (List.chain'_cons.mp hchain).1

theorem insertionSortRevM_spec (less : α → α → Option Bool) :
    ∀ (xs acc r : List α), insertionSortRevM less acc xs = some r →
      List.Chain' (fun a b => Radj less b a) acc →
      r.Perm (xs ++ acc) ∧ List.Chain' (fun a b => Radj less b a) r
  | [], acc, r, h, hchain => by
    cases h
    exact ⟨by simp, hchain⟩
  | x :: xs, acc, r, h, hchain => by
    rw [insertionSortRevM] at h
    simp only [Option.bind_eq_bind] at h
    cases hacc : insertRevM less x acc with
    | none => rw [hacc] at h; cases h
    | some acc2 =>
      rw [hacc] at h
      obtain ⟨hperm2, hch2, _⟩ := insertRevM_spec less x acc acc2 hacc hchain
      obtain ⟨hperm, hch⟩ := insertionSortRevM_spec less xs acc2 r h hch2
      refine ⟨?_, hch⟩
      exact hperm.trans ((hperm2.append_left xs).trans List.perm_middle)

theorem insertionSortM_spec (less : α → α → Option Bool) (l r : List α)
    (h : insertionSortM less l = some r) :
    r.Perm l ∧ List.Chain' (Radj less) r := by
  rw [insertionSortM] at h
  simp only [Option.bind_eq_bind] at h
  cases hrev : insertionSortRevM less [] l with
  | none => rw [hrev] at h; cases h
  | some r0 =>
    rw [hrev] at h
    cases h
    obtain ⟨hperm, hch⟩ := insertionSortRevM_spec less l [] r0 hrev (by simp)
    constructor
    · exact (List.reverse_perm r0).trans (by simpa using hperm)
    · exact List.chain'_reverse.mpr (by
        simpa [Function.flip_def] using hch)

/-- On ranges of at most `maxInsertion = 12` elements — in particular on every
whole slice of at most 12 declarations — `pdqsort` is exactly its insertion
sort. -/
theorem sortSliceM_eq_insertionSortM [Inhabited α] (less : α → α → Option Bool)
    (l : List α) (h : l.length ≤ 12) :
    sortSliceM less l = insertionSortM less l := by
  have hstep : sortSliceM less l =
      pdqsortM less (2 * l.length + 7 + 1) l 0 l.length (bitsLen l.length)
        true true := by
    rw [sortSliceM]
  rw [hstep, pdqsortM]
  have hlen : l.length - 0 ≤ 12 := by omega
  simp only [hlen, if_pos]
  rw [onSegM]
  simp only [Nat.sub_zero, List.drop_zero, List.take_length, List.take_zero,
    List.drop_length]
  cases hins : insertionSortM less l <;> simp

/-- `sortAST` on at most 12 declarations: the result is a permutation of the
input and adjacent pairs are witnessed by evaluated comparisons. -/
theorem sortAST_spec (decls : List GoDecl) (conf : Config)
    (sorted : List GoDecl) (hlen : decls.length ≤ 12)
    (hsort : sortAST decls conf = some sorted) :
    sorted.Perm decls ∧ List.Chain' (Radj (declLess conf)) sorted := by
  rw [sortAST, sortSliceM_eq_insertionSortM _ _ hlen] at hsort
  exact insertionSortM_spec _ _ _ hsort

/-!
## Computation lemmas for the comparator
-/

theorem declLess_none_left (conf : Config) (a b : GoDecl)
    (h : getToken a = none) : declLess conf a b = none := by
  unfold declLess
  rw [h]
  rfl

theorem declLess_none_right (conf : Config) (a b : GoDecl)
    (h : getToken b = none) : declLess conf a b = none := by
  unfold declLess
  cases ha : getToken a
  · rfl
  · rw [h]
    rfl

theorem declLess_diff_tok (conf : Config) (u v : GoDecl) (tu tv : GoTok)
    (hu : getToken u = some tu) (hv : getToken v = some tv) (hne : tu ≠ tv) :
    declLess conf u v = some (decide (order tu < order tv)) := by
  unfold declLess
  rw [hu, hv]
  simp [hne]

theorem declLess_funcs_left_none (conf : Config)
    (halpha : conf.sortAlphabetically = true) (fa fb : FuncDeclData)
    (ha : funcName fa = none) :
    declLess conf (GoDecl.funcDecl fa) (GoDecl.funcDecl fb) = none := by
  unfold declLess
  simp [getToken, halpha, ha]

theorem declLess_funcs_right_none (conf : Config)
    (halpha : conf.sortAlphabetically = true) (fa fb : FuncDeclData)
    (hb : funcName fb = none) :
    declLess conf (GoDecl.funcDecl fa) (GoDecl.funcDecl fb) = none := by
  unfold declLess
  cases ha : funcName fa <;> simp [getToken, halpha, ha, hb]

theorem declLess_main_left (conf : Config)
    (halpha : conf.sortAlphabetically = true) (fa fb : FuncDeclData)
    (na : funcOrMethod) (ha : funcName fa = some na)
    (hmain : na.recv = "" ∧ na.name = "main") :
    declLess conf (GoDecl.funcDecl fa) (GoDecl.funcDecl fb) = none ∨
      declLess conf (GoDecl.funcDecl fa) (GoDecl.funcDecl fb) = some false := by
  cases hb : funcName fb with
  | none => exact Or.inl (declLess_funcs_right_none conf halpha fa fb hb)
  | some nb =>
    refine Or.inr ?_
    unfold declLess
    simp [getToken, halpha, ha, hb, hmain]

theorem declLess_main_right (conf : Config)
    (halpha : conf.sortAlphabetically = true) (fa fb : FuncDeclData)
    (na nb : funcOrMethod) (ha : funcName fa = some na)
    (hb : funcName fb = some nb)
    (hna : ¬(na.recv = "" ∧ na.name = "main"))
    (hmain : nb.recv = "" ∧ nb.name = "main") :
    declLess conf (GoDecl.funcDecl fa) (GoDecl.funcDecl fb) = some true := by
  unfold declLess
  simp [getToken, halpha, ha, hb, hna, hmain]

/-!
## Abort behavior of the sort on a declaration the comparator rejects
-/

theorem insertRevM_ne_nil (less : α → α → Option Bool) (x : α) :
    ∀ (acc r : List α), insertRevM less x acc = some r → r ≠ []
  | [], r, h => by cases h; simp
  | y :: rest, r, h => by
    rw [insertRevM] at h
    cases hb : less x y with
    | none => rw [hb] at h; cases h
    | some b =>
      rw [hb] at h
      cases b with
      | false => simp only [Option.bind_eq_bind] at h; cases h; simp
      | true =>
        simp only [Option.bind_eq_bind] at h
        cases hr : insertRevM less x rest with
        | none => rw [hr] at h; cases h
        | some r2 => rw [hr] at h; cases h; simp

/-- Once the sorted prefix is nonempty, a declaration for which every
comparison panics aborts the rest of the insertion sort. -/
theorem insertionSortRevM_toxic (less : α → α → Option Bool) (d : α)
    (hL : ∀ y, less d y = none) :
    ∀ (xs acc : List α), acc ≠ [] → d ∈ xs →
      insertionSortRevM less acc xs = none
  | [], acc, hacc, hd => absurd hd (List.not_mem_nil d)
  | x :: xs, acc, hacc, hd => by
    rw [insertionSortRevM]
    simp only [Option.bind_eq_bind]
    rcases List.mem_cons.mp hd with rfl | hd2
    · cases acc with
      | nil => exact absurd rfl hacc
      | cons a acc2 =>
        rw [insertRevM, hL a]
        rfl
    · cases hacc2 : insertRevM less x acc with
      | none => rfl
      | some acc2 =>
        simp only [Option.some_bind]
        exact insertionSortRevM_toxic less d hL xs acc2
          (insertRevM_ne_nil less x acc acc2 hacc2) hd2

/-- With at least two declarations present, one toxic declaration aborts the
whole insertion sort: either it is inserted into a nonempty prefix (its first
comparison panics), or it is the first element and the second element's first
comparison is against it. -/
theorem insertionSortM_toxic (less : α → α → Option Bool) (d : α)
    (hL : ∀ y, less d y = none) (hR : ∀ y, less y d = none)
    (l : List α) (hd : d ∈ l) (hlen : 2 ≤ l.length) :
    insertionSortM less l = none := by
  cases l with
  | nil => simp at hlen
  | cons x xs =>
    rw [insertionSortM]
    simp only [Option.bind_eq_bind]
    rw [insertionSortRevM]
    simp only [Option.bind_eq_bind, insertRevM, Option.some_bind]
    rcases List.mem_cons.mp hd with rfl | hd2
    · cases xs with
      | nil => simp at hlen
      | cons y ys =>
        rw [insertionSortRevM]
        simp only [Option.bind_eq_bind]
        rw [insertRevM, hR y]
        rfl
    · rw [insertionSortRevM_toxic less d hL xs [x] (by simp) hd2]
      rfl

/-!
## Consequences of the adjacency relation
-/

theorem order_le_four (t : GoTok) : order t ≤ 4 := by
  cases t <;> simp [order]

theorem order_lt_four (t : GoTok) (h : t ≠ GoTok.FUNC) : order t < 4 := by
  cases t <;> simp_all [order]

/-- Adjacent survivors of the sort are in weakly increasing kind priority:
whichever comparison the sort evaluated for the pair is incompatible with a
kind inversion. -/
theorem Radj_kindRank (conf : Config) (u v : GoDecl)
    (h : Radj (declLess conf) u v) : kindRank u ≤ kindRank v := by
  by_contra hle
  push_neg at hle
  cases hu : getToken u with
  | none => simp [kindRank, hu, order] at hle
  | some tu =>
    cases hv : getToken v with
    | none =>
      rcases h with h1 | h2
      · rw [declLess_none_left conf v u hv] at h1
        cases h1
      · rw [declLess_none_right conf u v hv] at h2
        cases h2
    | some tv =>
      have hrank : order tv < order tu := by
        simpa [kindRank, hu, hv] using hle
      have hne : tv ≠ tu := by
        intro he
        rw [he] at hrank
        omega
      rcases h with h1 | h2
      · rw [declLess_diff_tok conf v u tv tu hv hu hne] at h1
        simp at h1
        omega
      · rw [declLess_diff_tok conf u v tu tv hu hv (Ne.symm hne)] at h2
        simp at h2
        omega

/-- Nothing can survive adjacently after a free `main` under alphabetical
sorting (given the parser invariants: no `GenDecl` is tagged `FUNC`), except
another free `main`. -/
theorem Radj_after_main (conf : Config)
    (halpha : conf.sortAlphabetically = true)
    (fm : FuncDeclData) (nm : funcOrMethod) (hnm : funcName fm = some nm)
    (hmm : nm.recv = "" ∧ nm.name = "main") (v : GoDecl)
    (hvgen : ∀ g : GenDeclData, v = GoDecl.genDecl g → g.tok ≠ GoTok.FUNC)
    (hvne : ¬ isFreeMainB v = true)
    (h : Radj (declLess conf) (GoDecl.funcDecl fm) v) : False := by
  cases v with
  | badDecl p e =>
    rcases h with h1 | h2
    · rw [declLess_none_left conf _ _ (by rfl)] at h1
      cases h1
    · rw [declLess_none_right conf _ _ (by rfl)] at h2
      cases h2
  | genDecl g =>
    have hgtok : g.tok ≠ GoTok.FUNC := hvgen g rfl
    rcases h with h1 | h2
    · rw [declLess_diff_tok conf _ _ g.tok GoTok.FUNC (by rfl) (by rfl) hgtok] at h1
      have h1b : ¬(order g.tok < order GoTok.FUNC) := by simpa using h1
      exact h1b (order_lt_four g.tok hgtok)
    · rw [declLess_diff_tok conf _ _ GoTok.FUNC g.tok (by rfl) (by rfl)
        (Ne.symm hgtok)] at h2
      have h2b : order GoTok.FUNC < order g.tok := by simpa using h2
      have h4 : order GoTok.FUNC = 4 := rfl
      have hle := order_le_four g.tok
      rw [h4] at h2b
      omega
  | funcDecl fv =>
    cases hfv : funcName fv with
    | none =>
      rcases h with h1 | h2
      · rw [declLess_funcs_left_none conf halpha fv fm hfv] at h1
        cases h1
      · rw [declLess_funcs_right_none conf halpha fm fv hfv] at h2
        cases h2
    | some nv =>
      have hnv : ¬(nv.recv = "" ∧ nv.name = "main") := by
        simp [isFreeMainB, hfv] at hvne
        intro hc
        exact absurd (hvne hc.1) (by simp [hc.2])
      rcases h with h1 | h2
      · rw [declLess_main_right conf halpha fv fm nv nm hfv hnm hnv hmm] at h1
        cases h1
      · rcases declLess_main_left conf halpha fm fv nm hnm hmm with hc | hc <;>
          rw [hc] at h2 <;> cases h2

/-!
## Universal properties of the sort engine: index and segment toolkit

These lemmas support the `pdqsort` correctness argument: reading, writing and
swapping positions, extracting segments, and transporting bounds along the
frame of a rearrangement step.
-/

theorem getI_def [Inhabited α] (l : List α) (i : Nat) :
    getI l i = (l[i]?).getD default :=
  List.getD_eq_getElem?_getD l i default

theorem getI_eq_getElem [Inhabited α] (l : List α) (i : Nat) (h : i < l.length) :
    getI l i = l[i] := by
  rw [getI_def, List.getElem?_eq_getElem h]
  rfl

theorem getI_mem [Inhabited α] (l : List α) (i : Nat) (h : i < l.length) :
    getI l i ∈ l := by
  rw [getI_eq_getElem l i h]
  exact List.getElem_mem h

theorem getI_set_eq [Inhabited α] (l : List α) (i : Nat) (x : α)
    (h : i < l.length) : getI (l.set i x) i = x := by
  rw [getI_def, List.getElem?_set_self h]
  rfl

theorem getI_set_ne [Inhabited α] (l : List α) (i j : Nat) (x : α)
    (h : i ≠ j) : getI (l.set i x) j = getI l j := by
  rw [getI_def, getI_def, List.getElem?_set_ne h]

theorem swapL_length [Inhabited α] (l : List α) (i j : Nat) :
    (swapL l i j).length = l.length := by
  simp [swapL]

theorem getI_swapL_fst [Inhabited α] (l : List α) (i j : Nat)
    (hi : i < l.length) : getI (swapL l i j) i = getI l j := by
  unfold swapL
  by_cases hij : i = j
  · subst hij
    rw [getI_set_eq _ _ _ (by simpa using hi)]
  · rw [getI_set_ne _ _ _ _ fun h => hij h.symm, getI_set_eq _ _ _ hi]

theorem getI_swapL_snd [Inhabited α] (l : List α) (i j : Nat)
    (hj : j < l.length) : getI (swapL l i j) j = getI l i := by
  unfold swapL
  rw [getI_set_eq _ _ _ (by simpa using hj)]

theorem getI_swapL_ne [Inhabited α] (l : List α) (i j k : Nat)
    (hki : k ≠ i) (hkj : k ≠ j) : getI (swapL l i j) k = getI l k := by
  unfold swapL
  rw [getI_set_ne _ _ _ _ fun h => hkj h.symm,
    getI_set_ne _ _ _ _ fun h => hki h.symm]

theorem cons_set_perm [Inhabited α] :
    ∀ (xs : List α) (k : Nat) (x : α), k < xs.length →
      (getI xs k :: xs.set k x).Perm (x :: xs)
  | [], k, x, h => by simp at h
  | y :: ys, 0, x, h => by
    have h0 : getI (y :: ys) 0 = y := rfl
    rw [h0]
    exact List.Perm.swap x y ys
  | y :: ys, k + 1, x, h => by
    have hk : k < ys.length := by simpa using h
    have hcons : getI (y :: ys) (k + 1) = getI ys k := rfl
    have hset : (y :: ys).set (k + 1) x = y :: ys.set k x := rfl
    rw [hcons, hset]
    have step1 : (getI ys k :: y :: ys.set k x).Perm
        (y :: getI ys k :: ys.set k x) := List.Perm.swap y (getI ys k) _
    have step2 : (y :: getI ys k :: ys.set k x).Perm (y :: x :: ys) :=
      (cons_set_perm ys k x hk).cons y
    have step3 : (y :: x :: ys).Perm (x :: y :: ys) := List.Perm.swap x y ys
    exact (step1.trans step2).trans step3

theorem set_getI_self [Inhabited α] (l : List α) (i : Nat) (h : i < l.length) :
    l.set i (getI l i) = l := by
  apply List.ext_getElem?
  intro k
  by_cases hk : i = k
  · cases hk
    rw [List.getElem?_set_self h, getI_eq_getElem l i h,
      List.getElem?_eq_getElem h]
  · rw [List.getElem?_set_ne hk]

theorem set_set_perm [Inhabited α] :
    ∀ (l : List α) (i j : Nat), i < j → j < l.length →
      ((l.set i (getI l j)).set j (getI l i)).Perm l
  | [], _, j, _, hj => by simp at hj
  | x :: xs, 0, j, hij, hj => by
    obtain ⟨k, rfl⟩ : ∃ k, j = k + 1 := ⟨j - 1, by omega⟩
    have hk : k < xs.length := by simpa using hj
    have h1 : getI (x :: xs) (k + 1) = getI xs k := rfl
    have h2 : getI (x :: xs) 0 = x := rfl
    have h3 : (x :: xs).set 0 (getI xs k) = getI xs k :: xs := rfl
    have h4 : (getI xs k :: xs).set (k + 1) x = getI xs k :: xs.set k x := rfl
    rw [h1, h2, h3, h4]
    exact cons_set_perm xs k x hk
  | x :: xs, i + 1, j, hij, hj => by
    obtain ⟨k, rfl⟩ : ∃ k, j = k + 1 := ⟨j - 1, by omega⟩
    have hk : k < xs.length := by simpa using hj
    have ih := set_set_perm xs i k (by omega) hk
    have h1 : getI (x :: xs) (k + 1) = getI xs k := rfl
    have h2 : getI (x :: xs) (i + 1) = getI xs i := rfl
    have h3 : (x :: xs).set (i + 1) (getI xs k) = x :: xs.set i (getI xs k) := rfl
    have h4 : (x :: xs.set i (getI xs k)).set (k + 1) (getI xs i) =
        x :: (xs.set i (getI xs k)).set k (getI xs i) := rfl
    rw [h1, h2, h3, h4]
    exact ih.cons x

theorem swapL_perm [Inhabited α] (l : List α) (i j : Nat)
    (hi : i < l.length) (hj : j < l.length) : (swapL l i j).Perm l := by
  unfold swapL
  rcases Nat.lt_trichotomy i j with h | h | h
  · exact set_set_perm l i j h hj
  · subst h
    rw [List.set_set, set_getI_self l i hi]
  · rw [List.set_comm _ _ _ (by omega)]
    exact set_set_perm l j i h hi

theorem seg_length (l : List α) (a b : Nat) (hab : a ≤ b) (hb : b ≤ l.length) :
    (seg l a b).length = b - a := by
  simp [seg]
  omega

theorem getI_seg [Inhabited α] (l : List α) (a b t : Nat) (ht : t < b - a)
    (hb : b ≤ l.length) : getI (seg l a b) t = getI l (a + t) := by
  rw [getI_eq_getElem _ _ (by rw [seg_length l a b (by omega) hb]; omega),
    getI_eq_getElem _ _ (by omega)]
  simp [seg]

theorem mem_seg [Inhabited α] (l : List α) (a b k : Nat) (hk1 : a ≤ k)
    (hk2 : k < b) (hb : b ≤ l.length) : getI l k ∈ seg l a b := by
  have h := getI_seg l a b (k - a) (by omega) hb
  rw [show a + (k - a) = k by omega] at h
  rw [← h]
  exact getI_mem _ _ (by rw [seg_length l a b (by omega) hb]; omega)

theorem mem_seg_inv [Inhabited α] (l : List α) (a b : Nat) (x : α)
    (hab : a ≤ b) (hb : b ≤ l.length) (hx : x ∈ seg l a b) :
    ∃ k, a ≤ k ∧ k < b ∧ getI l k = x := by
  obtain ⟨t, ht, hget⟩ := List.getElem_of_mem hx
  rw [seg_length l a b hab hb] at ht
  refine ⟨a + t, by omega, by omega, ?_⟩
  rw [← getI_seg l a b t ht hb,
    getI_eq_getElem _ _ (by rw [seg_length l a b hab hb]; omega)]
  exact hget

theorem seg_decomp (l : List α) (a b : Nat) (hab : a ≤ b) (hb : b ≤ l.length) :
    l = l.take a ++ seg l a b ++ l.drop b := by
  conv_lhs => rw [← List.take_append_drop a l]
  rw [List.append_assoc]
  congr 1
  conv_lhs => rw [← List.take_append_drop (b - a) (l.drop a)]
  unfold seg
  congr 1
  rw [List.drop_drop]
  congr 1
  omega

theorem FrameF.refl [Inhabited α] (f : α → Nat) (l : List α) (a b : Nat) :
    FrameF f l l a b :=
  ⟨List.Perm.refl l, fun _ _ => rfl⟩

theorem FrameF.comp [Inhabited α] (f : α → Nat) (l m out : List α) (a b : Nat)
    (h1 : FrameF f l m a b) (h2 : FrameF f m out a b) : FrameF f l out a b :=
  ⟨h2.perm.trans h1.perm, fun k hk => (h2.outF k hk).trans (h1.outF k hk)⟩

theorem FrameF.mono [Inhabited α] (f : α → Nat) (l out : List α)
    (a b a2 b2 : Nat) (h : FrameF f l out a b) (ha : a2 ≤ a) (hb : b ≤ b2) :
    FrameF f l out a2 b2 :=
  ⟨h.perm, fun k hk => h.outF k (by omega)⟩

theorem mapF_take_eq [Inhabited α] (f : α → Nat) (l out : List α) (a : Nat)
    (hlen : out.length = l.length) (ha : a ≤ l.length)
    (h : ∀ k, k < a → f (getI out k) = f (getI l k)) :
    (out.take a).map f = (l.take a).map f := by
  apply List.ext_getElem
  · simp
    omega
  · intro t h1 h2
    simp only [List.length_map, List.length_take, lt_min_iff] at h1 h2
    simp only [List.getElem_map, List.getElem_take]
    rw [← getI_eq_getElem out t (by omega), ← getI_eq_getElem l t (by omega)]
    exact h t (by omega)

theorem mapF_drop_eq [Inhabited α] (f : α → Nat) (l out : List α) (b : Nat)
    (hlen : out.length = l.length)
    (h : ∀ k, b ≤ k → f (getI out k) = f (getI l k)) :
    (out.drop b).map f = (l.drop b).map f := by
  apply List.ext_getElem
  · simp
    omega
  · intro t h1 h2
    simp only [List.length_map, List.length_drop] at h1 h2
    simp only [List.getElem_map, List.getElem_drop]
    rw [← getI_eq_getElem out (b + t) (by omega),
      ← getI_eq_getElem l (b + t) (by omega)]
    exact h (b + t) (by omega)

/-- The frame preserves the multiset of `f`-values of the working range. -/
theorem FrameF.segF [Inhabited α] (f : α → Nat) (l out : List α) (a b : Nat)
    (h : FrameF f l out a b) (hab : a ≤ b) (hb : b ≤ l.length) :
    ((seg out a b).map f).Perm ((seg l a b).map f) := by
  have hlen : out.length = l.length := h.perm.length_eq
  have hperm : (out.map f).Perm (l.map f) := h.perm.map f
  rw [seg_decomp out a b hab (by omega), seg_decomp l a b hab hb] at hperm
  simp only [List.map_append] at hperm
  rw [mapF_take_eq f l out a hlen (by omega) (fun k hk => h.outF k (Or.inl hk)),
    mapF_drop_eq f l out b hlen (fun k hk => h.outF k (Or.inr hk))] at hperm
  have h1 := (List.perm_append_left_iff ((l.take a).map f)).mp
    (by simpa [List.append_assoc] using hperm)
  exact (List.perm_append_right_iff ((List.map f l).drop b)).mp h1

/-- Transport a pointwise property of the `f`-values of the range along a
frame. -/
theorem FrameF.segAll [Inhabited α] (f : α → Nat) (l out : List α) (a b : Nat)
    (h : FrameF f l out a b) (hab : a ≤ b) (hb : b ≤ l.length)
    (Q : Nat → Prop) (hQ : ∀ k, a ≤ k → k < b → Q (f (getI l k))) :
    ∀ k, a ≤ k → k < b → Q (f (getI out k)) := by
  intro k hk1 hk2
  have hmem : f (getI out k) ∈ (seg out a b).map f :=
    List.mem_map_of_mem f (mem_seg out a b k hk1 hk2 (by rw [h.perm.length_eq]; omega))
  have hmem2 : f (getI out k) ∈ (seg l a b).map f :=
    (h.segF f l out a b hab hb).mem_iff.mp hmem
  obtain ⟨x, hx, hfx⟩ := List.mem_map.mp hmem2
  obtain ⟨k2, hk21, hk22, hget⟩ := mem_seg_inv l a b x hab hb hx
  rw [← hfx, ← hget]
  exact hQ k2 hk21 hk22

theorem PrefixBound.transfer [Inhabited α] (f : α → Nat) (l out : List α)
    (a b : Nat) (hpb : PrefixBound f l a b) (hfr : FrameF f l out a b)
    (hab : a ≤ b) (hb : b ≤ l.length) : PrefixBound f out a b := by
  intro i hi k hk1 hk2
  rw [hfr.outF i (Or.inl hi)]
  exact hfr.segAll f l out a b hab hb (fun x => f (getI l i) ≤ x)
    (fun k2 h1 h2 => hpb i hi k2 h1 h2) k hk1 hk2

theorem adjF_sorted [Inhabited α] (f : α → Nat) (l : List α) (a b : Nat)
    (h : AdjF f l a (b - 1)) : SortedRange f l a b := by
  intro i j hai hij hjb
  have key : ∀ n j2, j2 = i + n → j2 < b → f (getI l i) ≤ f (getI l j2) := by
    intro n
    induction n with
    | zero =>
      intro j2 hj2 _
      subst hj2
      simpa using Nat.le_refl _
    | succ n ih =>
      intro j2 hj2 hj2b
      have hstep := h (i + n) (by omega) (by omega)
      have hih := ih (i + n) rfl (by omega)
      rw [hj2, show i + (n + 1) = i + n + 1 by omega]
      exact le_trans hih hstep
  exact key (j - i) j (by omega) hjb

/-!
## Universal properties of the sort engine: scans and partitioning
-/

theorem scanUpM_spec [Inhabited α] (p : α → Option Bool) (l : List α) :
    ∀ (fuel i j i2 : Nat), scanUpM p l fuel i j = some i2 →
      i ≤ i2 ∧ (i2 ≤ j + 1 ∨ i2 = i) ∧
      (∀ k, i ≤ k → k < i2 → p (getI l k) = some true) ∧
      (i2 ≤ j → p (getI l i2) = some false)
  | 0, i, j, i2, h => by cases h
  | fuel + 1, i, j, i2, h => by
    rw [scanUpM] at h
    by_cases hij : i ≤ j
    · rw [if_pos hij] at h
      simp only [Option.bind_eq_bind] at h
      cases hb : p (getI l i) with
      | none => rw [hb] at h; cases h
      | some b =>
        rw [hb] at h
        cases b with
        | true =>
          simp only [Option.some_bind] at h
          rw [if_pos trivial] at h
          obtain ⟨h1, h2, h3, h4⟩ := scanUpM_spec p l fuel (i + 1) j i2 h
          refine ⟨by omega, by omega, ?_, h4⟩
          intro k hk1 hk2
          rcases Nat.eq_or_lt_of_le hk1 with rfl | hk
          · exact hb
          · exact h3 k hk hk2
        | false =>
          simp only [Option.some_bind] at h
          rw [if_neg (by simp)] at h
          cases h
          exact ⟨Nat.le_refl i, by omega, fun k h1 h2 => by omega,
            fun _ => hb⟩
    · rw [if_neg hij] at h
      cases h
      exact ⟨Nat.le_refl i, Or.inr rfl, fun k h1 h2 => by omega,
        fun h2 => by omega⟩

theorem scanDnM_spec [Inhabited α] (p : α → Option Bool) (l : List α) :
    ∀ (fuel i j j2 : Nat), 1 ≤ i → scanDnM p l fuel i j = some j2 →
      j2 ≤ j ∧ (i ≤ j2 + 1 ∨ j2 = j) ∧
      (∀ k, j2 < k → k ≤ j → p (getI l k) = some true) ∧
      (i ≤ j2 → p (getI l j2) = some false)
  | 0, i, j, j2, _, h => by cases h
  | fuel + 1, i, j, j2, hi, h => by
    rw [scanDnM] at h
    by_cases hij : i ≤ j
    · rw [if_pos hij] at h
      simp only [Option.bind_eq_bind] at h
      cases hb : p (getI l j) with
      | none => rw [hb] at h; cases h
      | some b =>
        rw [hb] at h
        cases b with
        | true =>
          simp only [Option.some_bind] at h
          rw [if_pos trivial] at h
          obtain ⟨h1, h2, h3, h4⟩ := scanDnM_spec p l fuel i (j - 1) j2 hi h
          refine ⟨by omega, by omega, ?_, h4⟩
          intro k hk1 hk2
          rcases Nat.eq_or_lt_of_le hk2 with rfl | hk
          · exact hb
          · exact h3 k hk1 (by omega)
        | false =>
          simp only [Option.some_bind] at h
          rw [if_neg (by simp)] at h
          cases h
          exact ⟨Nat.le_refl j, by omega, fun k h1 h2 => by omega,
            fun _ => hb⟩
    · rw [if_neg hij] at h
      cases h
      exact ⟨Nat.le_refl j, Or.inr rfl, fun k h1 h2 => by omega,
        fun h2 => by omega⟩

theorem notM_true (o : Option Bool)
    (h : (o.bind fun b2 => some (!b2)) = some true) : o = some false := by
  cases o with
  | none => cases h
  | some b => cases b <;> simp_all

theorem notM_false (o : Option Bool)
    (h : (o.bind fun b2 => some (!b2)) = some false) : o = some true := by
  cases o with
  | none => cases h
  | some b => cases b <;> simp_all

/-- Invariant of the interchange loop of `partition_func`: on success the
working range splits at the returned index into an evaluated-`true` block and
an evaluated-`false` block; only positions of `[i, j]` are touched. -/
theorem partitionLoopM_spec [Inhabited α] (less : α → α → Option Bool)
    (pv : α) (a b : Nat) :
    ∀ (fuel : Nat) (l : List α) (i j : Nat) (l2 : List α) (jf : Nat),
      partitionLoopM less pv fuel l i j = some (l2, jf) →
      b ≤ l.length → 1 ≤ b →
      a + 1 ≤ i → a ≤ j → j ≤ b - 1 →
      (∀ k, a + 1 ≤ k → k < i → less (getI l k) pv = some true) →
      (∀ k, j < k → k ≤ b - 1 → less (getI l k) pv = some false) →
      l2.Perm l ∧
      (∀ k, k < i ∨ j < k → getI l2 k = getI l k) ∧
      a ≤ jf ∧ jf ≤ j ∧
      (∀ k, a + 1 ≤ k → k ≤ jf → less (getI l2 k) pv = some true) ∧
      (∀ k, jf < k → k ≤ b - 1 → less (getI l2 k) pv = some false)
  | 0, l, i, j, l2, jf, h, _, _, _, _, _, _, _ => by cases h
  | fuel + 1, l, i, j, l2, jf, h, hb, hb1, hi, hjl, hju, Htrue, Hfalse => by
    rw [partitionLoopM] at h
    simp only [Option.bind_eq_bind] at h
    cases hsu : scanUpM (fun x => less x pv) l (l.length + 2) i j with
    | none => rw [hsu] at h; cases h
    | some i2 =>
      rw [hsu] at h
      simp only [Option.some_bind] at h
      cases hsd : scanDnM (fun x => (less x pv).bind fun b2 => pure (!b2)) l
          (l.length + 2) i2 j with
      | none => rw [hsd] at h; cases h
      | some j2 =>
        rw [hsd] at h
        simp only [Option.some_bind] at h
        obtain ⟨hu1, hu2, hu3, hu4⟩ :=
          scanUpM_spec (fun x => less x pv) l (l.length + 2) i j i2 hsu
        obtain ⟨hd1, hd2, hd3, hd4⟩ :=
          scanDnM_spec (fun x => (less x pv).bind fun b2 => pure (!b2)) l
            (l.length + 2) i2 j j2 (by omega) hsd
        by_cases hcross : i2 > j2
        · rw [if_pos hcross] at h
          cases h
          refine ⟨List.Perm.refl l, fun k _ => rfl, by omega, hd1, ?_, ?_⟩
          · intro k hk1 hk2
            by_cases hki : k < i
            · exact Htrue k hk1 hki
            · exact hu3 k (by omega) (by omega)
          · intro k hk1 hk2
            by_cases hkj : j < k
            · exact Hfalse k hkj hk2
            · exact notM_true _ (hd3 k hk1 (by omega))
        · rw [if_neg hcross] at h
          have hij2 : i2 ≤ j2 := by omega
          have hi2b : i2 < l.length := by omega
          have hj2b : j2 < l.length := by omega
          have hstopu : less (getI l i2) pv = some false := hu4 (by omega)
          have hstopd : less (getI l j2) pv = some true :=
            notM_false _ (hd4 (by omega))
          set lsw := swapL l i2 j2 with hlsw
          have hswlen : lsw.length = l.length := swapL_length l i2 j2
          obtain ⟨ih1, ih2, ih3, ih4, ih5, ih6⟩ :=
            partitionLoopM_spec less pv a b fuel lsw (i2 + 1) (j2 - 1) l2 jf h
              (by omega) hb1 (by omega) (by omega) (by omega)
              (by
                intro k hk1 hk2
                by_cases hki2 : k = i2
                · rw [hlsw, hki2, getI_swapL_fst l i2 j2 hi2b]
                  exact hstopd
                · rw [getI_swapL_ne l i2 j2 k hki2 (by omega)]
                  by_cases hki : k < i
                  · exact Htrue k hk1 hki
                  · exact hu3 k (by omega) (by omega))
              (by
                intro k hk1 hk2
                by_cases hkj2 : k = j2
                · rw [hlsw, hkj2, getI_swapL_snd l i2 j2 hj2b]
                  exact hstopu
                · rw [getI_swapL_ne l i2 j2 k (by omega) hkj2]
                  by_cases hkj : j < k
                  · exact Hfalse k hkj hk2
                  · exact notM_true _ (hd3 k (by omega) (by omega)))
          refine ⟨ih1.trans (swapL_perm l i2 j2 hi2b hj2b), ?_, by omega,
            by omega, ih5, ih6⟩
          intro k hk
          rw [ih2 k (by omega)]
          exact getI_swapL_ne l i2 j2 k (by omega) (by omega)

/-- `partition_func(data, a, b, pivot)`: on success the returned index `mid`
lies in `[a, b)` and holds the original pivot element; every element strictly
inside `[a, mid)` compared `true` against the pivot value and every element of
`(mid, b)` compared `false`; the array is globally permuted with every
position outside `[a, b)` untouched. -/
theorem partitionM_spec [Inhabited α] (less : α → α → Option Bool)
    (l0 : List α) (a b pivot : Nat) (lf : List α) (mid : Nat) (wasP : Bool)
    (hb : b ≤ l0.length) (hab : a < b) (hpiv1 : a ≤ pivot) (hpiv2 : pivot < b)
    (h : partitionM less l0 a b pivot = some (lf, mid, wasP)) :
    lf.Perm l0 ∧
    (∀ k, k < a ∨ b ≤ k → getI lf k = getI l0 k) ∧
    a ≤ mid ∧ mid < b ∧
    getI lf mid = getI l0 pivot ∧
    (∀ k, a ≤ k → k < mid → less (getI lf k) (getI l0 pivot) = some true) ∧
    (∀ k, mid < k → k < b → less (getI lf k) (getI l0 pivot) = some false) := by
  simp only [partitionM, Option.bind_eq_bind] at h
  set l := swapL l0 a pivot with hl
  set pv := getI l a with hpv
  have hlen : l.length = l0.length := swapL_length l0 a pivot
  have hpv0 : pv = getI l0 pivot := by
    rw [hpv, hl]
    exact getI_swapL_fst l0 a pivot (by omega)
  have hlperm : l.Perm l0 := by
    rw [hl]
    exact swapL_perm l0 a pivot (by omega) (by omega)
  have hlout : ∀ k, k < a ∨ b ≤ k → getI l k = getI l0 k := by
    intro k hk
    rw [hl]
    exact getI_swapL_ne l0 a pivot k (by omega) (by omega)
  rw [← hpv0]
  cases hsu : scanUpM (fun x => less x pv) l (l.length + 2) (a + 1) (b - 1) with
  | none => rw [hsu] at h; cases h
  | some i1 =>
    rw [hsu] at h
    simp only [Option.some_bind] at h
    cases hsd : scanDnM (fun x => (less x pv).bind fun b2 => pure (!b2)) l
        (l.length + 2) i1 (b - 1) with
    | none => rw [hsd] at h; cases h
    | some j1 =>
      rw [hsd] at h
      simp only [Option.some_bind] at h
      obtain ⟨hu1, hu2, hu3, hu4⟩ :=
        scanUpM_spec (fun x => less x pv) l (l.length + 2) (a + 1) (b - 1) i1 hsu
      obtain ⟨hd1, hd2, hd3, hd4⟩ :=
        scanDnM_spec (fun x => (less x pv).bind fun b2 => pure (!b2)) l
          (l.length + 2) i1 (b - 1) j1 (by omega) hsd
      have hj1a : a ≤ j1 := by rcases hd2 with h2 | h2 <;> omega
      by_cases hx : i1 > j1
      · rw [if_pos hx] at h
        cases h
        refine ⟨(swapL_perm l mid a (by omega) (by omega)).trans hlperm,
          ?_, hj1a, by omega, ?_, ?_, ?_⟩
        · intro k hk
          rw [getI_swapL_ne l mid a k (by omega) (by omega)]
          exact hlout k hk
        · rw [getI_swapL_fst l mid a (by omega)]
        · intro k hk1 hk2
          by_cases hka : k = a
          · rw [hka, getI_swapL_snd l mid a (by omega)]
            exact hu3 mid (by omega) (by omega)
          · rw [getI_swapL_ne l mid a k (by omega) (by omega)]
            exact hu3 k (by omega) (by omega)
        · intro k hk1 hk2
          rw [getI_swapL_ne l mid a k (by omega) (by omega)]
          exact notM_true _ (hd3 k hk1 (by omega))
      · rw [if_neg hx] at h
        have htrJ1 : less (getI l j1) pv = some true :=
          notM_false _ (hd4 (by omega))
        have hfaI1 : less (getI l i1) pv = some false := hu4 (by omega)
        set lsw := swapL l i1 j1 with hlsw
        have hswlen : lsw.length = l.length := swapL_length l i1 j1
        cases hpl : partitionLoopM less pv (b + 2) lsw (i1 + 1) (j1 - 1) with
        | none => rw [hpl] at h; cases h
        | some r =>
          obtain ⟨r1, jf⟩ := r
          rw [hpl] at h
          simp only [Option.some_bind] at h
          cases h
          obtain ⟨p1, p2, p3, p4, p5, p6⟩ :=
            partitionLoopM_spec less pv a b (b + 2) lsw (i1 + 1) (j1 - 1) r1 mid
              hpl (by omega) (by omega) (by omega) (by omega) (by omega)
              (by
                intro k hk1 hk2
                by_cases hki : k = i1
                · rw [hlsw, hki, getI_swapL_fst l i1 j1 (by omega)]
                  exact htrJ1
                · rw [hlsw, getI_swapL_ne l i1 j1 k hki (by omega)]
                  exact hu3 k hk1 (by omega))
              (by
                intro k hk1 hk2
                by_cases hkj : k = j1
                · rw [hlsw, hkj, getI_swapL_snd l i1 j1 (by omega)]
                  exact hfaI1
                · rw [hlsw, getI_swapL_ne l i1 j1 k (by omega) hkj]
                  exact notM_true _ (hd3 k (by omega) hk2))
          have hr1len : r1.length = l.length := by
            rw [p1.length_eq, hswlen]
          refine ⟨((swapL_perm r1 mid a (by omega) (by omega)).trans
              (p1.trans (swapL_perm l i1 j1 (by omega) (by omega)))).trans
              hlperm, ?_, p3, by omega, ?_, ?_, ?_⟩
          · intro k hk
            rw [getI_swapL_ne r1 mid a k (by omega) (by omega),
              p2 k (by omega), hlsw,
              getI_swapL_ne l i1 j1 k (by omega) (by omega)]
            exact hlout k hk
          · rw [getI_swapL_fst r1 mid a (by omega), p2 a (by omega), hlsw,
              getI_swapL_ne l i1 j1 a (by omega) (by omega), ← hpv, hpv0]
          · intro k hk1 hk2
            by_cases hka : k = a
            · rw [hka, getI_swapL_snd r1 mid a (by omega)]
              exact p5 mid (by omega) (by omega)
            · rw [getI_swapL_ne r1 mid a k (by omega) (by omega)]
              exact p5 k (by omega) (by omega)
          · intro k hk1 hk2
            rw [getI_swapL_ne r1 mid a k (by omega) (by omega)]
            exact p6 k hk1 (by omega)

/-- An evaluated adjacency (in either direction) is compatible with `f`
whenever each individual comparison is: the generic bridge from `Radj`
monotonicity to the two-sided comparison contract. -/
theorem fcompat_of_radj {P : α → Prop} {less : α → α → Option Bool}
    {f : α → Nat} (h : ∀ u v, P u → P v → Radj less u v → f u ≤ f v) :
    FCompat P less f := by
  refine ⟨fun u v hu hv ht => h u v hu hv (Or.inr ht), ?_⟩
  intro u v b2 hu hv hb hlt
  cases b2 with
  | true => rfl
  | false => exact absurd (h v u hv hu (Or.inl hb)) (by omega)

theorem swapL_self [Inhabited α] (l : List α) (i : Nat) : swapL l i i = l := by
  unfold swapL
  by_cases hi : i < l.length
  · rw [set_getI_self l i hi, set_getI_self l i hi]
  · rw [List.set_eq_of_length_le (by simp; omega), List.set_eq_of_length_le (by omega)]

theorem getI_splice [Inhabited α] (l mid : List α) (a b k : Nat)
    (hab : a ≤ b) (hb : b ≤ l.length) (hmid : mid.length = b - a) :
    getI (l.take a ++ mid ++ l.drop b) k =
      if k < a then getI l k
      else if k < b then getI mid (k - a)
      else getI l k := by
  have hta : (l.take a).length = a := by simp; omega
  by_cases h1 : k < a
  · rw [if_pos h1, getI_def, getI_def,
      List.getElem?_append_left (by simp only [List.length_append, hta, hmid]; omega),
      List.getElem?_append_left (by rw [hta]; omega), List.getElem?_take]
    simp [h1]
  · rw [if_neg h1]
    by_cases h2 : k < b
    · rw [if_pos h2, getI_def, getI_def,
        List.getElem?_append_left (by simp only [List.length_append, hta, hmid]; omega),
        List.getElem?_append_right (by rw [hta]; omega), hta]
    · rw [if_neg h2, getI_def, getI_def,
        List.getElem?_append_right
          (by rw [List.length_append, hta, hmid]; omega),
        List.getElem?_drop]
      rw [List.length_append, hta, hmid,
        show b + (k - (a + (b - a))) = k from by omega]

/-- Splicing a permutation of the segment back between the prefix and the
suffix is a frame step: a global permutation leaving positions outside
`[a, b)` untouched. -/
theorem splice_frame [Inhabited α] (f : α → Nat) (l mid : List α) (a b : Nat)
    (hab : a ≤ b) (hb : b ≤ l.length) (hperm : mid.Perm (seg l a b)) :
    FrameF f l (l.take a ++ mid ++ l.drop b) a b := by
  have hmid : mid.length = b - a := by
    rw [hperm.length_eq, seg_length l a b hab hb]
  constructor
  · have h1 : (l.take a ++ mid ++ l.drop b).Perm
        (l.take a ++ seg l a b ++ l.drop b) :=
      (hperm.append_left (l.take a)).append_right (l.drop b)
    have h2 : l.take a ++ seg l a b ++ l.drop b = l :=
      (seg_decomp l a b hab hb).symm
    refine h1.trans ?_
    rw [h2]
  · intro k hk
    rw [getI_splice l mid a b k hab hb hmid]
    rcases hk with hk | hk
    · rw [if_pos hk]
    · rw [if_neg (by omega), if_neg (by omega)]

theorem getI_splice_mid [Inhabited α] (l mid : List α) (a b k : Nat)
    (hab : a ≤ b) (hb : b ≤ l.length) (hmid : mid.length = b - a)
    (hk1 : a ≤ k) (hk2 : k < b) :
    getI (l.take a ++ mid ++ l.drop b) k = getI mid (k - a) := by
  rw [getI_splice l mid a b k hab hb hmid, if_neg (by omega), if_pos hk2]

/-- The result of `onSegM` names the inner result explicitly. -/
theorem onSegM_inv [Inhabited α] (l out : List α) (a b : Nat)
    (g : List α → Option (List α)) (h : onSegM l a b g = some out) :
    ∃ mid, g (seg l a b) = some mid ∧ out = l.take a ++ mid ++ l.drop b := by
  rw [onSegM] at h
  simp only [Option.bind_eq_bind] at h
  cases hg : g ((l.drop a).take (b - a)) with
  | none => rw [hg] at h; cases h
  | some mid =>
    rw [hg] at h
    simp only [Option.some_bind] at h
    cases h
    exact ⟨mid, hg, rfl⟩

/-- The insertion-sort step of `pdqsort` on the segment `[a, b)`: a frame
step whose result is sorted on the range under any compatible projection. -/
theorem insertionSeg_spec [Inhabited α] (P : α → Prop)
    (less : α → α → Option Bool) (f : α → Nat) (hc : FCompat P less f)
    (l out : List α) (a b : Nat) (hP : ∀ x ∈ l, P x)
    (hab : a ≤ b) (hb : b ≤ l.length)
    (h : onSegM l a b (insertionSortM less) = some out) :
    FrameF f l out a b ∧ SortedRange f out a b := by
  obtain ⟨mid, hg, rfl⟩ := onSegM_inv l out a b _ h
  obtain ⟨hperm, hchain⟩ := insertionSortM_spec less _ mid hg
  have hfr := splice_frame f l mid a b hab hb hperm
  have hmid : mid.length = b - a := by
    rw [hperm.length_eq, seg_length l a b hab hb]
  refine ⟨hfr, ?_⟩
  have hPm : ∀ x ∈ mid, P x := by
    intro x hx
    have : x ∈ seg l a b := hperm.mem_iff.mp hx
    obtain ⟨k, hk1, hk2, hget⟩ := mem_seg_inv l a b x hab hb this
    rw [← hget]
    exact hP _ (getI_mem l k (by omega))
  have hadj : AdjF f (l.take a ++ mid ++ l.drop b) a (b - 1) := by
    intro k hk1 hk2
    rw [getI_splice_mid l mid a b k hab hb hmid hk1 (by omega),
      getI_splice_mid l mid a b (k + 1) hab hb hmid (by omega) (by omega)]
    have hlt : (k - a) + 1 < mid.length := by omega
    have hrel : Radj less (getI mid (k - a)) (getI mid (k - a + 1)) := by
      rw [getI_eq_getElem mid (k - a) (by omega),
        getI_eq_getElem mid (k - a + 1) (by omega)]
      rw [List.chain'_iff_get] at hchain
      have := hchain (k - a) (by omega)
      simpa using this
    have h1 : f (getI mid (k - a)) ≤ f (getI mid (k - a + 1)) := by
      rcases hrel with hr | hr
      · by_contra hcon
        have := hc.h2 _ _ false (hPm _ (getI_mem mid (k - a + 1) (by omega)))
          (hPm _ (getI_mem mid (k - a) (by omega))) hr (by omega)
        cases this
      · exact hc.h1 _ _ (hPm _ (getI_mem mid (k - a) (by omega)))
          (hPm _ (getI_mem mid (k - a + 1) (by omega))) hr
    have heq : k + 1 - a = k - a + 1 := by omega
    rw [heq]
    exact h1
  exact adjF_sorted f _ a b hadj

/-- A comparison answered `false` bounds the projections the other way. -/
theorem fcompat_false_le {P : α → Prop} {less : α → α → Option Bool}
    {f : α → Nat} (hc : FCompat P less f) {u v : α} (hu : P u) (hv : P v)
    (h : less u v = some false) : f v ≤ f u := by
  by_contra hcon
  have := hc.h2 u v false hu hv h (by omega)
  cases this

/-- The advancing scan of `partialInsertionSort_func`: the pairs it passed
compared `false` (in order), and it stops at `b` or at an evaluated `true`. -/
theorem pInsScanM_spec [Inhabited α] (less : α → α → Option Bool)
    (l : List α) (b : Nat) :
    ∀ (fuel i i2 : Nat), pInsScanM less l fuel i b = some i2 → i ≤ b →
      i ≤ i2 ∧ i2 ≤ b ∧
      (∀ k, i ≤ k → k < i2 → less (getI l k) (getI l (k - 1)) = some false) ∧
      (i2 < b → less (getI l i2) (getI l (i2 - 1)) = some true)
  | 0, i, i2, h, _ => by cases h
  | fuel + 1, i, i2, h, hib => by
    rw [pInsScanM] at h
    by_cases hib2 : i < b
    · rw [if_pos hib2] at h
      simp only [Option.bind_eq_bind] at h
      cases hbl : less (getI l i) (getI l (i - 1)) with
      | none => rw [hbl] at h; cases h
      | some bl =>
        rw [hbl] at h
        simp only [Option.some_bind] at h
        cases bl with
        | false =>
          rw [if_pos (by simp)] at h
          obtain ⟨h1, h2, h3, h4⟩ := pInsScanM_spec less l b fuel (i + 1) i2 h
            (by omega)
          refine ⟨by omega, h2, ?_, h4⟩
          intro k hk1 hk2
          rcases Nat.eq_or_lt_of_le hk1 with rfl | hk
          · exact hbl
          · exact h3 k hk hk2
        | true =>
          rw [if_neg (by simp)] at h
          cases h
          exact ⟨Nat.le_refl i, by omega, fun k h1 h2 => by omega,
            fun _ => hbl⟩
    · rw [if_neg hib2] at h
      cases h
      exact ⟨Nat.le_refl i, hib, fun k h1 h2 => by omega,
        fun h2 => absurd h2 hib2⟩

/-- The shift-right loop only touches positions of `[j - 1, bnd)`. -/
theorem shiftRightM_spec [Inhabited α] (less : α → α → Option Bool)
    (bnd : Nat) :
    ∀ (fuel : Nat) (l : List α) (j : Nat) (out : List α),
      shiftRightM less fuel l j bnd = some out → 1 ≤ j → bnd ≤ l.length →
      out.Perm l ∧ (∀ k, k < j - 1 → getI out k = getI l k) ∧
      (∀ k, bnd ≤ k → getI out k = getI l k)
  | 0, l, j, out, h, _, _ => by cases h
  | fuel + 1, l, j, out, h, hj, hbl => by
    rw [shiftRightM] at h
    by_cases hjb : j < bnd
    · rw [if_pos hjb] at h
      simp only [Option.bind_eq_bind] at h
      cases hcmp : less (getI l j) (getI l (j - 1)) with
      | none => rw [hcmp] at h; cases h
      | some bl =>
        rw [hcmp] at h
        simp only [Option.some_bind] at h
        cases bl with
        | false =>
          rw [if_pos (by simp)] at h
          cases h
          exact ⟨List.Perm.refl l, fun k _ => rfl, fun k _ => rfl⟩
        | true =>
          rw [if_neg (by simp)] at h
          obtain ⟨h1, h2, h3⟩ := shiftRightM_spec less bnd fuel
            (swapL l j (j - 1)) (j + 1) out h (by omega)
            (by rw [swapL_length]; exact hbl)
          refine ⟨h1.trans (swapL_perm l j (j - 1) (by omega) (by omega)),
            ?_, ?_⟩
          · intro k hk
            rw [h2 k (by omega)]
            exact getI_swapL_ne l j (j - 1) k (by omega) (by omega)
          · intro k hk
            rw [h3 k hk]
            exact getI_swapL_ne l j (j - 1) k (by omega) (by omega)
    · rw [if_neg hjb] at h
      cases h
      exact ⟨List.Perm.refl l, fun k _ => rfl, fun k _ => rfl⟩

/-- The shift-left loop below the range boundary: every swap it performs
exchanges elements of equal projection, so the projection of every position
is preserved exactly. -/
theorem shiftLeftLowM_spec [Inhabited α] (P : α → Prop)
    (less : α → α → Option Bool) (f : α → Nat) (hc : FCompat P less f) :
    ∀ (j : Nat) (l out : List α), shiftLeftM less j l = some out →
      (∀ x ∈ l, P x) → j < l.length →
      (∀ q, q < j → f (getI l q) ≤ f (getI l j)) →
      out.Perm l ∧ (∀ k, j < k → getI out k = getI l k) ∧
      (∀ k, f (getI out k) = f (getI l k))
  | 0, l, out, h, _, _, _ => by
    cases h
    exact ⟨List.Perm.refl l, fun k _ => rfl, fun k => rfl⟩
  | j + 1, l, out, h, hP, hlen, hv2 => by
    rw [shiftLeftM] at h
    simp only [Option.bind_eq_bind] at h
    cases hbl : less (getI l (j + 1)) (getI l j) with
    | none => rw [hbl] at h; cases h
    | some bl =>
      rw [hbl] at h
      simp only [Option.some_bind] at h
      cases bl with
      | false =>
        rw [if_pos (by simp)] at h
        cases h
        exact ⟨List.Perm.refl l, fun k _ => rfl, fun k => rfl⟩
      | true =>
        rw [if_neg (by simp)] at h
        have hle1 : f (getI l (j + 1)) ≤ f (getI l j) :=
          hc.h1 _ _ (hP _ (getI_mem l (j + 1) hlen))
            (hP _ (getI_mem l j (by omega))) hbl
        have hle2 : f (getI l j) ≤ f (getI l (j + 1)) := hv2 j (by omega)
        have hfw : ∀ k, f (getI (swapL l (j + 1) j) k) = f (getI l k) := by
          intro k
          by_cases hk1 : k = j + 1
          · rw [hk1, getI_swapL_fst l (j + 1) j hlen]
            omega
          · by_cases hk2 : k = j
            · rw [hk2, getI_swapL_snd l (j + 1) j (by omega)]
              omega
            · rw [getI_swapL_ne l (j + 1) j k hk1 hk2]
        obtain ⟨h1, h2, h3⟩ := shiftLeftLowM_spec P less f hc j
          (swapL l (j + 1) j) out h
          (fun x hx => hP x ((swapL_perm l (j + 1) j hlen (by omega)).mem_iff.mp hx))
          (by rw [swapL_length]; omega)
          (by
            intro q hq
            rw [getI_swapL_ne l (j + 1) j q (by omega) (by omega),
              getI_swapL_snd l (j + 1) j (by omega)]
            exact hv2 q (by omega))
        refine ⟨h1.trans (swapL_perm l (j + 1) j hlen (by omega)), ?_, ?_⟩
        · intro k hk
          rw [h2 k (by omega)]
          exact getI_swapL_ne l (j + 1) j k (by omega) (by omega)
        · intro k
          rw [h3 k, hfw k]

/-- The shift-left loop of `partialInsertionSort_func` starting inside the
range: it inserts the out-of-order element into the sorted prefix
`[a, j)`, possibly crossing the range boundary (only through
projection-equal swaps), leaving `[a, j]` adjacent-sorted. -/
theorem shiftLeftHighM_spec [Inhabited α] (P : α → Prop)
    (less : α → α → Option Bool) (f : α → Nat) (hc : FCompat P less f)
    (a b : Nat) :
    ∀ (j : Nat) (l out : List α), shiftLeftM less j l = some out →
      (∀ x ∈ l, P x) → b ≤ l.length → a ≤ j → j < b → a < b →
      PrefixBound f l a b → AdjF f l a (j - 1) →
      out.Perm l ∧
      (∀ k, j < k → getI out k = getI l k) ∧
      (∀ k, k < a → f (getI out k) = f (getI l k)) ∧
      AdjF f out a j ∧
      (getI out j = getI l j ∨ getI out j = getI l (j - 1))
  | 0, l, out, h, _, _, _, _, _, _, _ => by
    cases h
    exact ⟨List.Perm.refl l, fun k _ => rfl, fun k _ => rfl,
      fun k h1 h2 => by omega, Or.inl rfl⟩
  | j + 1, l, out, h, hP, hblen, haj, hjb, hab, hpre, hadj => by
    rw [shiftLeftM] at h
    simp only [Option.bind_eq_bind] at h
    cases hbl : less (getI l (j + 1)) (getI l j) with
    | none => rw [hbl] at h; cases h
    | some bl =>
      rw [hbl] at h
      simp only [Option.some_bind] at h
      cases bl with
      | false =>
        rw [if_pos (by simp)] at h
        cases h
        refine ⟨List.Perm.refl l, fun k _ => rfl, fun k _ => rfl, ?_,
          Or.inl rfl⟩
        intro k hk1 hk2
        rcases Nat.lt_or_ge k j with hk | hk
        · exact hadj k hk1 (by omega)
        · have hkj : k = j := by omega
          rw [hkj]
          exact fcompat_false_le hc (hP _ (getI_mem l (j + 1) (by omega)))
            (hP _ (getI_mem l j (by omega))) hbl
      | true =>
        rw [if_neg (by simp)] at h
        have hle : f (getI l (j + 1)) ≤ f (getI l j) :=
          hc.h1 _ _ (hP _ (getI_mem l (j + 1) (by omega)))
            (hP _ (getI_mem l j (by omega))) hbl
        have hlsw : ∀ k, k ≠ j + 1 → k ≠ j →
            getI (swapL l (j + 1) j) k = getI l k :=
          fun k h1 h2 => getI_swapL_ne l (j + 1) j k h1 h2
        have hlswf : getI (swapL l (j + 1) j) (j + 1) = getI l j :=
          getI_swapL_fst l (j + 1) j (by omega)
        have hlsws : getI (swapL l (j + 1) j) j = getI l (j + 1) :=
          getI_swapL_snd l (j + 1) j (by omega)
        have hswp : (swapL l (j + 1) j).Perm l :=
          swapL_perm l (j + 1) j (by omega) (by omega)
        have hPsw : ∀ x ∈ swapL l (j + 1) j, P x :=
          fun x hx => hP x (hswp.mem_iff.mp hx)
        by_cases hja : a ≤ j
        · have hframe : FrameF f l (swapL l (j + 1) j) a b := by
            refine ⟨hswp, ?_⟩
            intro k hk
            rw [hlsw k (by omega) (by omega)]
          obtain ⟨h1, h2, h3, h4, h5⟩ := shiftLeftHighM_spec P less f hc a b
            j (swapL l (j + 1) j) out h hPsw (by rw [swapL_length]; exact hblen)
            hja (by omega) hab
            (hpre.transfer f l (swapL l (j + 1) j) a b hframe (by omega) hblen)
            (by
              intro k hk1 hk2
              rw [hlsw k (by omega) (by omega), hlsw (k + 1) (by omega) (by omega)]
              exact hadj k hk1 (by omega))
          refine ⟨h1.trans hswp, ?_, ?_, ?_, ?_⟩
          · intro k hk
            rw [h2 k (by omega), hlsw k (by omega) (by omega)]
          · intro k hk
            rw [h3 k hk, hlsw k (by omega) (by omega)]
          · intro k hk1 hk2
            rcases Nat.lt_or_ge k j with hk | hk
            · exact h4 k hk1 hk
            · have hkj : k = j := by omega
              rw [hkj]
              have hout2 : getI out (j + 1) = getI l j := by
                rw [h2 (j + 1) (by omega), hlswf]
              rw [hout2]
              rcases h5 with h5 | h5
              · rw [h5, hlsws]
                exact hle
              · by_cases hj0 : j = 0
                · have h5b : getI out j = getI l (j + 1) := by
                    rw [h5, show j - 1 = j from by omega, hlsws]
                  rw [h5b]
                  exact hle
                · rw [h5, hlsw (j - 1) (by omega) (by omega)]
                  rcases Nat.lt_or_ge a j with hja2 | hja2
                  · have hpair := hadj (j - 1) (by omega) (by omega)
                    rwa [show j - 1 + 1 = j from by omega] at hpair
                  · have hjeq : j = a := by omega
                    rw [hjeq]
                    exact hpre (a - 1) (by omega) a (by omega) hab
          · have hout2 : getI out (j + 1) = getI l j := by
              rw [h2 (j + 1) (by omega), hlswf]
            exact Or.inr hout2
        · have hjval : j + 1 = a := by omega
          have hprecross : f (getI l j) = f (getI l (j + 1)) := by
            have hup : f (getI l j) ≤ f (getI l (j + 1)) := by
              have := hpre j (by omega) (j + 1) (by omega) (by omega)
              exact this
            omega
          obtain ⟨h1, h2, h3⟩ := shiftLeftLowM_spec P less f hc j
            (swapL l (j + 1) j) out h hPsw (by rw [swapL_length]; omega)
            (by
              intro q hq
              rw [hlsw q (by omega) (by omega), hlsws]
              exact hpre q (by omega) (j + 1) (by omega) (by omega))
          have hfw : ∀ k, f (getI (swapL l (j + 1) j) k) = f (getI l k) := by
            intro k
            by_cases hk1 : k = j + 1
            · rw [hk1, hlswf]
              omega
            · by_cases hk2 : k = j
              · rw [hk2, hlsws]
                omega
              · rw [hlsw k hk1 hk2]
          refine ⟨h1.trans hswp, ?_, ?_, ?_, ?_⟩
          · intro k hk
            rw [h2 k (by omega), hlsw k (by omega) (by omega)]
          · intro k hk
            rw [h3 k, hfw k]
          · intro k hk1 hk2
            omega
          · refine Or.inr ?_
            rw [h2 (j + 1) (by omega), hlswf]
            have hj1 : j + 1 - 1 = j := by omega
            rw [hj1]

/-- One invocation of the `partialInsertionSort_func` outer loop: a frame
step; if it reports success the range is sorted under the projection. -/
theorem partialInsertionSortLoopM_spec [Inhabited α] (P : α → Prop)
    (less : α → α → Option Bool) (f : α → Nat) (hc : FCompat P less f)
    (a b : Nat) :
    ∀ (steps : Nat) (l : List α) (i : Nat) (out : List α) (stop : Bool),
      partialInsertionSortLoopM less a b steps l i = some (out, stop) →
      (∀ x ∈ l, P x) → b ≤ l.length → a + 1 ≤ i → i ≤ b → a < b →
      PrefixBound f l a b → AdjF f l a (i - 1) →
      FrameF f l out a b ∧ (stop = true → SortedRange f out a b)
  | 0, l, i, out, stop, h, _, _, _, _, _, _, _ => by
    cases h
    exact ⟨FrameF.refl f l a b, fun h' => absurd h' (by simp)⟩
  | steps + 1, l, i, out, stop, h, hP, hblen, hai, hib, hab, hpre, hadj => by
    rw [partialInsertionSortLoopM] at h
    simp only [Option.bind_eq_bind] at h
    cases hscan : pInsScanM less l (b + 2) i b with
    | none => rw [hscan] at h; cases h
    | some i2 =>
      rw [hscan] at h
      simp only [Option.some_bind] at h
      obtain ⟨hs1, hs2, hs3, hs4⟩ := pInsScanM_spec less l b (b + 2) i i2 hscan hib
      have hadj2 : AdjF f l a (i2 - 1) := by
        intro k hk1 hk2
        rcases Nat.lt_or_ge k (i - 1) with hk | hk
        · exact hadj k hk1 hk
        · have hcmp := hs3 (k + 1) (by omega) (by omega)
          have hidx : k + 1 - 1 = k := by omega
          rw [hidx] at hcmp
          exact fcompat_false_le hc (hP _ (getI_mem l (k + 1) (by omega)))
            (hP _ (getI_mem l k (by omega))) hcmp
      by_cases hi2b : i2 = b
      · rw [if_pos hi2b] at h
        cases h
        refine ⟨FrameF.refl f l a b, fun _ => ?_⟩
        apply adjF_sorted f l a b
        rw [← hi2b]
        exact hadj2
      · rw [if_neg hi2b] at h
        by_cases hshort : b - a < 50
        · rw [if_pos hshort] at h
          cases h
          exact ⟨FrameF.refl f l a b, fun h' => absurd h' (by simp)⟩
        · rw [if_neg hshort] at h
          have hi2lt : i2 < b := by omega
          have hstop := hs4 hi2lt
          have hfst : f (getI l i2) ≤ f (getI l (i2 - 1)) :=
            hc.h1 _ _ (hP _ (getI_mem l i2 (by omega)))
              (hP _ (getI_mem l (i2 - 1) (by omega))) hstop
          have hsw1 : (swapL l i2 (i2 - 1)).Perm l :=
            swapL_perm l i2 (i2 - 1) (by omega) (by omega)
          have hfr1 : FrameF f l (swapL l i2 (i2 - 1)) a b := by
            refine ⟨hsw1, ?_⟩
            intro k hk
            rw [getI_swapL_ne l i2 (i2 - 1) k (by omega) (by omega)]
          have hP1 : ∀ x ∈ swapL l i2 (i2 - 1), P x :=
            fun x hx => hP x (hsw1.mem_iff.mp hx)
          have hadj1 : AdjF f (swapL l i2 (i2 - 1)) a (i2 - 1 - 1) := by
            intro k hk1 hk2
            rw [getI_swapL_ne l i2 (i2 - 1) k (by omega) (by omega),
              getI_swapL_ne l i2 (i2 - 1) (k + 1) (by omega) (by omega)]
            exact hadj2 k hk1 (by omega)
          have hstep2 : ∀ (l2 : List α), l2.Perm (swapL l i2 (i2 - 1)) →
              (∀ k, k < a → f (getI l2 k) = f (getI (swapL l i2 (i2 - 1)) k)) →
              (∀ k, b ≤ k → getI l2 k = getI (swapL l i2 (i2 - 1)) k) →
              AdjF f l2 a (i2 - 1) →
              (if b - i2 ≥ 2 then
                  (shiftRightM less (b + 2) l2 (i2 + 1) b).bind fun l3 =>
                    partialInsertionSortLoopM less a b steps l3 i2
                else (some l2).bind fun l3 =>
                  partialInsertionSortLoopM less a b steps l3 i2) =
                some (out, stop) →
              FrameF f l out a b ∧ (stop = true → SortedRange f out a b) := by
            intro l2 hperm2 hflow2 hhigh2 hadjl2 h2
            have hfr2 : FrameF f l l2 a b := by
              refine FrameF.comp f l (swapL l i2 (i2 - 1)) l2 a b hfr1 ?_
              refine ⟨hperm2, ?_⟩
              intro k hk
              rcases hk with hk | hk
              · exact hflow2 k hk
              · rw [hhigh2 k hk]
            have hlen2 : l2.length = l.length := by
              rw [hperm2.length_eq, swapL_length]
            have hstep3 : ∀ (l3 : List α), l3.Perm l2 →
                (∀ k, k < i2 → getI l3 k = getI l2 k) →
                (∀ k, b ≤ k → getI l3 k = getI l2 k) →
                partialInsertionSortLoopM less a b steps l3 i2 =
                  some (out, stop) →
                FrameF f l out a b ∧ (stop = true → SortedRange f out a b) := by
              intro l3 hperm3 hlow3 hhigh3 h3
              have hfr3 : FrameF f l l3 a b := by
                refine FrameF.comp f l l2 l3 a b hfr2 ?_
                refine ⟨hperm3, ?_⟩
                intro k hk
                rcases hk with hk | hk
                · rw [hlow3 k (by omega)]
                · rw [hhigh3 k hk]
              obtain ⟨hrec1, hrec2⟩ := partialInsertionSortLoopM_spec P less f
                hc a b steps l3 i2 out stop h3
                (fun x hx => hP x ((hperm3.trans hperm2).trans hsw1 |>.mem_iff.mp hx))
                (by rw [hperm3.length_eq, hlen2]; exact hblen)
                (by omega) (by omega) hab
                (hpre.transfer f l l3 a b hfr3 (by omega) hblen)
                (by
                  intro k hk1 hk2
                  rw [hlow3 k (by omega), hlow3 (k + 1) (by omega)]
                  exact hadjl2 k hk1 hk2)
              exact ⟨FrameF.comp f l l3 out a b hfr3 hrec1, hrec2⟩
            by_cases hsr : b - i2 ≥ 2
            · rw [if_pos hsr] at h2
              cases hsrv : shiftRightM less (b + 2) l2 (i2 + 1) b with
              | none => rw [hsrv] at h2; cases h2
              | some l3 =>
                rw [hsrv] at h2
                simp only [Option.some_bind] at h2
                obtain ⟨hr1, hr2, hr3⟩ := shiftRightM_spec less b (b + 2) l2
                  (i2 + 1) l3 hsrv (by omega) (by rw [hlen2]; exact hblen)
                exact hstep3 l3 hr1 (fun k hk => hr2 k (by omega)) hr3 h2
            · rw [if_neg hsr] at h2
              simp only [Option.some_bind] at h2
              exact hstep3 l2 (List.Perm.refl l2) (fun k _ => rfl)
                (fun k _ => rfl) h2
          by_cases hsl : i2 - a ≥ 2
          · rw [if_pos hsl] at h
            cases hslv : shiftLeftM less (i2 - 1) (swapL l i2 (i2 - 1)) with
            | none => rw [hslv] at h; cases h
            | some l2 =>
              rw [hslv] at h
              simp only [Option.some_bind] at h
              obtain ⟨hl1, hl2, hl3, hl4, hl5⟩ := shiftLeftHighM_spec P less f
                hc a b (i2 - 1) (swapL l i2 (i2 - 1)) l2 hslv hP1
                (by rw [swapL_length]; exact hblen) (by omega) (by omega) hab
                (hpre.transfer f l (swapL l i2 (i2 - 1)) a b hfr1 (by omega)
                  hblen)
                hadj1
              exact hstep2 l2 hl1 hl3 (fun k hk => hl2 k (by omega))
                (by
                  intro k hk1 hk2
                  exact hl4 k hk1 hk2) h
          · rw [if_neg hsl] at h
            simp only [Option.pure_def, Option.some_bind] at h
            refine hstep2 (swapL l i2 (i2 - 1)) (List.Perm.refl _)
              (fun k _ => rfl) (fun k _ => rfl) ?_ h
            intro k hk1 hk2
            omega

/-- `partialInsertionSort_func(data, a, b)`: a frame step; on success the
range is sorted under the projection. -/
theorem partialInsertionSortM_spec [Inhabited α] (P : α → Prop)
    (less : α → α → Option Bool) (f : α → Nat) (hc : FCompat P less f)
    (l out : List α) (a b : Nat) (stop : Bool)
    (h : partialInsertionSortM less l a b = some (out, stop))
    (hP : ∀ x ∈ l, P x) (hblen : b ≤ l.length) (hab : a < b)
    (hpre : PrefixBound f l a b) :
    FrameF f l out a b ∧ (stop = true → SortedRange f out a b) := by
  rw [partialInsertionSortM] at h
  exact partialInsertionSortLoopM_spec P less f hc a b 5 l (a + 1) out stop h
    hP hblen (by omega) (by omega) hab hpre (fun k h1 h2 => by omega)

/-- Invariant of the interchange loop of `partitionEqual_func`: on success
the working range splits at the returned index into an evaluated
not-greater-than-pivot block and an evaluated greater-than-pivot block. -/
theorem partitionEqualLoopM_spec [Inhabited α] (less : α → α → Option Bool)
    (pv : α) (a b : Nat) :
    ∀ (fuel : Nat) (l : List α) (i j : Nat) (l2 : List α) (i2 : Nat),
      partitionEqualLoopM less pv fuel l i j = some (l2, i2) →
      b ≤ l.length → 1 ≤ b →
      a + 1 ≤ i → a ≤ j → j ≤ b - 1 →
      (∀ k, a + 1 ≤ k → k < i → less pv (getI l k) = some false) →
      (∀ k, j < k → k ≤ b - 1 → less pv (getI l k) = some true) →
      l2.Perm l ∧
      (∀ k, k < i ∨ j < k → getI l2 k = getI l k) ∧
      i ≤ i2 ∧ (i2 ≤ j + 1 ∨ i2 = i) ∧
      (∀ k, a + 1 ≤ k → k < i2 → less pv (getI l2 k) = some false) ∧
      (∀ k, i2 ≤ k → k ≤ b - 1 → less pv (getI l2 k) = some true)
  | 0, l, i, j, l2, i2, h, _, _, _, _, _, _, _ => by cases h
  | fuel + 1, l, i, j, l2, i2, h, hb, hb1, hi, hjl, hju, Hfalse, Htrue => by
    rw [partitionEqualLoopM] at h
    simp only [Option.bind_eq_bind] at h
    cases hsu : scanUpM (fun x => (less pv x).bind fun b2 => pure (!b2)) l
        (l.length + 2) i j with
    | none => rw [hsu] at h; cases h
    | some iS =>
      rw [hsu] at h
      simp only [Option.some_bind] at h
      cases hsd : scanDnM (fun x => less pv x) l (l.length + 2) iS j with
      | none => rw [hsd] at h; cases h
      | some jS =>
        rw [hsd] at h
        simp only [Option.some_bind] at h
        obtain ⟨hu1, hu2, hu3, hu4⟩ :=
          scanUpM_spec (fun x => (less pv x).bind fun b2 => pure (!b2)) l
            (l.length + 2) i j iS hsu
        obtain ⟨hd1, hd2, hd3, hd4⟩ :=
          scanDnM_spec (fun x => less pv x) l (l.length + 2) iS j jS
            (by omega) hsd
        by_cases hcross : iS > jS
        · rw [if_pos hcross] at h
          cases h
          refine ⟨List.Perm.refl l, fun k _ => rfl, hu1, hu2, ?_, ?_⟩
          · intro k hk1 hk2
            by_cases hki : k < i
            · exact Hfalse k hk1 hki
            · exact notM_true _ (hu3 k (by omega) (by omega))
          · intro k hk1 hk2
            by_cases hkj : j < k
            · exact Htrue k hkj hk2
            · exact hd3 k (by omega) (by omega)
        · rw [if_neg hcross] at h
          have hisjs : iS ≤ jS := by omega
          have hiSb : iS < l.length := by omega
          have hjSb : jS < l.length := by omega
          have hstopu : less pv (getI l iS) = some true :=
            notM_false _ (hu4 (by omega))
          have hstopd : less pv (getI l jS) = some false := hd4 (by omega)
          have hp1 : a + 1 ≤ iS + 1 := by omega
          have hp2 : a ≤ jS - 1 := by omega
          have hp3 : jS - 1 ≤ b - 1 := by omega
          obtain ⟨ih1, ih2, ih3, ih4, ih5, ih6⟩ :=
            partitionEqualLoopM_spec less pv a b fuel (swapL l iS jS)
              (iS + 1) (jS - 1) l2 i2 h
              (by rw [swapL_length]; exact hb) hb1 hp1 hp2
              hp3
              (by
                intro k hk1 hk2
                by_cases hki : k = iS
                · rw [hki, getI_swapL_fst l iS jS hiSb]
                  exact hstopd
                · rw [getI_swapL_ne l iS jS k hki (by omega)]
                  by_cases hki2 : k < i
                  · exact Hfalse k hk1 hki2
                  · exact notM_true _ (hu3 k (by omega) (by omega)))
              (by
                intro k hk1 hk2
                by_cases hkj : k = jS
                · rw [hkj, getI_swapL_snd l iS jS hjSb]
                  exact hstopu
                · rw [getI_swapL_ne l iS jS k (by omega) hkj]
                  by_cases hkj2 : j < k
                  · exact Htrue k hkj2 hk2
                  · exact hd3 k (by omega) (by omega))
          refine ⟨ih1.trans (swapL_perm l iS jS hiSb hjSb), ?_, by omega,
            Or.inl (by rcases ih4 with h4 | h4 <;> omega), ih5, ih6⟩
          intro k hk
          rw [ih2 k (by omega)]
          exact getI_swapL_ne l iS jS k (by omega) (by omega)

/-- `partitionEqual_func(data, a, b, pivot)`: on success the pivot element
sits at `a`, positions `[a + 1, newp)` compared not-greater than it (from the
pivot's side), positions `[newp, b)` compared strictly greater; the array is
globally permuted with every position outside `[a, b)` untouched. -/
theorem partitionEqualM_spec [Inhabited α] (less : α → α → Option Bool)
    (l0 : List α) (a b pivot : Nat) (lf : List α) (newp : Nat)
    (hb : b ≤ l0.length) (hab : a < b) (hpiv1 : a ≤ pivot) (hpiv2 : pivot < b)
    (h : partitionEqualM less l0 a b pivot = some (lf, newp)) :
    lf.Perm l0 ∧
    (∀ k, k < a ∨ b ≤ k → getI lf k = getI l0 k) ∧
    a + 1 ≤ newp ∧ newp ≤ b ∧
    getI lf a = getI l0 pivot ∧
    (∀ k, a + 1 ≤ k → k < newp →
      less (getI l0 pivot) (getI lf k) = some false) ∧
    (∀ k, newp ≤ k → k < b →
      less (getI l0 pivot) (getI lf k) = some true) := by
  simp only [partitionEqualM] at h
  set l := swapL l0 a pivot with hl
  set pv := getI l a with hpv
  have hlen : l.length = l0.length := swapL_length l0 a pivot
  have hpv0 : pv = getI l0 pivot := by
    rw [hpv, hl]
    exact getI_swapL_fst l0 a pivot (by omega)
  have hlperm : l.Perm l0 := by
    rw [hl]
    exact swapL_perm l0 a pivot (by omega) (by omega)
  have hlout : ∀ k, k < a ∨ b ≤ k → getI l k = getI l0 k := by
    intro k hk
    rw [hl]
    exact getI_swapL_ne l0 a pivot k (by omega) (by omega)
  rw [← hpv0]
  obtain ⟨p1, p2, p3, p4, p5, p6⟩ :=
    partitionEqualLoopM_spec less pv a b (b + 2) l (a + 1) (b - 1) lf newp h
      (by omega) (by omega) (by omega) (by omega) (by omega)
      (fun k h1 h2 => by omega) (fun k h1 h2 => by omega)
  refine ⟨p1.trans hlperm, ?_, p3, by rcases p4 with p4 | p4 <;> omega,
    ?_, ?_, ?_⟩
  · intro k hk
    rw [p2 k (by omega)]
    exact hlout k hk
  · rw [p2 a (by omega), ← hpv, hpv0]
  · intro k hk1 hk2
    exact p5 k hk1 hk2
  · intro k hk1 hk2
    exact p6 k hk1 (by omega)

/-- `order2_func` moves no data and returns its two indices in some order. -/
theorem order2M_cases [Inhabited α] (less : α → α → Option Bool) (l : List α)
    (x y s : Nat) (r : Nat × Nat × Nat) (h : order2M less l x y s = some r) :
    (r.1 = x ∨ r.1 = y) ∧ (r.2.1 = x ∨ r.2.1 = y) := by
  rw [order2M] at h
  simp only [Option.bind_eq_bind] at h
  cases hb : less (getI l y) (getI l x) with
  | none => rw [hb] at h; cases h
  | some bl =>
    rw [hb] at h
    simp only [Option.some_bind] at h
    cases bl with
    | false =>
      rw [if_neg (by simp)] at h
      cases h
      exact ⟨Or.inl rfl, Or.inr rfl⟩
    | true =>
      rw [if_pos rfl] at h
      cases h
      exact ⟨Or.inr rfl, Or.inl rfl⟩

/-- `median_func` returns one of its three indices. -/
theorem medianM_cases [Inhabited α] (less : α → α → Option Bool) (l : List α)
    (x y z s : Nat) (r : Nat × Nat) (h : medianM less l x y z s = some r) :
    r.1 = x ∨ r.1 = y ∨ r.1 = z := by
  rw [medianM] at h
  simp only [Option.bind_eq_bind] at h
  cases h1 : order2M less l x y s with
  | none => rw [h1] at h; cases h
  | some r1 =>
    rw [h1] at h
    simp only [Option.some_bind] at h
    cases h2 : order2M less l r1.2.1 z r1.2.2 with
    | none => rw [h2] at h; cases h
    | some r2 =>
      rw [h2] at h
      simp only [Option.some_bind] at h
      cases h3 : order2M less l r1.1 r2.1 r2.2.2 with
      | none => rw [h3] at h; cases h
      | some r3 =>
        rw [h3] at h
        simp only [Option.some_bind] at h
        cases h
        obtain ⟨hc1, hc1b⟩ := order2M_cases less l x y s r1 h1
        obtain ⟨hc2, hc2b⟩ := order2M_cases less l r1.2.1 z r1.2.2 r2 h2
        obtain ⟨hc3, hc3b⟩ := order2M_cases less l r1.1 r2.1 r2.2.2 r3 h3
        rcases hc3b with h4 | h4
        · rw [h4]
          rcases hc1 with h5 | h5
          · exact Or.inl h5
          · exact Or.inr (Or.inl h5)
        · rw [h4]
          rcases hc2 with h5 | h5
          · rw [h5]
            rcases hc1b with h6 | h6
            · exact Or.inl h6
            · exact Or.inr (Or.inl h6)
          · exact Or.inr (Or.inr h5)

/-- `medianAdjacent_func` returns one of the three adjacent indices. -/
theorem medianAdjacentM_cases [Inhabited α] (less : α → α → Option Bool)
    (l : List α) (i s : Nat) (r : Nat × Nat)
    (h : medianAdjacentM less l i s = some r) :
    r.1 = i - 1 ∨ r.1 = i ∨ r.1 = i + 1 :=
  medianM_cases less l (i - 1) i (i + 1) s r h

/-- `choosePivot_func` always returns an index inside `[a, b)`. -/
theorem choosePivotM_bounds [Inhabited α] (less : α → α → Option Bool)
    (l : List α) (a b : Nat) (p : Nat × Hint)
    (h : choosePivotM less l a b = some p) (hab : a < b) :
    a ≤ p.1 ∧ p.1 < b := by
  rw [choosePivotM] at h
  simp only [Option.bind_eq_bind] at h
  by_cases h8 : b - a ≥ 8
  · rw [if_pos h8] at h
    have hfinish : ∀ (i2 j2 k2 s1 : Nat),
        a ≤ i2 → i2 < b → a ≤ j2 → j2 < b → a ≤ k2 → k2 < b →
        ((medianM less l i2 j2 k2 s1).bind fun r =>
          if r.2 = 0 then pure (r.1, Hint.increasing)
          else if r.2 = 12 then pure (r.1, Hint.decreasing)
          else pure (r.1, Hint.unknown)) = some p →
        a ≤ p.1 ∧ p.1 < b := by
      intro i2 j2 k2 s1 hi1 hi2 hj1 hj2 hk1 hk2 hm
      cases hmed : medianM less l i2 j2 k2 s1 with
      | none => rw [hmed] at hm; cases hm
      | some r =>
        rw [hmed] at hm
        simp only [Option.some_bind] at hm
        have hr := medianM_cases less l i2 j2 k2 s1 r hmed
        have hp1 : p.1 = r.1 := by
          by_cases hz : r.2 = 0
          · rw [if_pos hz] at hm
            cases hm
            rfl
          · rw [if_neg hz] at hm
            by_cases hz2 : r.2 = 12
            · rw [if_pos hz2] at hm
              cases hm
              rfl
            · rw [if_neg hz2] at hm
              cases hm
              rfl
        rw [hp1]
        rcases hr with h5 | h5 | h5 <;> rw [h5] <;> omega
    by_cases h50 : b - a ≥ 50
    · rw [if_pos h50] at h
      cases hra : medianAdjacentM less l (a + (b - a) / 4 * 1) 0 with
      | none => rw [hra] at h; cases h
      | some ra =>
        rw [hra] at h
        simp only [Option.some_bind] at h
        cases hrb : medianAdjacentM less l (a + (b - a) / 4 * 2) ra.2 with
        | none => rw [hrb] at h; cases h
        | some rb =>
          rw [hrb] at h
          simp only [Option.some_bind] at h
          cases hrc : medianAdjacentM less l (a + (b - a) / 4 * 3) rb.2 with
          | none => rw [hrc] at h; cases h
          | some rc =>
            rw [hrc] at h
            simp only [Option.some_bind] at h
            have hca := medianAdjacentM_cases less l (a + (b - a) / 4 * 1) 0
              ra hra
            have hcb := medianAdjacentM_cases less l (a + (b - a) / 4 * 2) ra.2
              rb hrb
            have hcc := medianAdjacentM_cases less l (a + (b - a) / 4 * 3) rb.2
              rc hrc
            refine hfinish ra.1 rb.1 rc.1 rc.2 ?_ ?_ ?_ ?_ ?_ ?_ h <;>
              [rcases hca with h5 | h5 | h5; rcases hca with h5 | h5 | h5;
               rcases hcb with h5 | h5 | h5; rcases hcb with h5 | h5 | h5;
               rcases hcc with h5 | h5 | h5; rcases hcc with h5 | h5 | h5] <;>
              rw [h5] <;> omega
    · rw [if_neg h50] at h
      exact hfinish (a + (b - a) / 4 * 1) (a + (b - a) / 4 * 2)
        (a + (b - a) / 4 * 3) 0 (by omega) (by omega) (by omega) (by omega)
        (by omega) (by omega) h
  · rw [if_neg h8] at h
    cases h
    constructor
    · simp only []
      omega
    · simp only []
      omega

/-- `reverseRange_func` is a frame step. -/
theorem reverseRangeL_frame [Inhabited α] (f : α → Nat) (l : List α)
    (a b : Nat) (hab : a ≤ b) (hb : b ≤ l.length) :
    FrameF f l (reverseRangeL l a b) a b := by
  have hdef : reverseRangeL l a b =
      l.take a ++ (seg l a b).reverse ++ l.drop b := rfl
  rw [hdef]
  exact splice_frame f l _ a b hab hb (List.reverse_perm _)

theorem reverseRangeL_length (l : List α) (a b : Nat) (hab : a ≤ b)
    (hb : b ≤ l.length) : (reverseRangeL l a b).length = l.length := by
  simp [reverseRangeL]
  omega

/-- One scrambling swap of `breakPatterns_func` stays inside `[a, b)`. -/
theorem breakPatternsSwap_frame [Inhabited α] (f : α → Nat)
    (a length modulus idx i : Nat) (st : List α × Nat)
    (hmod : 1 ≤ modulus) (hmod2 : modulus ≤ 2 * length) (hlen8 : 8 ≤ length)
    (hidx1 : a ≤ idx - 1 + i) (hidx2 : idx - 1 + i < a + length)
    (hlen : a + length ≤ st.1.length) :
    FrameF f st.1 (breakPatternsSwap a length modulus idx st i).1
      a (a + length) ∧
    (breakPatternsSwap a length modulus idx st i).1.length = st.1.length := by
  rw [breakPatternsSwap]
  have hoth : (if xorshiftNext st.2 % modulus ≥ length
      then xorshiftNext st.2 % modulus - length
      else xorshiftNext st.2 % modulus) < length := by
    have hm := Nat.mod_lt (xorshiftNext st.2) (show 0 < modulus by omega)
    by_cases hge : xorshiftNext st.2 % modulus ≥ length
    · rw [if_pos hge]
      omega
    · rw [if_neg hge]
      omega
  refine ⟨⟨swapL_perm _ _ _ (by omega) (by omega), ?_⟩, swapL_length _ _ _⟩
  intro k hk
  rw [getI_swapL_ne _ _ _ k (by omega) (by omega)]

/-- `breakPatterns_func` is a frame step: three in-range swaps (or nothing
for short ranges), no comparisons. -/
theorem breakPatternsM_frame [Inhabited α] (f : α → Nat) (l : List α)
    (a b : Nat) (hab : a ≤ b) (hb : b ≤ l.length) :
    FrameF f l (breakPatternsM l a b) a b ∧
    (breakPatternsM l a b).length = l.length := by
  rw [breakPatternsM]
  by_cases h8 : b - a ≥ 8
  · rw [if_pos h8]
    have hmod1 : 1 ≤ 2 ^ bitsLen (b - a) := Nat.one_le_two_pow
    have hmod2 : 2 ^ bitsLen (b - a) ≤ 2 * (b - a) := by
      rw [bitsLen, if_neg (by omega), pow_succ]
      have := Nat.log2_self_le (show b - a ≠ 0 by omega)
      omega
    have hq : 2 ≤ (b - a) / 4 := by omega
    have hs0 := breakPatternsSwap_frame f a (b - a) (2 ^ bitsLen (b - a))
      (a + (b - a) / 4 * 2 - 1) 0 (l, b - a) hmod1 hmod2 h8
      (by omega) (by omega) (by show a + (b - a) ≤ l.length; omega)
    have hs1 := breakPatternsSwap_frame f a (b - a) (2 ^ bitsLen (b - a))
      (a + (b - a) / 4 * 2 - 1) 1
      (breakPatternsSwap a (b - a) (2 ^ bitsLen (b - a))
        (a + (b - a) / 4 * 2 - 1) (l, b - a) 0)
      hmod1 hmod2 h8 (by omega) (by omega)
      (by rw [hs0.2]; show a + (b - a) ≤ l.length; omega)
    have hs2 := breakPatternsSwap_frame f a (b - a) (2 ^ bitsLen (b - a))
      (a + (b - a) / 4 * 2 - 1) 2
      (breakPatternsSwap a (b - a) (2 ^ bitsLen (b - a))
        (a + (b - a) / 4 * 2 - 1)
        (breakPatternsSwap a (b - a) (2 ^ bitsLen (b - a))
          (a + (b - a) / 4 * 2 - 1) (l, b - a) 0) 1)
      hmod1 hmod2 h8 (by omega) (by omega)
      (by rw [hs1.2, hs0.2]; show a + (b - a) ≤ l.length; omega)
    have hab2 : a + (b - a) = b := by omega
    rw [hab2] at hs0 hs1 hs2
    refine ⟨?_, ?_⟩
    · exact FrameF.comp f l _ _ a b
        (FrameF.comp f l _ _ a b hs0.1 hs1.1) hs2.1
    · rw [hs2.2, hs1.2, hs0.2]
  · rw [if_neg h8]
    exact ⟨FrameF.refl f l a b, rfl⟩

theorem desc_le : ∀ {r p : Nat}, Desc r p → r ≤ p := by
  intro r p h
  induction h with
  | refl r => exact Nat.le_refl r
  | left r2 p2 _ ih => omega
  | right r2 p2 _ ih => omega

theorem desc_trans : ∀ {x y z : Nat}, Desc x y → Desc y z → Desc x z := by
  intro x y z h1 h2
  induction h1 with
  | refl r => exact h2
  | left r p _ ih => exact Desc.left r z (ih h2)
  | right r p _ ih => exact Desc.right r z (ih h2)

theorem desc_child_lower {r p : Nat} (h : Desc r p) :
    p = r ∨ 2 * r + 1 ≤ p := by
  cases h with
  | refl => exact Or.inl rfl
  | left _ _ hx => exact Or.inr (desc_le hx)
  | right _ _ hx => exact Or.inr (by have := desc_le hx; omega)

theorem desc_zero : ∀ p, Desc 0 p := by
  intro p
  induction p using Nat.strong_induction_on with
  | _ p ih =>
    match p with
    | 0 => exact Desc.refl 0
    | p + 1 =>
      have hpar : p + 1 = 2 * (p / 2) + 1 ∨ p + 1 = 2 * (p / 2) + 2 := by
        omega
      have hd0 : Desc 0 (p / 2) := ih (p / 2) (by omega)
      rcases hpar with hp | hp
      · exact desc_trans hd0 (hp ▸ Desc.left (p / 2) _ (Desc.refl _))
      · exact desc_trans hd0 (hp ▸ Desc.right (p / 2) _ (Desc.refl _))

/-- Under the heap property for parents at least `m`, every value in the
subtree of `r ≥ m` is bounded by the value at `r`. -/
theorem desc_value_le [Inhabited α] (f : α → Nat) (l : List α)
    (first hi m : Nat)
    (Hpairs : ∀ r c, m ≤ r → c < hi → (c = 2 * r + 1 ∨ c = 2 * r + 2) →
      f (getI l (first + c)) ≤ f (getI l (first + r))) :
    ∀ r p, Desc r p → m ≤ r → p < hi →
      f (getI l (first + p)) ≤ f (getI l (first + r)) := by
  intro r p hd
  induction hd with
  | refl r => intro _ _; exact Nat.le_refl _
  | left r p hd2 ih =>
    intro hm hp
    have hcb : 2 * r + 1 < hi := by
      have := desc_le hd2
      omega
    exact le_trans (ih (by omega) hp)
      (Hpairs r (2 * r + 1) hm hcb (Or.inl rfl))
  | right r p hd2 ih =>
    intro hm hp
    have hcb : 2 * r + 2 < hi := by
      have := desc_le hd2
      omega
    exact le_trans (ih (by omega) hp)
      (Hpairs r (2 * r + 2) hm hcb (Or.inr rfl))

/-- `siftDown_func(data, root, hi, first)`: restores the heap property at
`root` given it below `root`, touching only the subtree of `root` within
`[0, hi)` (offset by `first`), and never raising the subtree's value bound. -/
theorem siftDownM_spec [Inhabited α] (P : α → Prop)
    (less : α → α → Option Bool) (f : α → Nat) (hc : FCompat P less f)
    (first hi : Nat) :
    ∀ (fuel : Nat) (l : List α) (root : Nat) (out : List α),
      siftDownM less fuel l root hi first = some out →
      (∀ x ∈ l, P x) → first + hi ≤ l.length →
      (∀ r c, root < r → c < hi → (c = 2 * r + 1 ∨ c = 2 * r + 2) →
        f (getI l (first + c)) ≤ f (getI l (first + r))) →
      out.Perm l ∧
      (∀ q, q < first → getI out q = getI l q) ∧
      (∀ p, ¬ Desc root p ∨ hi ≤ p →
        getI out (first + p) = getI l (first + p)) ∧
      (∀ r c, root ≤ r → c < hi → (c = 2 * r + 1 ∨ c = 2 * r + 2) →
        f (getI out (first + c)) ≤ f (getI out (first + r))) ∧
      (∀ B, (∀ p, Desc root p → p < hi → f (getI l (first + p)) ≤ B) →
        ∀ p, Desc root p → p < hi → f (getI out (first + p)) ≤ B)
  | 0, l, root, out, h, _, _, _ => by cases h
  | fuel + 1, l, root, out, h, hP, hlen, Hpairs => by
    rw [siftDownM] at h
    simp only [Option.bind_eq_bind] at h
    by_cases hch : 2 * root + 1 ≥ hi
    · rw [if_pos hch] at h
      cases h
      refine ⟨List.Perm.refl l, fun q _ => rfl, fun p _ => rfl, ?_,
        fun B hB => hB⟩
      intro r c hr hclt hcrel
      rcases Nat.lt_or_ge root r with hr2 | hr2
      · exact Hpairs r c hr2 hclt hcrel
      · exfalso
        have : r = root := by omega
        rw [this] at hcrel
        omega
    · rw [if_neg hch] at h
      have hmain : ∀ (child2 : Nat),
          (child2 = 2 * root + 1 ∨ child2 = 2 * root + 2) → child2 < hi →
          (∀ c, (c = 2 * root + 1 ∨ c = 2 * root + 2) → c < hi →
            f (getI l (first + c)) ≤ f (getI l (first + child2))) →
          ((less (getI l (first + root)) (getI l (first + child2))).bind
            fun b => if !b then pure l
              else siftDownM less fuel
                (swapL l (first + root) (first + child2)) child2 hi first) =
            some out →
          out.Perm l ∧
          (∀ q, q < first → getI out q = getI l q) ∧
          (∀ p, ¬ Desc root p ∨ hi ≤ p →
            getI out (first + p) = getI l (first + p)) ∧
          (∀ r c, root ≤ r → c < hi → (c = 2 * r + 1 ∨ c = 2 * r + 2) →
            f (getI out (first + c)) ≤ f (getI out (first + r))) ∧
          (∀ B, (∀ p, Desc root p → p < hi → f (getI l (first + p)) ≤ B) →
            ∀ p, Desc root p → p < hi → f (getI out (first + p)) ≤ B) := by
        intro child2 hc2def hc2lt hsel hm
        have hrc2 : root < child2 := by omega
        have hdrc2 : Desc root child2 := by
          rcases hc2def with h5 | h5
          · rw [h5]
            exact Desc.left root _ (Desc.refl _)
          · rw [h5]
            exact Desc.right root _ (Desc.refl _)
        have hdescs : ∀ p, Desc child2 p → Desc root p := by
          intro p hp
          exact desc_trans hdrc2 hp
        cases hb : less (getI l (first + root)) (getI l (first + child2)) with
        | none => rw [hb] at hm; cases hm
        | some b =>
          rw [hb] at hm
          simp only [Option.some_bind] at hm
          cases b with
          | false =>
            rw [if_pos (by simp)] at hm
            cases hm
            refine ⟨List.Perm.refl l, fun q _ => rfl, fun p _ => rfl, ?_,
              fun B hB => hB⟩
            intro r c hr hclt hcrel
            rcases Nat.lt_or_ge root r with hr2 | hr2
            · exact Hpairs r c hr2 hclt hcrel
            · have hreq : r = root := by omega
              rw [hreq] at hcrel ⊢
              exact le_trans (hsel c hcrel hclt)
                (fcompat_false_le hc
                  (hP _ (getI_mem l (first + root) (by omega)))
                  (hP _ (getI_mem l (first + child2) (by omega))) hb)
          | true =>
            rw [if_neg (by simp)] at hm
            have hfrt : f (getI l (first + root)) ≤
                f (getI l (first + child2)) :=
              hc.h1 _ _ (hP _ (getI_mem l (first + root) (by omega)))
                (hP _ (getI_mem l (first + child2) (by omega))) hb
            have hswp : (swapL l (first + root) (first + child2)).Perm l :=
              swapL_perm l _ _ (by omega) (by omega)
            have hswf : getI (swapL l (first + root) (first + child2))
                (first + root) = getI l (first + child2) :=
              getI_swapL_fst l _ _ (by omega)
            have hsws : getI (swapL l (first + root) (first + child2))
                (first + child2) = getI l (first + root) :=
              getI_swapL_snd l _ _ (by omega)
            have hswne : ∀ k, k ≠ first + root → k ≠ first + child2 →
                getI (swapL l (first + root) (first + child2)) k = getI l k :=
              fun k h1 h2 => getI_swapL_ne l _ _ k h1 h2
            obtain ⟨R1, R2, R3, R4, R5⟩ := siftDownM_spec P less f hc first hi
              fuel (swapL l (first + root) (first + child2)) child2 out hm
              (fun x hx => hP x (hswp.mem_iff.mp hx))
              (by rw [swapL_length]; exact hlen)
              (by
                intro r c hr hclt hcrel
                rw [hswne (first + c) (by omega) (by omega),
                  hswne (first + r) (by omega) (by omega)]
                exact Hpairs r c (by omega) hclt hcrel)
            have hvalue : ∀ p, Desc child2 p → p < hi →
                f (getI (swapL l (first + root) (first + child2)) (first + p))
                  ≤ f (getI l (first + child2)) := by
              intro p hp hplt
              by_cases hpc : p = child2
              · rw [hpc, hsws]
                exact hfrt
              · rw [hswne (first + p)
                  (by have := desc_le hp; omega) (by omega)]
                exact desc_value_le f l first hi child2
                  (fun r c hr hclt hcrel =>
                    Hpairs r c (by omega) hclt hcrel)
                  child2 p hp (Nat.le_refl _) hplt
            refine ⟨R1.trans hswp, ?_, ?_, ?_, ?_⟩
            · intro q hq
              rw [R2 q hq, hswne q (by omega) (by omega)]
            · intro p hp
              have hnd : ¬ Desc child2 p ∨ hi ≤ p := by
                rcases hp with hp | hp
                · exact Or.inl (fun hcon => hp (hdescs p hcon))
                · exact Or.inr hp
              have hpr : p ≠ root := by
                rcases hp with hp | hp
                · intro hcon
                  rw [hcon] at hp
                  exact hp (Desc.refl root)
                · omega
              have hpc : p ≠ child2 := by
                rcases hp with hp | hp
                · intro hcon
                  rw [hcon] at hp
                  exact hp hdrc2
                · omega
              rw [R3 p hnd, hswne (first + p) (by omega) (by omega)]
            · intro r c hr hclt hcrel
              rcases Nat.lt_or_ge r child2 with hr2 | hr2
              · have hndr : ¬ Desc child2 r := by
                  intro hcon
                  have := desc_le hcon
                  omega
                have houtr0 : getI out (first + root) =
                    getI l (first + child2) := by
                  rw [R3 root (Or.inl (fun hcon =>
                    absurd (desc_le hcon) (by omega))), hswf]
                by_cases hcc : c = child2
                · have hrr : r = root := by
                    rcases hcrel with h5 | h5 <;>
                      rcases hc2def with h6 | h6 <;> omega
                  rw [hrr, houtr0, hcc]
                  exact R5 (f (getI l (first + child2))) hvalue child2
                    (Desc.refl _) hc2lt
                · have hndc : ¬ Desc child2 c := by
                    intro hcon
                    rcases desc_child_lower hcon with h5 | h5
                    · exact hcc h5
                    · rcases hcrel with h6 | h6 <;> omega
                  have houtc : getI out (first + c) = getI l (first + c) := by
                    rw [R3 c (Or.inl hndc),
                      hswne (first + c)
                        (by rcases hcrel with h6 | h6 <;> omega)
                        (fun hcon => hcc (by omega))]
                  by_cases hrr : r = root
                  · rw [hrr, houtr0, houtc]
                    rw [hrr] at hcrel
                    exact hsel c hcrel hclt
                  · have hrbig : root < r := by omega
                    have houtr : getI out (first + r) =
                        getI l (first + r) := by
                      rw [R3 r (Or.inl hndr),
                        hswne (first + r) (by omega) (by omega)]
                    rw [houtr, houtc]
                    exact Hpairs r c hrbig hclt hcrel
              · exact R4 r c hr2 hclt hcrel
            · intro B hB p hp hplt
              by_cases hdc : Desc child2 p
              · refine R5 B ?_ p hdc hplt
                intro p2 hp2 hp2lt
                by_cases hp2c : p2 = child2
                · rw [hp2c, hsws]
                  exact hB root (Desc.refl root) (by omega)
                · rw [hswne (first + p2)
                    (by have := desc_le hp2; omega) (by omega)]
                  exact hB p2 (hdescs p2 hp2) hp2lt
              · have hout : getI out (first + p) =
                    getI (swapL l (first + root) (first + child2))
                      (first + p) := R3 p (Or.inl hdc)
                rw [hout]
                by_cases hpr : p = root
                · rw [hpr, hswf]
                  exact hB child2 hdrc2 hc2lt
                · rw [hswne (first + p) (by omega)
                    (fun hcon => hdc (by
                      have : p = child2 := by omega
                      rw [this]
                      exact Desc.refl _))]
                  exact hB p hp hplt
      by_cases hsel2 : 2 * root + 1 + 1 < hi
      · rw [if_pos hsel2] at h
        cases hcmp : less (getI l (first + (2 * root + 1)))
            (getI l (first + (2 * root + 1) + 1)) with
        | none => rw [hcmp] at h; cases h
        | some bsel =>
          rw [hcmp] at h
          simp only [Option.some_bind] at h
          cases bsel with
          | true =>
            rw [if_pos rfl] at h
            refine hmain (2 * root + 1 + 1) (Or.inr (by omega)) (by omega)
              ?_ h
            intro c hcrel hclt
            rcases hcrel with h5 | h5
            · rw [h5]
              have := hc.h1 _ _
                (hP _ (getI_mem l (first + (2 * root + 1)) (by omega)))
                (hP _ (getI_mem l (first + (2 * root + 1) + 1) (by omega)))
                hcmp
              have hidx : first + (2 * root + 1) + 1 =
                  first + (2 * root + 1 + 1) := by omega
              rw [hidx] at this
              exact this
            · rw [h5]
          | false =>
            rw [if_neg (by simp)] at h
            refine hmain (2 * root + 1) (Or.inl rfl) (by omega) ?_ h
            intro c hcrel hclt
            rcases hcrel with h5 | h5
            · rw [h5]
            · rw [h5]
              have := fcompat_false_le hc
                (hP _ (getI_mem l (first + (2 * root + 1)) (by omega)))
                (hP _ (getI_mem l (first + (2 * root + 1) + 1) (by omega)))
                hcmp
              have hidx : first + (2 * root + 1) + 1 =
                  first + (2 * root + 2) := by omega
              rw [hidx] at this
              exact this
      · rw [if_neg hsel2] at h
        simp only [Option.pure_def, Option.some_bind] at h
        refine hmain (2 * root + 1) (Or.inl rfl) (by omega) ?_ h
        intro c hcrel hclt
        rcases hcrel with h5 | h5
        · rw [h5]
        · omega

/-- The heap-construction loop: after processing roots `cnt - 1, …, 0` the
whole tree satisfies the heap property; only `[first, first + hi)` is
touched. -/
theorem heapBuildM_spec [Inhabited α] (P : α → Prop)
    (less : α → α → Option Bool) (f : α → Nat) (hc : FCompat P less f)
    (hi first : Nat) :
    ∀ (cnt : Nat) (l out : List α), heapBuildM less hi first cnt l = some out →
      (∀ x ∈ l, P x) → first + hi ≤ l.length →
      (∀ r c, cnt ≤ r → c < hi → (c = 2 * r + 1 ∨ c = 2 * r + 2) →
        f (getI l (first + c)) ≤ f (getI l (first + r))) →
      out.Perm l ∧
      (∀ q, q < first ∨ first + hi ≤ q → getI out q = getI l q) ∧
      (∀ r c, c < hi → (c = 2 * r + 1 ∨ c = 2 * r + 2) →
        f (getI out (first + c)) ≤ f (getI out (first + r)))
  | 0, l, out, h, _, _, Hheap => by
    cases h
    exact ⟨List.Perm.refl l, fun q _ => rfl,
      fun r c hclt hrel => Hheap r c (by omega) hclt hrel⟩
  | cnt + 1, l, out, h, hP, hlen, Hheap => by
    rw [heapBuildM] at h
    simp only [Option.bind_eq_bind] at h
    cases hsd : siftDownM less (hi + 2) l cnt hi first with
    | none => rw [hsd] at h; cases h
    | some l2 =>
      rw [hsd] at h
      simp only [Option.some_bind] at h
      obtain ⟨S1, S2, S3, S4, S5⟩ := siftDownM_spec P less f hc first hi
        (hi + 2) l cnt l2 hsd hP hlen
        (fun r c hr hclt hrel => Hheap r c (by omega) hclt hrel)
      obtain ⟨R1, R2, R3⟩ := heapBuildM_spec P less f hc hi first cnt l2 out h
        (fun x hx => hP x (S1.mem_iff.mp hx))
        (by rw [S1.length_eq]; exact hlen)
        (fun r c hr hclt hrel => S4 r c hr hclt hrel)
      refine ⟨R1.trans S1, ?_, R3⟩
      intro q hq
      rw [R2 q hq]
      rcases hq with hq | hq
      · exact S2 q hq
      · have hqe : q = first + (q - first) := by omega
        rw [hqe]
        exact S3 (q - first) (Or.inr (by omega))

/-- The extraction loop of `heapSort_func`: pops the maximum of the
remaining heap to the end of the shrinking prefix, keeping the already
emitted suffix sorted and dominating. -/
theorem heapExtractM_spec [Inhabited α] (P : α → Prop)
    (less : α → α → Option Bool) (f : α → Nat) (hc : FCompat P less f)
    (first hi0 : Nat) :
    ∀ (cnt : Nat) (l out : List α), heapExtractM less first cnt l = some out →
      (∀ x ∈ l, P x) → first + hi0 ≤ l.length → cnt ≤ hi0 →
      (∀ r c, c < cnt → (c = 2 * r + 1 ∨ c = 2 * r + 2) →
        f (getI l (first + c)) ≤ f (getI l (first + r))) →
      (∀ p q, p < cnt → cnt ≤ q → q < hi0 →
        f (getI l (first + p)) ≤ f (getI l (first + q))) →
      SortedRange f l (first + cnt) (first + hi0) →
      out.Perm l ∧
      (∀ q, q < first ∨ first + cnt ≤ q → getI out q = getI l q) ∧
      SortedRange f out first (first + hi0)
  | 0, l, out, h, _, _, _, _, _, Hsorted => by
    cases h
    exact ⟨List.Perm.refl l, fun q _ => rfl, Hsorted⟩
  | i + 1, l, out, h, hP, hlen, hcnt, Hheap, Hsplit, Hsorted => by
    rw [heapExtractM] at h
    simp only [Option.bind_eq_bind] at h
    cases hsd : siftDownM less (i + 2) (swapL l first (first + i)) 0 i first
      with
    | none => rw [hsd] at h; cases h
    | some l3 =>
      rw [hsd] at h
      simp only [Option.some_bind] at h
      have hfl : first < l.length := by omega
      have hfi : first + i < l.length := by omega
      have hswp : (swapL l first (first + i)).Perm l :=
        swapL_perm l first (first + i) hfl hfi
      have hl2f : getI (swapL l first (first + i)) first = getI l (first + i) :=
        getI_swapL_fst l first (first + i) hfl
      have hl2s : getI (swapL l first (first + i)) (first + i) = getI l first :=
        getI_swapL_snd l first (first + i) hfi
      have hl2n : ∀ k, k ≠ first → k ≠ first + i →
          getI (swapL l first (first + i)) k = getI l k :=
        fun k h1 h2 => getI_swapL_ne l first (first + i) k h1 h2
      have hmax : ∀ p, p < i + 1 → f (getI l (first + p)) ≤ f (getI l (first + 0)) :=
        fun p hp => desc_value_le f l first (i + 1) 0
          (fun r c _ hclt hrel => Hheap r c hclt hrel) 0 p (desc_zero p)
          (Nat.le_refl 0) hp
      obtain ⟨S1, S2, S3, S4, S5⟩ := siftDownM_spec P less f hc first i
        (i + 2) (swapL l first (first + i)) 0 l3 hsd
        (fun x hx => hP x (hswp.mem_iff.mp hx))
        (by rw [swapL_length]; omega)
        (by
          intro r c hr hclt hrel
          rw [hl2n (first + c) (by omega) (by omega),
            hl2n (first + r) (by omega) (by omega)]
          exact Hheap r c (by omega) hrel)
      have hbnd : ∀ p, Desc 0 p → p < i →
          f (getI (swapL l first (first + i)) (first + p)) ≤
            f (getI l (first + 0)) := by
        intro p _ hp
        by_cases hp0 : p = 0
        · rw [hp0]
          have hfirst0 : first + 0 = first := rfl
          rw [hfirst0, hl2f]
          exact hmax i (by omega)
        · rw [hl2n (first + p) (by omega) (by omega)]
          exact hmax p (by omega)
      have hvi : getI l3 (first + i) = getI l first := by
        rw [S3 i (Or.inr (Nat.le_refl i)), hl2s]
      have hvq : ∀ q, i < q → getI l3 (first + q) = getI l (first + q) := by
        intro q hq
        rw [S3 q (Or.inr (by omega)), hl2n (first + q) (by omega) (by omega)]
      obtain ⟨R1, R2, R3⟩ := heapExtractM_spec P less f hc first hi0 i l3 out h
        (fun x hx => hP x ((S1.trans hswp).mem_iff.mp hx))
        (by rw [S1.length_eq, swapL_length]; exact hlen)
        (by omega)
        (fun r c hclt hrel => S4 r c (by omega) hclt hrel)
        (by
          intro p q hp hq1 hq2
          have hlhs : f (getI l3 (first + p)) ≤ f (getI l (first + 0)) :=
            S5 (f (getI l (first + 0))) hbnd p (desc_zero p) hp
          rcases Nat.eq_or_lt_of_le hq1 with rfl | hq3
          · rw [hvi]
            have hfirst0 : first + 0 = first := rfl
            rw [hfirst0] at hlhs
            exact hlhs
          · rw [hvq q hq3]
            exact le_trans hlhs (Hsplit 0 q (by omega) (by omega) hq2))
        (by
          intro x y hx hxy hy
          obtain ⟨p1, rfl, hp1⟩ : ∃ p1, x = first + p1 ∧ i ≤ p1 :=
            ⟨x - first, by omega, by omega⟩
          obtain ⟨p2, rfl, hp2⟩ : ∃ p2, y = first + p2 ∧ i ≤ p2 :=
            ⟨y - first, by omega, by omega⟩
          have hp12 : p1 ≤ p2 := by omega
          rcases Nat.eq_or_lt_of_le hp1 with rfl | hp1b
          · rcases Nat.eq_or_lt_of_le hp12 with hp2e | hp2b
            · rw [← hp2e]
            · rw [hvi, hvq p2 hp2b]
              have hfirst0 : first + 0 = first := rfl
              have := Hsplit 0 p2 (by omega) (by omega) (by omega)
              rw [hfirst0] at this
              exact this
          · rw [hvq p1 hp1b, hvq p2 (by omega)]
            exact Hsorted (first + p1) (first + p2) (by omega) (by omega)
              (by omega))
      refine ⟨(R1.trans S1).trans hswp, ?_, R3⟩
      intro q hq
      rcases hq with hq | hq
      · rw [R2 q (Or.inl hq), S2 q hq, hl2n q (by omega) (by omega)]
      · have hqe : q = first + (q - first) := by omega
        rw [R2 q (Or.inr (by omega)), hqe,
          S3 (q - first) (Or.inr (by omega)),
          hl2n (first + (q - first)) (by omega) (by omega)]

/-- `heapSort_func(data, a, b)`: a frame step whose result is sorted on the
range under any compatible projection. -/
theorem heapSortM_spec [Inhabited α] (P : α → Prop)
    (less : α → α → Option Bool) (f : α → Nat) (hc : FCompat P less f)
    (l out : List α) (a b : Nat) (h : heapSortM less l a b = some out)
    (hP : ∀ x ∈ l, P x) (hb : b ≤ l.length) (hab : a ≤ b) :
    FrameF f l out a b ∧ SortedRange f out a b := by
  simp only [heapSortM, Option.bind_eq_bind] at h
  cases hbd : heapBuildM less (b - a) a
      (if b - a ≥ 2 then (b - a - 2) / 2 + 1 else 0) l with
  | none => rw [hbd] at h; cases h
  | some l2 =>
    rw [hbd] at h
    simp only [Option.some_bind] at h
    obtain ⟨B1, B2, B3⟩ := heapBuildM_spec P less f hc (b - a) a
      (if b - a ≥ 2 then (b - a - 2) / 2 + 1 else 0) l l2 hbd hP (by omega)
      (by
        intro r c hr hclt hrel
        exfalso
        by_cases h2 : b - a ≥ 2
        · rw [if_pos h2] at hr
          rcases hrel with h5 | h5 <;> omega
        · rw [if_neg h2] at hr
          rcases hrel with h5 | h5 <;> omega)
    obtain ⟨E1, E2, E3⟩ := heapExtractM_spec P less f hc a (b - a) (b - a)
      l2 out h (fun x hx => hP x (B1.mem_iff.mp hx))
      (by rw [B1.length_eq]; omega) (Nat.le_refl _) B3
      (fun p q hp hq1 hq2 => by omega)
      (fun x y hx hxy hy => by omega)
    have habeq : a + (b - a) = b := by omega
    refine ⟨⟨E1.trans B1, ?_⟩, ?_⟩
    · intro k hk
      rw [E2 k (by omega), B2 k (by omega)]
    · rw [← habeq]
      exact E3

/-- The loop body of `pdqsort_func` splits into the two exits and
`pdqsortTail` after the `breakPatterns` step. -/
theorem pdqsortM_succ [Inhabited α] (less : α → α → Option Bool)
    (fuel : Nat) (l : List α) (a b limit : Nat) (wb wp : Bool) :
    pdqsortM less (fuel + 1) l a b limit wb wp =
      if b - a ≤ 12 then onSegM l a b (insertionSortM less)
      else if limit = 0 then heapSortM less l a b
      else if !wb then
        pdqsortTail less fuel (breakPatternsM l a b) a b (limit - 1) wb wp
      else pdqsortTail less fuel l a b limit wb wp := by
  rw [pdqsortM]
  by_cases h12 : b - a ≤ 12
  · rw [if_pos h12, if_pos h12]
  · rw [if_neg h12, if_neg h12]
    by_cases hlim : limit = 0
    · rw [if_pos hlim, if_pos hlim]
    · rw [if_neg hlim, if_neg hlim]
      cases wb
      · rfl
      · rfl

/-- Assembling sortedness of a partitioned range from its two sorted halves
and the pivot value between them. -/
theorem concat_sorted [Inhabited α] (f : α → Nat) (out : List α)
    (a mid b pv : Nat) (hcut1 : a ≤ mid) (hcut2 : mid < b)
    (hlow : ∀ k, a ≤ k → k < mid → f (getI out k) ≤ pv)
    (hmid : f (getI out mid) = pv)
    (hhigh : ∀ k, mid < k → k < b → pv ≤ f (getI out k))
    (hs1 : ∀ x y, a ≤ x → x ≤ y → y < mid → f (getI out x) ≤ f (getI out y))
    (hs2 : ∀ x y, mid < x → x ≤ y → y < b → f (getI out x) ≤ f (getI out y)) :
    SortedRange f out a b := by
  intro x y hx hxy hy
  rcases Nat.lt_trichotomy y mid with hym | hym | hym
  · exact hs1 x y hx hxy hym
  · rw [hym, hmid]
    rcases Nat.lt_or_ge x mid with hxm | hxm
    · exact hlow x hx hxm
    · have : x = mid := by omega
      rw [this, hmid]
  · rcases Nat.lt_trichotomy x mid with hxm | hxm | hxm
    · exact le_trans (hlow x hx hxm) (hhigh y hym hy)
    · rw [hxm, hmid]
      exact hhigh y hym hy
    · exact hs2 x y hxm hxy hy

/-- The post-`breakPatterns` body of `pdqsort_func`: assuming the recursion
hypothesis at the smaller fuel, it is a frame step whose result is sorted on
the range under the projection. -/
theorem pdqsortTail_spec [Inhabited α] (P : α → Prop)
    (less : α → α → Option Bool) (f : α → Nat) (hc : FCompat P less f)
    (fuel : Nat)
    (IH : ∀ (l : List α) (a b limit : Nat) (wb wp : Bool) (out : List α),
      pdqsortM less fuel l a b limit wb wp = some out →
      (∀ x ∈ l, P x) → b ≤ l.length → a ≤ b → PrefixBound f l a b →
      FrameF f l out a b ∧ SortedRange f out a b)
    (l : List α) (a b limit : Nat) (wb wp : Bool) (out : List α)
    (h : pdqsortTail less fuel l a b limit wb wp = some out)
    (hP : ∀ x ∈ l, P x) (hbl : b ≤ l.length) (hab : a < b)
    (hpre : PrefixBound f l a b) :
    FrameF f l out a b ∧ SortedRange f out a b := by
  simp only [pdqsortTail, Option.bind_eq_bind] at h
  have hpart : ∀ (L2 : List α) (pivot : Nat),
      FrameF f l L2 a b → (∀ x ∈ L2, P x) → b ≤ L2.length →
      PrefixBound f L2 a b → a ≤ pivot → pivot < b →
      ((partitionM less L2 a b pivot).bind fun r =>
        if r.2.1 - a < b - r.2.1 then
          (pdqsortM less fuel r.1 a r.2.1 limit
            (decide (min (r.2.1 - a) (b - r.2.1) ≥ (b - a) / 8)) r.2.2).bind
            fun l4 => pdqsortM less fuel l4 (r.2.1 + 1) b limit
              (decide (min (r.2.1 - a) (b - r.2.1) ≥ (b - a) / 8)) r.2.2
        else
          (pdqsortM less fuel r.1 (r.2.1 + 1) b limit
            (decide (min (r.2.1 - a) (b - r.2.1) ≥ (b - a) / 8)) r.2.2).bind
            fun l4 => pdqsortM less fuel l4 a r.2.1 limit
              (decide (min (r.2.1 - a) (b - r.2.1) ≥ (b - a) / 8)) r.2.2) =
        some out →
      FrameF f l out a b ∧ SortedRange f out a b := by
    intro L2 pivot hfrL2 hPL2 hbL2 hpreL2 hp1 hp2 hm
    cases hpm : partitionM less L2 a b pivot with
    | none => rw [hpm] at hm; cases hm
    | some r =>
      obtain ⟨l3, mid, wp2⟩ := r
      rw [hpm] at hm
      simp only [Option.some_bind] at hm
      obtain ⟨M1, M2, M3, M4, M5, M6, M7⟩ :=
        partitionM_spec less L2 a b pivot l3 mid wp2 hbL2 hab hp1 hp2 hpm
      have hfr3 : FrameF f L2 l3 a b := ⟨M1, fun k hk => by rw [M2 k hk]⟩
      have hP3 : ∀ x ∈ l3, P x := fun x hx => hPL2 x (M1.mem_iff.mp hx)
      have hb3 : b ≤ l3.length := by rw [M1.length_eq]; exact hbL2
      have hmempv : getI L2 pivot ∈ L2 := getI_mem L2 pivot (by omega)
      have hlow3 : ∀ k, a ≤ k → k < mid →
          f (getI l3 k) ≤ f (getI L2 pivot) :=
        fun k h1 h2 => hc.h1 _ _ (hP3 _ (getI_mem l3 k (by omega)))
          (hPL2 _ hmempv) (M6 k h1 h2)
      have hhigh3 : ∀ k, mid < k → k < b →
          f (getI L2 pivot) ≤ f (getI l3 k) :=
        fun k h1 h2 => fcompat_false_le hc
          (hP3 _ (getI_mem l3 k (by omega))) (hPL2 _ hmempv) (M7 k h1 h2)
      have hmid3 : f (getI l3 mid) = f (getI L2 pivot) := by rw [M5]
      by_cases hLR : mid - a < b - mid
      · rw [if_pos hLR] at hm
        cases hA : pdqsortM less fuel l3 a mid limit
            (decide (min (mid - a) (b - mid) ≥ (b - a) / 8)) wp2 with
        | none => rw [hA] at hm; cases hm
        | some l4 =>
          rw [hA] at hm
          simp only [Option.some_bind] at hm
          obtain ⟨A1, A2⟩ := IH l3 a mid limit _ wp2 l4 hA hP3
            (by omega) (by omega)
            (by
              intro q hq k hk1 hk2
              have htr := hfr3.segAll f L2 l3 a b (by omega) hbL2
                (fun v => f (getI L2 q) ≤ v)
                (fun k2 h1 h2 => hpreL2 q hq k2 h1 h2) k hk1 (by omega)
              rw [M2 q (Or.inl hq)]
              exact htr)
          have hb4 : b ≤ l4.length := by rw [A1.perm.length_eq]; exact hb3
          have hP4 : ∀ x ∈ l4, P x :=
            fun x hx => hP3 x (A1.perm.mem_iff.mp hx)
          have h4mid : f (getI l4 mid) = f (getI L2 pivot) :=
            (A1.outF mid (Or.inr (Nat.le_refl mid))).trans hmid3
          have h4low : ∀ k, a ≤ k → k < mid →
              f (getI l4 k) ≤ f (getI L2 pivot) :=
            A1.segAll f l3 l4 a mid (by omega) (by omega)
              (fun v => v ≤ f (getI L2 pivot)) hlow3
          have h4high : ∀ k, mid < k → k < b →
              f (getI L2 pivot) ≤ f (getI l4 k) := by
            intro k h1 h2
            rw [A1.outF k (Or.inr (by omega))]
            exact hhigh3 k h1 h2
          obtain ⟨B1s, B2s⟩ := IH l4 (mid + 1) b limit _ wp2 out hm hP4 hb4
            (by omega)
            (by
              intro q hq k hk1 hk2
              have hk3 : f (getI L2 pivot) ≤ f (getI l4 k) :=
                h4high k (by omega) hk2
              rcases Nat.lt_or_ge q a with hqa | hqa
              · have h1 : f (getI l4 q) = f (getI L2 q) := by
                  rw [A1.outF q (Or.inl hqa), M2 q (Or.inl hqa)]
                rw [h1]
                exact le_trans (hpreL2 q hqa pivot hp1 hp2) hk3
              · rcases Nat.lt_or_ge q mid with hqm | hqm
                · exact le_trans (h4low q hqa hqm) hk3
                · have hqe : q = mid := by omega
                  rw [hqe, h4mid]
                  exact hk3)
          refine ⟨FrameF.comp f l l3 out a b
            (FrameF.comp f l L2 l3 a b hfrL2 hfr3)
            (FrameF.comp f l3 l4 out a b
              (FrameF.mono f l3 l4 a mid a b A1 (Nat.le_refl a) (by omega))
              (FrameF.mono f l4 out (mid + 1) b a b B1s (by omega)
                (Nat.le_refl b))), ?_⟩
          refine concat_sorted f out a mid b (f (getI L2 pivot))
            (by omega) (by omega) ?_ ?_ ?_ ?_ ?_
          · intro k h1 h2
            rw [B1s.outF k (Or.inl (by omega))]
            exact h4low k h1 h2
          · rw [B1s.outF mid (Or.inl (by omega))]
            exact h4mid
          · intro k h1 h2
            exact B1s.segAll f l4 out (mid + 1) b (by omega) hb4
              (fun v => f (getI L2 pivot) ≤ v)
              (fun k2 hh1 hh2 => h4high k2 (by omega) hh2) k (by omega) h2
          · intro x y h1 h2 h3
            rw [B1s.outF x (Or.inl (by omega)), B1s.outF y (Or.inl (by omega))]
            exact A2 x y h1 h2 h3
          · intro x y h1 h2 h3
            exact B2s x y (by omega) h2 h3
      · rw [if_neg hLR] at hm
        cases hA : pdqsortM less fuel l3 (mid + 1) b limit
            (decide (min (mid - a) (b - mid) ≥ (b - a) / 8)) wp2 with
        | none => rw [hA] at hm; cases hm
        | some l4 =>
          rw [hA] at hm
          simp only [Option.some_bind] at hm
          obtain ⟨A1, A2⟩ := IH l3 (mid + 1) b limit _ wp2 l4 hA hP3 hb3
            (by omega)
            (by
              intro q hq k hk1 hk2
              have hk3 : f (getI L2 pivot) ≤ f (getI l3 k) :=
                hhigh3 k (by omega) hk2
              rcases Nat.lt_or_ge q a with hqa | hqa
              · have h1 : f (getI l3 q) = f (getI L2 q) := by
                  rw [M2 q (Or.inl hqa)]
                rw [h1]
                exact le_trans (hpreL2 q hqa pivot hp1 hp2) hk3
              · rcases Nat.lt_or_ge q mid with hqm | hqm
                · exact le_trans (hlow3 q hqa hqm) hk3
                · have hqe : q = mid := by omega
                  rw [hqe, hmid3]
                  exact hk3)
          have hb4 : b ≤ l4.length := by rw [A1.perm.length_eq]; exact hb3
          have hP4 : ∀ x ∈ l4, P x :=
            fun x hx => hP3 x (A1.perm.mem_iff.mp hx)
          have h4mid : f (getI l4 mid) = f (getI L2 pivot) :=
            (A1.outF mid (Or.inl (by omega))).trans hmid3
          have h4low : ∀ k, a ≤ k → k < mid →
              f (getI l4 k) ≤ f (getI L2 pivot) := by
            intro k h1 h2
            rw [A1.outF k (Or.inl (by omega))]
            exact hlow3 k h1 h2
          have h4high : ∀ k, mid < k → k < b →
              f (getI L2 pivot) ≤ f (getI l4 k) := by
            intro k h1 h2
            exact A1.segAll f l3 l4 (mid + 1) b (by omega) hb3
              (fun v => f (getI L2 pivot) ≤ v)
              (fun k2 hh1 hh2 => hhigh3 k2 (by omega) hh2) k (by omega) h2
          obtain ⟨B1s, B2s⟩ := IH l4 a mid limit _ wp2 out hm hP4
            (by omega) (by omega)
            (by
              intro q hq k hk1 hk2
              have h1 : f (getI l4 q) = f (getI L2 q) := by
                rw [A1.outF q (Or.inl (by omega)), M2 q (Or.inl hq)]
              have htr := hfr3.segAll f L2 l3 a b (by omega) hbL2
                (fun v => f (getI L2 q) ≤ v)
                (fun k2 hh1 hh2 => hpreL2 q hq k2 hh1 hh2) k hk1 (by omega)
              rw [h1, A1.outF k (Or.inl (by omega))]
              exact htr)
          refine ⟨FrameF.comp f l l3 out a b
            (FrameF.comp f l L2 l3 a b hfrL2 hfr3)
            (FrameF.comp f l3 l4 out a b
              (FrameF.mono f l3 l4 (mid + 1) b a b A1 (by omega)
                (Nat.le_refl b))
              (FrameF.mono f l4 out a mid a b B1s (Nat.le_refl a)
                (by omega))), ?_⟩
          refine concat_sorted f out a mid b (f (getI L2 pivot))
            (by omega) (by omega) ?_ ?_ ?_ ?_ ?_
          · intro k h1 h2
            exact B1s.segAll f l4 out a mid (by omega) (by omega)
              (fun v => v ≤ f (getI L2 pivot)) h4low k h1 h2
          · rw [B1s.outF mid (Or.inr (Nat.le_refl mid))]
            exact h4mid
          · intro k h1 h2
            rw [B1s.outF k (Or.inr (by omega))]
            exact h4high k h1 h2
          · intro x y h1 h2 h3
            exact B2s x y h1 h2 h3
          · intro x y h1 h2 h3
            rw [B1s.outF x (Or.inr (by omega)), B1s.outF y (Or.inr (by omega))]
            exact A2 x y (by omega) h2 h3
  have hequal : ∀ (l2 : List α) (pivot : Nat),
      FrameF f l l2 a b → (∀ x ∈ l2, P x) → b ≤ l2.length →
      PrefixBound f l2 a b → a ≤ pivot → pivot < b → 0 < a →
      less (getI l2 (a - 1)) (getI l2 pivot) = some false →
      ((partitionEqualM less l2 a b pivot).bind fun r =>
        pdqsortM less fuel r.1 r.2 b limit wb wp) = some out →
      FrameF f l out a b ∧ SortedRange f out a b := by
    intro l2 pivot hfr2 hP2 hb2 hpre2 hp1 hp2 ha0 hguard hm
    cases hpe : partitionEqualM less l2 a b pivot with
    | none => rw [hpe] at hm; cases hm
    | some r =>
      obtain ⟨lq, newp⟩ := r
      rw [hpe] at hm
      simp only [Option.some_bind] at hm
      obtain ⟨Q1, Q2, Q3, Q4, Q5, Q6, Q7⟩ :=
        partitionEqualM_spec less l2 a b pivot lq newp hb2 hab hp1 hp2 hpe
      have hmempv : getI l2 pivot ∈ l2 := getI_mem l2 pivot (by omega)
      have hmempre : getI l2 (a - 1) ∈ l2 := getI_mem l2 (a - 1) (by omega)
      have hup : f (getI l2 pivot) ≤ f (getI l2 (a - 1)) :=
        fcompat_false_le hc (hP2 _ hmempre) (hP2 _ hmempv) hguard
      have hdn : f (getI l2 (a - 1)) ≤ f (getI l2 pivot) :=
        hpre2 (a - 1) (by omega) pivot hp1 hp2
      have heqv : f (getI l2 (a - 1)) = f (getI l2 pivot) := by omega
      have hfrq : FrameF f l2 lq a b := ⟨Q1, fun k hk => by rw [Q2 k hk]⟩
      have hpreq : PrefixBound f lq a b :=
        hpre2.transfer f l2 lq a b hfrq (by omega) hb2
      have hPq : ∀ x ∈ lq, P x := fun x hx => hP2 x (Q1.mem_iff.mp hx)
      have hbq : b ≤ lq.length := by rw [Q1.length_eq]; exact hb2
      have hconst : ∀ k, a ≤ k → k < newp →
          f (getI lq k) = f (getI l2 pivot) := by
        intro k hk1 hk2
        rcases Nat.eq_or_lt_of_le hk1 with rfl | hk3
        · rw [Q5]
        · have hle1 : f (getI lq k) ≤ f (getI l2 pivot) :=
            fcompat_false_le hc (hP2 _ hmempv)
              (hPq _ (getI_mem lq k (by omega))) (Q6 k (by omega) hk2)
          have hle2 : f (getI l2 pivot) ≤ f (getI lq k) := by
            have h1 := hpreq (a - 1) (by omega) k (by omega) (by omega)
            rw [Q2 (a - 1) (Or.inl (by omega)), heqv] at h1
            exact h1
          omega
      have hge : ∀ k, newp ≤ k → k < b →
          f (getI l2 pivot) ≤ f (getI lq k) := by
        intro k hk1 hk2
        exact hc.h1 _ _ (hP2 _ hmempv) (hPq _ (getI_mem lq k (by omega)))
          (Q7 k hk1 hk2)
      obtain ⟨R1, R2⟩ := IH lq newp b limit wb wp out hm hPq hbq Q4
        (by
          intro q hq k hk1 hk2
          rcases Nat.lt_or_ge q a with hqa | hqa
          · refine le_trans ?_ (hge k hk1 hk2)
            have h1 := hpre2 q hqa pivot hp1 hp2
            rw [← Q2 q (Or.inl hqa)] at h1
            exact h1
          · rw [hconst q hqa (by omega)]
            exact hge k hk1 hk2)
      refine ⟨FrameF.comp f l lq out a b
        (FrameF.comp f l l2 lq a b hfr2 hfrq)
        (FrameF.mono f lq out newp b a b R1 (by omega) (Nat.le_refl b)), ?_⟩
      have hvals : ∀ k, a ≤ k → k < newp →
          f (getI out k) = f (getI l2 pivot) := by
        intro k hk1 hk2
        rw [R1.outF k (Or.inl hk2)]
        exact hconst k hk1 hk2
      have hhout : ∀ k, newp ≤ k → k < b →
          f (getI l2 pivot) ≤ f (getI out k) :=
        R1.segAll f lq out newp b (by omega) hbq
          (fun v => f (getI l2 pivot) ≤ v) hge
      intro x y hx hxy hy
      rcases Nat.lt_or_ge y newp with hyn | hyn
      · rw [hvals x hx (by omega), hvals y (by omega) hyn]
      · rcases Nat.lt_or_ge x newp with hxn | hxn
        · rw [hvals x hx hxn]
          exact hhout y hyn hy
        · exact R2 x y hxn hxy hy
  have hafter : ∀ (l2 : List α) (pivot : Nat) (stop : Bool),
      FrameF f l l2 a b → (stop = true → SortedRange f l2 a b) →
      (∀ x ∈ l2, P x) → b ≤ l2.length → PrefixBound f l2 a b →
      a ≤ pivot → pivot < b →
      ((if stop = true then pure l2
        else if a > 0 then
          (less (getI l2 (a - 1)) (getI l2 pivot)).bind fun bl =>
            (some (!bl)).bind fun useEqual =>
              if useEqual = true then
                (partitionEqualM less l2 a b pivot).bind fun r =>
                  pdqsortM less fuel r.1 r.2 b limit wb wp
              else
                (partitionM less l2 a b pivot).bind fun r =>
                  if r.2.1 - a < b - r.2.1 then
                    (pdqsortM less fuel r.1 a r.2.1 limit
                      (decide (min (r.2.1 - a) (b - r.2.1) ≥ (b - a) / 8))
                      r.2.2).bind
                      fun l4 => pdqsortM less fuel l4 (r.2.1 + 1) b limit
                        (decide (min (r.2.1 - a) (b - r.2.1) ≥ (b - a) / 8))
                        r.2.2
                  else
                    (pdqsortM less fuel r.1 (r.2.1 + 1) b limit
                      (decide (min (r.2.1 - a) (b - r.2.1) ≥ (b - a) / 8))
                      r.2.2).bind
                      fun l4 => pdqsortM less fuel l4 a r.2.1 limit
                        (decide (min (r.2.1 - a) (b - r.2.1) ≥ (b - a) / 8))
                        r.2.2
        else
          (some false).bind fun useEqual =>
            if useEqual = true then
              (partitionEqualM less l2 a b pivot).bind fun r =>
                pdqsortM less fuel r.1 r.2 b limit wb wp
            else
              (partitionM less l2 a b pivot).bind fun r =>
                if r.2.1 - a < b - r.2.1 then
                  (pdqsortM less fuel r.1 a r.2.1 limit
                    (decide (min (r.2.1 - a) (b - r.2.1) ≥ (b - a) / 8))
                    r.2.2).bind
                    fun l4 => pdqsortM less fuel l4 (r.2.1 + 1) b limit
                      (decide (min (r.2.1 - a) (b - r.2.1) ≥ (b - a) / 8))
                      r.2.2
                else
                  (pdqsortM less fuel r.1 (r.2.1 + 1) b limit
                    (decide (min (r.2.1 - a) (b - r.2.1) ≥ (b - a) / 8))
                    r.2.2).bind
                    fun l4 => pdqsortM less fuel l4 a r.2.1 limit
                      (decide (min (r.2.1 - a) (b - r.2.1) ≥ (b - a) / 8))
                      r.2.2 :
          Option (List α)) = some out) →
      FrameF f l out a b ∧ SortedRange f out a b := by
    intro l2 pivot stop hfr2 hsort2 hP2 hb2 hpre2 hp1 hp2 hm
    cases stop with
    | true =>
      rw [if_pos rfl] at hm
      cases hm
      exact ⟨hfr2, hsort2 rfl⟩
    | false =>
      rw [if_neg (by simp)] at hm
      by_cases ha0 : a > 0
      · rw [if_pos ha0] at hm
        cases hguard : less (getI l2 (a - 1)) (getI l2 pivot) with
        | none => rw [hguard] at hm; cases hm
        | some bl =>
          rw [hguard] at hm
          simp only [Option.pure_def, Option.some_bind] at hm
          cases bl with
          | true =>
            rw [if_neg (by simp)] at hm
            exact hpart l2 pivot hfr2 hP2 hb2 hpre2 hp1 hp2 hm
          | false =>
            rw [if_pos (by simp)] at hm
            exact hequal l2 pivot hfr2 hP2 hb2 hpre2 hp1 hp2 ha0 hguard hm
      · rw [if_neg ha0] at hm
        simp only [Option.pure_def, Option.some_bind] at hm
        rw [if_neg (by simp)] at hm
        exact hpart l2 pivot hfr2 hP2 hb2 hpre2 hp1 hp2 hm
  cases hph : choosePivotM less l a b with
  | none => rw [hph] at h; cases h
  | some ph =>
    rw [hph] at h
    simp only [Option.some_bind] at h
    obtain ⟨hpv1, hpv2⟩ := choosePivotM_bounds less l a b ph hph hab
    by_cases hdec : ph.2 = Hint.decreasing
    · rw [if_pos hdec] at h
      have hfrrev := reverseRangeL_frame f l a b (by omega) hbl
      have hPL : ∀ x ∈ reverseRangeL l a b, P x :=
        fun x hx => hP x (hfrrev.perm.mem_iff.mp hx)
      have hbL : b ≤ (reverseRangeL l a b).length := by
        rw [reverseRangeL_length l a b (by omega) hbl]
        exact hbl
      have hpreL : PrefixBound f (reverseRangeL l a b) a b :=
        hpre.transfer f l (reverseRangeL l a b) a b hfrrev (by omega) hbl
      have hq1 : a ≤ b - 1 - (ph.1 - a) := by omega
      have hq2 : b - 1 - (ph.1 - a) < b := by omega
      by_cases hpi : wb = true ∧ wp = true ∧
          (reverseRangeL l a b, b - 1 - (ph.1 - a),
            Hint.increasing).2.2 = Hint.increasing
      · rw [if_pos hpi] at h
        cases hps : partialInsertionSortM less
            (reverseRangeL l a b, b - 1 - (ph.1 - a), Hint.increasing).1 a b
          with
        | none => rw [hps] at h; cases h
        | some ls =>
          obtain ⟨lp, stop⟩ := ls
          rw [hps] at h
          obtain ⟨hpi1, hpi2⟩ := partialInsertionSortM_spec P less f hc
            (reverseRangeL l a b) lp a b stop hps hPL hbL hab hpreL
          exact hafter lp (b - 1 - (ph.1 - a)) stop
            (FrameF.comp f l (reverseRangeL l a b) lp a b hfrrev hpi1) hpi2
            (fun x hx => hPL x (hpi1.perm.mem_iff.mp hx))
            (by rw [hpi1.perm.length_eq]; exact hbL)
            (hpreL.transfer f (reverseRangeL l a b) lp a b hpi1 (by omega)
              hbL) hq1 hq2 h
      · rw [if_neg hpi] at h
        exact hafter (reverseRangeL l a b) (b - 1 - (ph.1 - a)) false hfrrev
          (fun h' => absurd h' (by simp)) hPL hbL hpreL hq1 hq2 h
    · rw [if_neg hdec] at h
      by_cases hpi : wb = true ∧ wp = true ∧
          ((l, ph.1, ph.2) : List α × Nat × Hint).2.2 = Hint.increasing
      · rw [if_pos hpi] at h
        cases hps : partialInsertionSortM less (l, ph.1, ph.2).1 a b with
        | none => rw [hps] at h; cases h
        | some ls =>
          obtain ⟨lp, stop⟩ := ls
          rw [hps] at h
          obtain ⟨hpi1, hpi2⟩ := partialInsertionSortM_spec P less f hc
            l lp a b stop hps hP hbl hab hpre
          exact hafter lp ph.1 stop hpi1 hpi2
            (fun x hx => hP x (hpi1.perm.mem_iff.mp hx))
            (by rw [hpi1.perm.length_eq]; exact hbl)
            (hpre.transfer f l lp a b hpi1 (by omega) hbl) hpv1 hpv2 h
      · rw [if_neg hpi] at h
        exact hafter l ph.1 false (FrameF.refl f l a b)
          (fun h' => absurd h' (by simp)) hP hbl hpre hpv1 hpv2 h

/-- `pdqsort_func` on any range, any fuel: a frame step whose result is
sorted on the range under any projection compatible with the comparator. -/
theorem pdqsortM_spec [Inhabited α] (P : α → Prop)
    (less : α → α → Option Bool) (f : α → Nat) (hc : FCompat P less f) :
    ∀ (fuel : Nat) (l : List α) (a b limit : Nat) (wb wp : Bool)
      (out : List α),
      pdqsortM less fuel l a b limit wb wp = some out →
      (∀ x ∈ l, P x) → b ≤ l.length → a ≤ b → PrefixBound f l a b →
      FrameF f l out a b ∧ SortedRange f out a b := by
  intro fuel
  induction fuel with
  | zero =>
    intro l a b limit wb wp out h
    cases h
  | succ fuel ih =>
    intro l a b limit wb wp out h hP hbl hab hpre
    rw [pdqsortM_succ] at h
    by_cases h12 : b - a ≤ 12
    · rw [if_pos h12] at h
      exact insertionSeg_spec P less f hc l out a b hP hab hbl h
    · rw [if_neg h12] at h
      by_cases hlim : limit = 0
      · rw [if_pos hlim] at h
        exact heapSortM_spec P less f hc l out a b h hP hbl hab
      · rw [if_neg hlim] at h
        have hab2 : a < b := by omega
        cases wb with
        | false =>
          rw [if_pos (by simp)] at h
          obtain ⟨hfrB, hlenB⟩ := breakPatternsM_frame f l a b hab hbl
          obtain ⟨T1, T2⟩ := pdqsortTail_spec P less f hc fuel ih
            (breakPatternsM l a b) a b (limit - 1) false wp out h
            (fun x hx => hP x (hfrB.perm.mem_iff.mp hx))
            (by rw [hlenB]; exact hbl) hab2
            (hpre.transfer f l (breakPatternsM l a b) a b hfrB hab hbl)
          exact ⟨FrameF.comp f l (breakPatternsM l a b) out a b hfrB T1, T2⟩
        | true =>
          rw [if_neg (by simp)] at h
          exact pdqsortTail_spec P less f hc fuel ih l a b limit true wp out
            h hP hbl hab2 hpre

/-- `sort.Slice`: whenever it completes, the result is a permutation of the
input that is sorted under any projection compatible with the comparator. -/
theorem sortSliceM_sorted [Inhabited α] (P : α → Prop)
    (less : α → α → Option Bool) (f : α → Nat) (hc : FCompat P less f)
    (l out : List α) (h : sortSliceM less l = some out)
    (hP : ∀ x ∈ l, P x) :
    out.Perm l ∧ SortedRange f out 0 l.length := by
  rw [sortSliceM] at h
  obtain ⟨T1, T2⟩ := pdqsortM_spec P less f hc (2 * l.length + 8) l 0
    l.length (bitsLen l.length) true true out h hP (Nat.le_refl _)
    (by omega) (fun q hq => absurd hq (by omega))
  exact ⟨T1.perm, T2⟩

/-- The kind priority never exceeds `order FUNC = 4`. -/
theorem kindRank_le_four (d : GoDecl) : kindRank d ≤ 4 :=
  order_le_four _

/-- The comparator of `sortAST` is compatible with the kind priority, with
no side condition, for either configuration. -/
theorem kindRank_fcompat (conf : Config) :
    FCompat (fun _ : GoDecl => True) (declLess conf) kindRank :=
  fcompat_of_radj (fun u v _ _ hr => Radj_kindRank conf u v hr)

/-- A free `main` is a `FuncDecl` whose parsed name is the receiverless
`main`. -/
theorem isFreeMain_extract (d : GoDecl) (h : isFreeMainB d = true) :
    ∃ fm nm, d = GoDecl.funcDecl fm ∧ funcName fm = some nm ∧
      nm.recv = "" ∧ nm.name = "main" := by
  cases d with
  | funcDecl fm =>
    cases hf : funcName fm with
    | none => simp [isFreeMainB, hf] at h
    | some nm =>
      simp [isFreeMainB, hf] at h
      exact ⟨fm, nm, rfl, hf, h.1, h.2⟩
  | genDecl g => simp [isFreeMainB] at h
  | badDecl p e => simp [isFreeMainB] at h

/-- Under the alphabetical option the comparator is compatible with
`mainRank` on the declarations `go/parser` can produce. -/
theorem mainRank_fcompat (conf : Config)
    (halpha : conf.sortAlphabetically = true) :
    FCompat (fun d : GoDecl => genTokOK d = true) (declLess conf) mainRank := by
  apply fcompat_of_radj
  intro u v hu hv hr
  have hk := Radj_kindRank conf u v hr
  rcases Nat.lt_or_ge (kindRank u) (kindRank v) with hlt | hge
  · have hfu : (if isFreeMainB u then 1 else 0) ≤ 1 := by split <;> omega
    have hfv : (0 : Nat) ≤ (if isFreeMainB v then 1 else 0) := Nat.zero_le _
    unfold mainRank
    omega
  · have heq : kindRank u = kindRank v := by omega
    by_cases hum : isFreeMainB u = true
    · by_cases hvm : isFreeMainB v = true
      · unfold mainRank
        rw [hum, hvm]
        omega
      · exfalso
        obtain ⟨fm, nm, rfl, hnm, hr1, hr2⟩ := isFreeMain_extract u hum
        refine Radj_after_main conf halpha fm nm hnm ⟨hr1, hr2⟩ v ?_
          (by simpa using hvm) hr
        intro g hg
        rw [hg] at hv
        simpa [genTokOK] using hv
    · have hfu0 : (if isFreeMainB u then 1 else 0) = 0 := by
        rw [if_neg hum]
      have hfv : (0 : Nat) ≤ (if isFreeMainB v then 1 else 0) := Nat.zero_le _
      unfold mainRank
      omega

end GoOrder

namespace GoOrder

/-!
## Claim theorems
-/

/-- C10: the two versions of the sorting routine are equivalent — for every
declaration list and every configuration, `sortAST` of src/main.go and
`sortAST` of src/unnamed/part_001 produce the same final declaration order.
(The two files carry textually identical comparator closures and both hand
them to `sort.Slice`; the `-w` flag of the later version does not reach the
comparator.) -/
theorem sortAST_versions_agree (decls : List GoDecl) (a w : Bool) :
    sortASTv1 decls { sortAlphabetically := a } =
      sortAST decls { sortAlphabetically := a, writeToFile := w } := rfl

/-- C2: refuted on the code.  `sortAST` sorts with `sort.Slice`, which is not
a stable sort: on the 16-declaration file `c2input` (alternating single-spec
`type`/`var` declarations) with the alphabetical option disabled, the `var`
declarations — all of which compare equal to each other — leave in the order
`V5, V1, V8, V2, V7, V3, V6, V4`, not in their original relative order; so do
the `type` declarations.  In particular `V1` precedes `V5` in the input while
`V5` precedes `V1` in the output. -/
theorem sortSlice_unstable_on_alternating_kinds :
    sortAST c2input plainConf = some c2result ∧
    getToken (vdecl "V1" 21) = getToken (vdecl "V5" 101) ∧
    c2input.indexOf (vdecl "V1" 21) < c2input.indexOf (vdecl "V5" 101) ∧
    c2result.indexOf (vdecl "V5" 101) < c2result.indexOf (vdecl "V1" 21) := by
  refine ⟨by decide, by decide, by decide, by decide⟩

/-- C7: refuted on the code (code bug).  Sorting and emitting is not
idempotent: on `package p\n\nvar x int\n\n// a\n\n// b\n` the first run
produces `c7out1`, whose two trailing `// b` lines stem from the sentinel
bucket receiving `content[start-1:]` — the suffix to the end of file — once
per trailing comment group; running sort-and-emit on `c7out1` (whose AST is
`c7tree2`: the adjacent `// b` lines now form one comment group) produces
`c7out2 ≠ c7out1`, duplicating the trailing comments once more. -/
theorem sort_emit_not_idempotent :
    sortFile c7tree c7content plainConf = some c7out1 ∧
    sortFile c7tree2 c7out1 plainConf = some c7out2 ∧
    c7out2 ≠ c7out1 := by
  refine ⟨by decide, by decide, by decide⟩

/-- C3: counterexample.  In `package p\n\n/*c*/var x int\n` the comment
`/*c*/` ends exactly where `var x int` starts (`End() = Pos() = 17`; equal
byte offsets).  The claim says such a comment attaches to that declaration;
the classifier's test is the strict `d.Pos() > c.End()`, so the comment skips
the declaration and lands in the sentinel bucket, the declaration's bucket
staying empty. -/
theorem touching_comment_not_attached :
    c3comment.endPos = c3decl.pos ∧
    c3comment ∈ c3tree.comments ∧
    c3decl ∈ c3tree.decls ∧
    isRootComment c3tree.decls c3tree.packagePos c3comment = true ∧
    attachTarget c3tree.decls c3comment = none ∧
    assignRootCommentsToDecl c3tree c3content (some c3decl) = [] := by
  refine ⟨by decide, by decide, by decide, by decide, by decide, by decide⟩

/-- C3 (amended): every surviving root comment's bytes are appended to the
bucket of the first declaration, in original order, whose span starts
STRICTLY after the comment's end offset (at least one byte later); a comment
whose end offset merely equals a declaration's start offset does not attach
to that declaration. -/
theorem comment_attached_first_strictly_after (tree : GoFile)
    (content : List Byte) (c : CommentGroup) (hc : c ∈ tree.comments)
    (hroot : isRootComment tree.decls tree.packagePos c = true) :
    (∃ u v, assignRootCommentsToDecl tree content (attachTarget tree.decls c) =
      u ++ assignedBytes tree.decls content c ++ v) ∧
    ∀ d, attachTarget tree.decls c = some d →
      c.endPos < d.pos ∧
      ∃ l1 l2, tree.decls = l1 ++ d :: l2 ∧ ∀ d2 ∈ l1, ¬ c.endPos < d2.pos := by
  constructor
  · rw [assignRoot_apply]
    have hcf : c ∈ tree.comments.filter fun c2 =>
        isRootComment tree.decls tree.packagePos c2 &&
        decide (attachTarget tree.decls c2 = attachTarget tree.decls c) :=
      List.mem_filter.mpr ⟨hc, by simp [hroot]⟩
    obtain ⟨u, v, huv⟩ :=
      flatten_map_mem_split (assignedBytes tree.decls content) _ c hcf
    exact ⟨initComments (attachTarget tree.decls c) ++ u, v, by
      rw [huv]
      simp⟩
  · intro d hd
    rw [attachTarget] at hd
    obtain ⟨hp, l1, l2, hsplit, hfail⟩ := find?_first_split _ tree.decls d hd
    refine ⟨by simpa using hp, l1, l2, hsplit, ?_⟩
    intro d2 hd2
    simpa using hfail d2 hd2

/-- Witness for the amended C3 at a concrete input: in `wtree` the comment
`// doc B` (ending at offset 20) attaches to `func B() {}` (starting at
offset 21). -/
theorem comment_attached_first_strictly_after_witness :
    wcomment ∈ wtree.comments ∧
    isRootComment wtree.decls wtree.packagePos wcomment = true ∧
    ((∃ u v, assignRootCommentsToDecl wtree wcontent
        (attachTarget wtree.decls wcomment) =
      u ++ assignedBytes wtree.decls wcontent wcomment ++ v) ∧
    ∀ d, attachTarget wtree.decls wcomment = some d →
      wcomment.endPos < d.pos ∧
      ∃ l1 l2, wtree.decls = l1 ++ d :: l2 ∧
        ∀ d2 ∈ l1, ¬ wcomment.endPos < d2.pos) :=
  ⟨by decide, by decide,
    comment_attached_first_strictly_after wtree wcontent wcomment
      (by decide) (by decide)⟩

/-- C4: counterexample.  For the file of `c7tree` (declaration `var x int`,
then trailing groups `// a` and `// b`), the claim mandates that the sentinel
bucket consist of exactly each trailing comment's own bytes with its own
blank-line run, concatenated: that is `// a\n\n// b\n` (the second and third
conjuncts compute this via the same byte capture used for attached comments).
The actual bucket starts with the initialization newline of
`comments[nil] = {'\n'}` and holds, per comment, the whole suffix of the file
from that comment's start — so the bytes of `// b` appear twice. -/
theorem sentinel_bucket_not_own_bytes :
    assignRootCommentsToDecl c7tree c7content none =
      asciiBytes "\n// a\n\n// b\n// b\n" ∧
    capturedComment c7content { pos := 23, endPos := 27 } ++
      capturedComment c7content { pos := 29, endPos := 33 } =
      asciiBytes "// a\n\n// b\n" ∧
    asciiBytes "\n// a\n\n// b\n// b\n" ≠ asciiBytes "// a\n\n// b\n" := by
  refine ⟨by decide, by decide, by decide⟩

/-- C4 (amended): the sentinel bucket's emitted bytes are a single newline
followed by, for each root comment that no declaration follows (in original
source order), the entire suffix of the file from that comment's start to the
end of file; and they are the last bytes of the output. -/
theorem sentinel_bucket_layout (tree : GoFile) (content : List Byte)
    (conf : Config) (out : List Byte)
    (hrun : sortFile tree content conf = some out) :
    assignRootCommentsToDecl tree content none =
      nlByte :: ((tree.comments.filter fun c =>
          isRootComment tree.decls tree.packagePos c &&
          decide (attachTarget tree.decls c = none)).map
        fun c => content.drop (c.pos - 1)).flatten ∧
    ∃ pre, out = pre ++ assignRootCommentsToDecl tree content none := by
  constructor
  · rw [assignRoot_apply]
    have hmap : ((tree.comments.filter fun c =>
        isRootComment tree.decls tree.packagePos c &&
        decide (attachTarget tree.decls c = none)).map
          (assignedBytes tree.decls content)) =
        ((tree.comments.filter fun c =>
          isRootComment tree.decls tree.packagePos c &&
          decide (attachTarget tree.decls c = none)).map
            fun c => content.drop (c.pos - 1)) := by
      refine List.map_congr_left ?_
      intro c2 hc2
      have hcond := (List.mem_filter.mp hc2).2
      simp only [Bool.and_eq_true, decide_eq_true_eq] at hcond
      simp [assignedBytes, hcond.2]
    rw [hmap]
    rfl
  · simp only [sortFile] at hrun
    cases hs : sortAST tree.decls conf with
    | none => rw [hs] at hrun; cases hrun
    | some sorted =>
      rw [hs] at hrun
      cases hrun
      refine ⟨docBytes tree.doc ++ pkgHeader tree.name ++
        writeDeclsLoop content (assignRootCommentsToDecl tree content) sorted, ?_⟩
      simp [write]

/-- Witness for the amended C4 at a concrete input: on the file of `c7tree`
the serializer's output ends with the sentinel bucket. -/
theorem sentinel_bucket_layout_witness :
    assignRootCommentsToDecl c7tree c7content none =
      nlByte :: ((c7tree.comments.filter fun c =>
          isRootComment c7tree.decls c7tree.packagePos c &&
          decide (attachTarget c7tree.decls c = none)).map
        fun c => c7content.drop (c.pos - 1)).flatten ∧
    ∃ pre, c7out1 = pre ++ assignRootCommentsToDecl c7tree c7content none :=
  sentinel_bucket_layout c7tree c7content plainConf c7out1 (by decide)

/-!
## Abort of the full engine on a toxic element

A declaration the comparator rejects is "toxic": every comparison that
evaluates it returns `none`.  The lemmas below show that each phase of
`pdqsort_func` that runs on a range of at least two elements must evaluate a
comparison involving every element of the range before completing, so a toxic
element anywhere in the range forces the whole sort to abort — for files of
any size, through the insertion-sort, partitioning and heap-sort regimes
alike.
-/

theorem scanUpM_none_head [Inhabited α] (p : α → Option Bool) (l : List α) :
    ∀ (fuel i j : Nat), 1 ≤ fuel → i ≤ j → p (getI l i) = none →
      scanUpM p l fuel i j = none
  | 0, _, _, hf, _, _ => absurd hf (by omega)
  | fuel + 1, i, j, _, hij, hp => by
    rw [scanUpM, if_pos hij, hp]
    rfl

theorem scanUpM_toxic [Inhabited α] (p : α → Option Bool) (l : List α)
    (q : Nat) (hq : p (getI l q) = none) :
    ∀ (fuel i j i2 : Nat), i ≤ q → q ≤ j →
      scanUpM p l fuel i j = some i2 → i2 < q
  | 0, _, _, _, _, _, h => by cases h
  | fuel + 1, i, j, i2, h1, h2, h => by
    rw [scanUpM, if_pos (by omega : i ≤ j)] at h
    by_cases hiq : i = q
    · rw [hiq, hq] at h
      cases h
    · cases hb : p (getI l i) with
      | none => rw [hb] at h; cases h
      | some bv =>
        rw [hb] at h
        simp only [Option.bind_eq_bind, Option.some_bind] at h
        cases bv with
        | true =>
          rw [if_pos rfl] at h
          exact scanUpM_toxic p l q hq fuel (i + 1) j i2 (by omega) h2 h
        | false =>
          rw [if_neg (by simp)] at h
          cases h
          omega

theorem scanDnM_toxic [Inhabited α] (p : α → Option Bool) (l : List α)
    (q : Nat) (hq : p (getI l q) = none) :
    ∀ (fuel i j j2 : Nat), i ≤ q → q ≤ j →
      scanDnM p l fuel i j = some j2 → q < j2
  | 0, _, _, _, _, _, h => by cases h
  | fuel + 1, i, j, j2, h1, h2, h => by
    rw [scanDnM, if_pos (by omega : i ≤ j)] at h
    by_cases hjq : j = q
    · rw [hjq, hq] at h
      cases h
    · cases hb : p (getI l j) with
      | none => rw [hb] at h; cases h
      | some bv =>
        rw [hb] at h
        simp only [Option.bind_eq_bind, Option.some_bind] at h
        cases bv with
        | true =>
          rw [if_pos rfl] at h
          exact scanDnM_toxic p l q hq fuel i (j - 1) j2 h1 (by omega) h
        | false =>
          rw [if_neg (by simp)] at h
          cases h
          omega

/-- With a toxic element strictly between the pointers, the interchange loop
of `partition_func` can never complete: the scans evaluate every position they
pass, so they stop strictly on either side of the toxic element, the swap
misses it, and the loop recurses with it still inside the window. -/
theorem partitionLoopM_toxic [Inhabited α] (less : α → α → Option Bool)
    (pv d : α) (hLd : ∀ y, less d y = none) :
    ∀ (fuel : Nat) (l : List α) (i j q : Nat), i ≤ q → q ≤ j →
      getI l q = d → partitionLoopM less pv fuel l i j = none
  | 0, _, _, _, _, _, _, _ => rfl
  | fuel + 1, l, i, j, q, h1, h2, hd => by
    rw [partitionLoopM]
    simp only [Option.bind_eq_bind]
    cases hs1 : scanUpM (fun x => less x pv) l (l.length + 2) i j with
    | none => rfl
    | some i2 =>
      have hi2 : i2 < q := scanUpM_toxic (fun x => less x pv) l q
        (by show less (getI l q) pv = none; rw [hd]; exact hLd pv)
        (l.length + 2) i j i2 h1 h2 hs1
      simp only [Option.some_bind]
      cases hs2 : scanDnM (fun x => (less x pv).bind fun b => pure (!b)) l
          (l.length + 2) i2 j with
      | none => rfl
      | some j2 =>
        have hj2 : q < j2 := scanDnM_toxic
          (fun x => (less x pv).bind fun b => pure (!b)) l q
          (by
            show (less (getI l q) pv).bind (fun b => (pure (!b) : Option Bool)) = none
            rw [hd, hLd]
            rfl)
          (l.length + 2) i2 j j2 (by omega) h2 hs2
        simp only [Option.some_bind]
        rw [if_neg (by omega : ¬ i2 > j2)]
        exact partitionLoopM_toxic less pv d hLd fuel (swapL l i2 j2)
          (i2 + 1) (j2 - 1) q (by omega) (by omega)
          (by rw [getI_swapL_ne l i2 j2 q (by omega) (by omega)]; exact hd)

/-- After the pivot swap of `partition_func` or `partitionEqual_func`, a toxic
element of `[a, b)` either became the pivot value at `a` or sits strictly
inside `(a, b)`. -/
theorem swapL_pivot_pos [Inhabited α] (l0 : List α) (a b pivot p : Nat)
    (d : α) (hbl : b ≤ l0.length) (hpv1 : a ≤ pivot) (hpv2 : pivot < b)
    (hp1 : a ≤ p) (hp2 : p < b) (hd : getI l0 p = d)
    (hne : ¬ getI (swapL l0 a pivot) a = d) :
    ∃ q, a < q ∧ q < b ∧ getI (swapL l0 a pivot) q = d := by
  by_cases hppiv : p = pivot
  · exfalso
    apply hne
    rw [getI_swapL_fst l0 a pivot (by omega), ← hppiv, hd]
  · by_cases hpa : p = a
    · refine ⟨pivot, by omega, hpv2, ?_⟩
      rw [getI_swapL_snd l0 a pivot (by omega), ← hpa, hd]
    · refine ⟨p, by omega, hp2, ?_⟩
      rw [getI_swapL_ne l0 a pivot p hpa hppiv]
      exact hd

/-- `partition_func` on a range of at least two elements containing a toxic
element always aborts: if the toxic element is the pivot, the very first scan
comparison panics; otherwise the scans bracket it and the loop never ends. -/
theorem partitionM_toxic [Inhabited α] (less : α → α → Option Bool) (d : α)
    (hLd : ∀ y, less d y = none) (hRd : ∀ y, less y d = none)
    (l0 : List α) (a b pivot p : Nat) (hbl : b ≤ l0.length)
    (hab : a + 2 ≤ b) (hpv1 : a ≤ pivot) (hpv2 : pivot < b)
    (hp1 : a ≤ p) (hp2 : p < b) (hd : getI l0 p = d) :
    partitionM less l0 a b pivot = none := by
  simp only [partitionM, Option.bind_eq_bind]
  set l := swapL l0 a pivot with hl
  set pv := getI l a with hpv
  by_cases hpva : pv = d
  · rw [scanUpM_none_head (fun x => less x pv) l (l.length + 2) (a + 1)
      (b - 1) (by omega) (by omega)
      (by show less (getI l (a + 1)) pv = none; rw [hpva]; exact hRd _)]
    rfl
  · obtain ⟨q, hq1, hq2, hqd⟩ := swapL_pivot_pos l0 a b pivot p d hbl hpv1
      hpv2 hp1 hp2 hd (by rw [← hl, ← hpv]; exact hpva)
    rw [← hl] at hqd
    cases hsu : scanUpM (fun x => less x pv) l (l.length + 2) (a + 1)
        (b - 1) with
    | none => rfl
    | some i1 =>
      have hi1 : i1 < q := scanUpM_toxic (fun x => less x pv) l q
        (by show less (getI l q) pv = none; rw [hqd]; exact hLd pv)
        (l.length + 2) (a + 1) (b - 1) i1 (by omega) (by omega) hsu
      simp only [Option.some_bind]
      cases hsd : scanDnM (fun x => (less x pv).bind fun b2 => pure (!b2)) l
          (l.length + 2) i1 (b - 1) with
      | none => rfl
      | some j1 =>
        have hj1 : q < j1 := scanDnM_toxic
          (fun x => (less x pv).bind fun b2 => pure (!b2)) l q
          (by
            show (less (getI l q) pv).bind (fun b2 => (pure (!b2) : Option Bool)) = none
            rw [hqd, hLd]
            rfl)
          (l.length + 2) i1 (b - 1) j1 (by omega) (by omega) hsd
        simp only [Option.some_bind]
        rw [if_neg (by omega : ¬ i1 > j1)]
        rw [partitionLoopM_toxic less pv d hLd (b + 2) (swapL l i1 j1)
          (i1 + 1) (j1 - 1) q (by omega) (by omega)
          (by rw [getI_swapL_ne l i1 j1 q (by omega) (by omega)]; exact hqd)]
        rfl

theorem partitionEqualLoopM_pvnone [Inhabited α]
    (less : α → α → Option Bool) (pv : α) (hpv : ∀ x, less pv x = none) :
    ∀ (fuel : Nat) (l : List α) (i j : Nat), 1 ≤ fuel → i ≤ j →
      partitionEqualLoopM less pv fuel l i j = none
  | 0, _, _, _, hf, _ => absurd hf (by omega)
  | fuel + 1, l, i, j, _, hij => by
    rw [partitionEqualLoopM]
    simp only [Option.bind_eq_bind]
    rw [scanUpM_none_head (fun x => (less pv x).bind fun b => pure (!b)) l
      (l.length + 2) i j (by omega) hij
      (by
        show (less pv (getI l i)).bind (fun b => (pure (!b) : Option Bool)) = none
        rw [hpv]
        rfl)]
    rfl

theorem partitionEqualLoopM_toxic [Inhabited α]
    (less : α → α → Option Bool) (pv d : α) (hRv : less pv d = none) :
    ∀ (fuel : Nat) (l : List α) (i j q : Nat), i ≤ q → q ≤ j →
      getI l q = d → partitionEqualLoopM less pv fuel l i j = none
  | 0, _, _, _, _, _, _, _ => rfl
  | fuel + 1, l, i, j, q, h1, h2, hd => by
    rw [partitionEqualLoopM]
    simp only [Option.bind_eq_bind]
    cases hs1 : scanUpM (fun x => (less pv x).bind fun b => pure (!b)) l
        (l.length + 2) i j with
    | none => rfl
    | some i2 =>
      have hi2 : i2 < q := scanUpM_toxic
        (fun x => (less pv x).bind fun b => pure (!b)) l q
        (by
          show (less pv (getI l q)).bind (fun b => (pure (!b) : Option Bool)) = none
          rw [hd, hRv]
          rfl)
        (l.length + 2) i j i2 h1 h2 hs1
      simp only [Option.some_bind]
      cases hs2 : scanDnM (fun x => less pv x) l (l.length + 2) i2 j with
      | none => rfl
      | some j2 =>
        have hj2 : q < j2 := scanDnM_toxic (fun x => less pv x) l q
          (by show less pv (getI l q) = none; rw [hd, hRv])
          (l.length + 2) i2 j j2 (by omega) h2 hs2
        simp only [Option.some_bind]
        rw [if_neg (by omega : ¬ i2 > j2)]
        exact partitionEqualLoopM_toxic less pv d hRv fuel (swapL l i2 j2)
          (i2 + 1) (j2 - 1) q (by omega) (by omega)
          (by rw [getI_swapL_ne l i2 j2 q (by omega) (by omega)]; exact hd)

/-- `partitionEqual_func` on a range of at least two elements containing a
toxic element always aborts. -/
theorem partitionEqualM_toxic [Inhabited α] (less : α → α → Option Bool)
    (d : α) (hLd : ∀ y, less d y = none) (hRd : ∀ y, less y d = none)
    (l0 : List α) (a b pivot p : Nat) (hbl : b ≤ l0.length)
    (hab : a + 2 ≤ b) (hpv1 : a ≤ pivot) (hpv2 : pivot < b)
    (hp1 : a ≤ p) (hp2 : p < b) (hd : getI l0 p = d) :
    partitionEqualM less l0 a b pivot = none := by
  simp only [partitionEqualM]
  set l := swapL l0 a pivot with hl
  set pv := getI l a with hpv
  by_cases hpva : pv = d
  · exact partitionEqualLoopM_pvnone less pv
      (fun x => by rw [hpva]; exact hLd x) (b + 2) l (a + 1) (b - 1)
      (by omega) (by omega)
  · obtain ⟨q, hq1, hq2, hqd⟩ := swapL_pivot_pos l0 a b pivot p d hbl hpv1
      hpv2 hp1 hp2 hd (by rw [← hl, ← hpv]; exact hpva)
    rw [← hl] at hqd
    exact partitionEqualLoopM_toxic less pv d (hRd pv) (b + 2) l (a + 1)
      (b - 1) q (by omega) (by omega) hqd

/-- The advancing scan of `partialInsertionSort_func` stops strictly before a
toxic element (and in particular never reaches `b`): the adjacent pair at or
just past the toxic element cannot be evaluated. -/
theorem pInsScanM_toxic [Inhabited α] (less : α → α → Option Bool) (d : α)
    (hLd : ∀ y, less d y = none) (hRd : ∀ y, less y d = none)
    (l : List α) (b p : Nat) (hpb : p < b) (hd : getI l p = d) :
    ∀ (fuel i i2 : Nat), i ≤ p + 1 → i < b →
      pInsScanM less l fuel i b = some i2 → i2 < p
  | 0, _, _, _, _, h => by cases h
  | fuel + 1, i, i2, hip, hib, h => by
    rw [pInsScanM, if_pos hib] at h
    by_cases hi_eq : i = p
    · rw [hi_eq, hd, hLd] at h
      cases h
    · by_cases hi_s : i = p + 1
      · rw [hi_s, show p + 1 - 1 = p from by omega, hd, hRd] at h
        cases h
      · cases hb2 : less (getI l i) (getI l (i - 1)) with
        | none => rw [hb2] at h; cases h
        | some bv =>
          rw [hb2] at h
          simp only [Option.bind_eq_bind, Option.some_bind] at h
          cases bv with
          | false =>
            rw [if_pos (by simp)] at h
            exact pInsScanM_toxic less d hLd hRd l b p hpb hd fuel (i + 1)
              i2 (by omega) (by omega) h
          | true =>
            rw [if_neg (by simp)] at h
            cases h
            omega

/-- The shift-left loop of `partialInsertionSort_func` never touches
positions above its starting point. -/
theorem shiftLeftM_frame_above [Inhabited α] (less : α → α → Option Bool) :
    ∀ (j : Nat) (l : List α) (p : Nat) (l2 : List α), j + 1 < p →
      shiftLeftM less j l = some l2 →
      getI l2 p = getI l p ∧ l2.length = l.length
  | 0, l, p, l2, _, h => by
    cases h
    exact ⟨rfl, rfl⟩
  | j + 1, l, p, l2, hjp, h => by
    rw [shiftLeftM] at h
    simp only [Option.bind_eq_bind] at h
    cases hb2 : less (getI l (j + 1)) (getI l j) with
    | none => rw [hb2] at h; cases h
    | some bv =>
      rw [hb2] at h
      simp only [Option.some_bind] at h
      cases bv with
      | false =>
        rw [if_pos (by simp)] at h
        cases h
        exact ⟨rfl, rfl⟩
      | true =>
        rw [if_neg (by simp)] at h
        obtain ⟨h1, h2⟩ := shiftLeftM_frame_above less j (swapL l (j + 1) j)
          p l2 (by omega) h
        constructor
        · rw [h1, getI_swapL_ne l (j + 1) j p (by omega) (by omega)]
        · rw [h2, swapL_length]

/-- The shift-right loop of `partialInsertionSort_func`, started at or below a
toxic element, either aborts or stops before reaching it, leaving it in
place. -/
theorem shiftRightM_toxic [Inhabited α] (less : α → α → Option Bool) (d : α)
    (hLd : ∀ y, less d y = none) :
    ∀ (fuel : Nat) (l : List α) (j b p : Nat) (l3 : List α),
      getI l p = d → j ≤ p → shiftRightM less fuel l j b = some l3 →
      getI l3 p = d ∧ l3.length = l.length
  | 0, _, _, _, _, _, _, _, h => by cases h
  | fuel + 1, l, j, b, p, l3, hd, hjp, h => by
    rw [shiftRightM] at h
    by_cases hjb : j < b
    · rw [if_pos hjb] at h
      simp only [Option.bind_eq_bind] at h
      by_cases hjp2 : j = p
      · rw [hjp2, hd, hLd] at h
        cases h
      · cases hb2 : less (getI l j) (getI l (j - 1)) with
        | none => rw [hb2] at h; cases h
        | some bv =>
          rw [hb2] at h
          simp only [Option.some_bind] at h
          cases bv with
          | false =>
            rw [if_pos (by simp)] at h
            cases h
            exact ⟨hd, rfl⟩
          | true =>
            rw [if_neg (by simp)] at h
            obtain ⟨h1, h2⟩ := shiftRightM_toxic less d hLd fuel
              (swapL l j (j - 1)) (j + 1) b p l3
              (by
                rw [getI_swapL_ne l j (j - 1) p (by omega) (by omega)]
                exact hd)
              (by omega) h
            exact ⟨h1, by rw [h2, swapL_length]⟩
    · rw [if_neg hjb] at h
      cases h
      exact ⟨hd, rfl⟩

/-- The outer loop of `partialInsertionSort_func` with a toxic element in
`[a, b)` either aborts or gives up with `false`, leaving the toxic element in
place: it can never report the range sorted, because reporting `true` requires
the scan to reach `b` past the toxic element. -/
theorem partialInsertionSortLoopM_toxic [Inhabited α]
    (less : α → α → Option Bool) (d : α)
    (hLd : ∀ y, less d y = none) (hRd : ∀ y, less y d = none) (a b : Nat) :
    ∀ (steps : Nat) (l : List α) (i p : Nat) (res : Option (List α × Bool)),
      partialInsertionSortLoopM less a b steps l i = res →
      a ≤ p → p < b → getI l p = d → i ≤ p + 1 → i < b →
      res = none ∨
      ∃ l2, res = some (l2, false) ∧ getI l2 p = d ∧ l2.length = l.length
  | 0, l, i, p, res, h, _, _, hd, _, _ => by
    cases h
    exact Or.inr ⟨l, rfl, hd, rfl⟩
  | steps + 1, l, i, p, res, h, hp1, hp2, hd, hip, hib => by
    rw [partialInsertionSortLoopM] at h
    simp only [Option.bind_eq_bind] at h
    cases hscan : pInsScanM less l (b + 2) i b with
    | none =>
      rw [hscan] at h
      exact Or.inl h.symm
    | some i2 =>
      rw [hscan] at h
      simp only [Option.some_bind] at h
      have hi2 : i2 < p := pInsScanM_toxic less d hLd hRd l b p hp2 hd
        (b + 2) i i2 hip hib hscan
      rw [if_neg (by omega : ¬ i2 = b)] at h
      by_cases hshort : b - a < 50
      · rw [if_pos hshort] at h
        exact Or.inr ⟨l, h.symm, hd, rfl⟩
      · rw [if_neg hshort] at h
        have hd1 : getI (swapL l i2 (i2 - 1)) p = d := by
          rw [getI_swapL_ne l i2 (i2 - 1) p (by omega) (by omega)]
          exact hd
        have hstep2 : ∀ (l2 : List α), getI l2 p = d → l2.length = l.length →
            (if b - i2 ≥ 2 then
                (shiftRightM less (b + 2) l2 (i2 + 1) b).bind fun l3 =>
                  partialInsertionSortLoopM less a b steps l3 i2
              else (some l2).bind fun l3 =>
                partialInsertionSortLoopM less a b steps l3 i2) = res →
            res = none ∨
            ∃ l4, res = some (l4, false) ∧ getI l4 p = d ∧
              l4.length = l.length := by
          intro l2 hd2 hlen2 h2
          by_cases hsr : b - i2 ≥ 2
          · rw [if_pos hsr] at h2
            cases hsrv : shiftRightM less (b + 2) l2 (i2 + 1) b with
            | none =>
              rw [hsrv] at h2
              exact Or.inl h2.symm
            | some l3 =>
              rw [hsrv] at h2
              simp only [Option.some_bind] at h2
              obtain ⟨hd3, hlen3⟩ := shiftRightM_toxic less d hLd (b + 2) l2
                (i2 + 1) b p l3 hd2 (by omega) hsrv
              rcases partialInsertionSortLoopM_toxic less d hLd hRd a b steps
                  l3 i2 p res h2 hp1 hp2 hd3 (by omega) (by omega) with
                hn | ⟨l4, he, hg, hl4⟩
              · exact Or.inl hn
              · exact Or.inr ⟨l4, he, hg, by rw [hl4, hlen3, hlen2]⟩
          · rw [if_neg hsr] at h2
            simp only [Option.some_bind] at h2
            rcases partialInsertionSortLoopM_toxic less d hLd hRd a b steps
                l2 i2 p res h2 hp1 hp2 hd2 (by omega) (by omega) with
              hn | ⟨l4, he, hg, hl4⟩
            · exact Or.inl hn
            · exact Or.inr ⟨l4, he, hg, by rw [hl4, hlen2]⟩
        by_cases hsl : i2 - a ≥ 2
        · rw [if_pos hsl] at h
          cases hslv : shiftLeftM less (i2 - 1) (swapL l i2 (i2 - 1)) with
          | none =>
            rw [hslv] at h
            exact Or.inl h.symm
          | some l2 =>
            rw [hslv] at h
            simp only [Option.some_bind] at h
            obtain ⟨hg2, hl2⟩ := shiftLeftM_frame_above less (i2 - 1)
              (swapL l i2 (i2 - 1)) p l2 (by omega) hslv
            exact hstep2 l2 (by rw [hg2]; exact hd1)
              (by rw [hl2, swapL_length]) h
        · rw [if_neg hsl] at h
          simp only [Option.pure_def, Option.some_bind] at h
          exact hstep2 (swapL l i2 (i2 - 1)) hd1 (swapL_length l i2 (i2 - 1))
            h

theorem partialInsertionSortM_toxic [Inhabited α]
    (less : α → α → Option Bool) (d : α)
    (hLd : ∀ y, less d y = none) (hRd : ∀ y, less y d = none)
    (l : List α) (a b p : Nat) (hab : a + 2 ≤ b) (hp1 : a ≤ p) (hp2 : p < b)
    (hd : getI l p = d) :
    partialInsertionSortM less l a b = none ∨
    ∃ l2, partialInsertionSortM less l a b = some (l2, false) ∧
      getI l2 p = d ∧ l2.length = l.length :=
  partialInsertionSortLoopM_toxic less d hLd hRd a b 5 l (a + 1) p
    (partialInsertionSortM less l a b) rfl hp1 hp2 hd (by omega) (by omega)

/-- `siftDown_func` cannot move a toxic element: every swap that could touch
it is preceded by a comparison that evaluates it. -/
theorem siftDownM_toxic_frame [Inhabited α] (less : α → α → Option Bool)
    (d : α) (hLd : ∀ y, less d y = none) (hRd : ∀ y, less y d = none)
    (first hi q : Nat) :
    ∀ (fuel : Nat) (l : List α) (root : Nat) (out : List α),
      siftDownM less fuel l root hi first = some out →
      getI l (first + q) = d → getI out (first + q) = d
  | 0, _, _, _, h, _ => by cases h
  | fuel + 1, l, root, out, h, hd => by
    rw [siftDownM] at h
    simp only [Option.bind_eq_bind] at h
    by_cases hch : 2 * root + 1 ≥ hi
    · rw [if_pos hch] at h
      cases h
      exact hd
    · rw [if_neg hch] at h
      have hmain : ∀ (child2 : Nat),
          ((less (getI l (first + root)) (getI l (first + child2))).bind
            fun b => if !b then pure l
              else siftDownM less fuel
                (swapL l (first + root) (first + child2)) child2 hi first) =
            some out →
          getI out (first + q) = d := by
        intro child2 hm
        by_cases hqr : q = root
        · rw [hqr] at hd
          rw [hd, hLd] at hm
          cases hm
        · by_cases hqc : q = child2
          · rw [hqc] at hd
            rw [hd, hRd] at hm
            cases hm
          · cases hb2 : less (getI l (first + root))
                (getI l (first + child2)) with
            | none => rw [hb2] at hm; cases hm
            | some bv =>
              rw [hb2] at hm
              simp only [Option.some_bind] at hm
              cases bv with
              | false =>
                rw [if_pos (by simp)] at hm
                cases hm
                exact hd
              | true =>
                rw [if_neg (by simp)] at hm
                exact siftDownM_toxic_frame less d hLd hRd first hi q fuel
                  (swapL l (first + root) (first + child2)) child2 out hm
                  (by
                    rw [getI_swapL_ne l (first + root) (first + child2)
                      (first + q) (by omega) (by omega)]
                    exact hd)
      by_cases hch1 : 2 * root + 1 + 1 < hi
      · rw [if_pos hch1] at h
        cases hb1 : less (getI l (first + (2 * root + 1)))
            (getI l (first + (2 * root + 1) + 1)) with
        | none => rw [hb1] at h; cases h
        | some bsel =>
          rw [hb1] at h
          simp only [Option.pure_def, Option.some_bind] at h
          cases bsel with
          | true =>
            rw [if_pos rfl] at h
            exact hmain (2 * root + 1 + 1) h
          | false =>
            rw [if_neg (by simp)] at h
            exact hmain (2 * root + 1) h
      · rw [if_neg hch1] at h
        simp only [Option.pure_def, Option.some_bind] at h
        exact hmain (2 * root + 1) h

/-- `siftDown_func` started at the parent of a toxic element (or at the toxic
root) aborts on its very first comparisons. -/
theorem siftDownM_toxic_hit [Inhabited α] (less : α → α → Option Bool)
    (d : α) (hLd : ∀ y, less d y = none) (hRd : ∀ y, less y d = none)
    (first hi q fuel : Nat) (l : List α) (root : Nat)
    (hfuel : 1 ≤ fuel) (hq : q < hi) (hd : getI l (first + q) = d)
    (hroot : (q = 0 ∧ root = 0 ∧ 2 ≤ hi) ∨ (1 ≤ q ∧ root = (q - 1) / 2)) :
    siftDownM less fuel l root hi first = none := by
  cases fuel with
  | zero => exact absurd hfuel (by omega)
  | succ fuel =>
    rw [siftDownM]
    simp only [Option.bind_eq_bind]
    have hchild : 2 * root + 1 = q ∨ 2 * root + 1 + 1 = q ∨
        (q = 0 ∧ root = 0 ∧ 2 ≤ hi) := by
      rcases hroot with ⟨h1, h2, h3⟩ | ⟨h1, h2⟩
      · exact Or.inr (Or.inr ⟨h1, h2, h3⟩)
      · omega
    have hchlt : ¬ 2 * root + 1 ≥ hi := by
      rcases hchild with h5 | h5 | ⟨h50, h51, h52⟩ <;> omega
    rw [if_neg hchlt]
    by_cases hch1 : 2 * root + 1 + 1 < hi
    · rw [if_pos hch1]
      rcases hchild with h5 | h5 | ⟨h50, h51, h52⟩
      · rw [h5, hd, hLd]
        rfl
      · rw [show first + (2 * root + 1) + 1 = first + (2 * root + 1 + 1) from
          by omega, h5, hd, hRd]
        rfl
      · subst h50
        subst h51
        cases hb1 : less (getI l (first + (2 * 0 + 1)))
            (getI l (first + (2 * 0 + 1) + 1)) with
        | none => rfl
        | some bsel =>
          simp only [Option.pure_def, Option.some_bind]
          rw [hd, hLd]
          rfl
    · rw [if_neg hch1]
      simp only [Option.pure_def, Option.some_bind]
      rcases hchild with h5 | h5 | ⟨h50, h51, h52⟩
      · rw [h5, hd, hRd]
        rfl
      · exact absurd hq (by omega)
      · subst h50
        subst h51
        rw [hd, hLd]
        rfl

/-- The heap-construction loop of `heapSort_func` aborts once a toxic element
is anywhere in the heap: it eventually sifts down from the toxic element's
parent (or from the toxic root), and until then the toxic element cannot
move. -/
theorem heapBuildM_toxic [Inhabited α] (less : α → α → Option Bool) (d : α)
    (hLd : ∀ y, less d y = none) (hRd : ∀ y, less y d = none)
    (hi first q : Nat) (hq : q < hi) (h2 : 2 ≤ hi) :
    ∀ (cnt : Nat) (l : List α), getI l (first + q) = d →
      (if q = 0 then 0 else (q - 1) / 2) < cnt →
      heapBuildM less hi first cnt l = none
  | 0, _, _, hcnt => absurd hcnt (by omega)
  | cnt + 1, l, hd, hcnt => by
    rw [heapBuildM]
    by_cases hc : cnt = (if q = 0 then 0 else (q - 1) / 2)
    · have hs : siftDownM less (hi + 2) l cnt hi first = none := by
        apply siftDownM_toxic_hit less d hLd hRd first hi q (hi + 2) l cnt
          (by omega) hq hd
        by_cases hq0 : q = 0
        · rw [if_pos hq0] at hc
          exact Or.inl ⟨hq0, by omega, h2⟩
        · rw [if_neg hq0] at hc
          exact Or.inr ⟨by omega, hc⟩
      rw [hs]
      rfl
    · cases hsd : siftDownM less (hi + 2) l cnt hi first with
      | none => rfl
      | some l2 =>
        simp only [Option.bind_eq_bind, Option.some_bind]
        refine heapBuildM_toxic less d hLd hRd hi first q hq h2 cnt l2
          (siftDownM_toxic_frame less d hLd hRd first hi q (hi + 2) l cnt l2
            hsd hd) ?_
        by_cases hq0 : q = 0
        · rw [if_pos hq0] at hcnt hc ⊢
          omega
        · rw [if_neg hq0] at hcnt hc ⊢
          omega

/-- `heapSort_func` on a range of at least two elements containing a toxic
element always aborts, already during heap construction. -/
theorem heapSortM_toxic [Inhabited α] (less : α → α → Option Bool) (d : α)
    (hLd : ∀ y, less d y = none) (hRd : ∀ y, less y d = none)
    (l : List α) (a b p : Nat) (hab : a + 2 ≤ b) (hp1 : a ≤ p) (hp2 : p < b)
    (hd : getI l p = d) : heapSortM less l a b = none := by
  simp only [heapSortM, Option.bind_eq_bind]
  rw [if_pos (by omega : b - a ≥ 2)]
  have hbn : heapBuildM less (b - a) a ((b - a - 2) / 2 + 1) l = none := by
    apply heapBuildM_toxic less d hLd hRd (b - a) a (p - a) (by omega)
      (by omega) ((b - a - 2) / 2 + 1) l
    · rw [show a + (p - a) = p from by omega]
      exact hd
    · by_cases hq0 : p - a = 0
      · rw [if_pos hq0]
        omega
      · rw [if_neg hq0]
        omega
  rw [hbn]
  rfl

theorem swapL_track [Inhabited α] (l : List α) (x y p : Nat) (d : α)
    (hx : x < l.length) (hy : y < l.length) (hd : getI l p = d) :
    ∃ q, getI (swapL l x y) q = d ∧ (q = p ∨ q = x ∨ q = y) := by
  by_cases hpx : p = x
  · exact ⟨y, by rw [getI_swapL_snd l x y hy, ← hpx, hd],
      Or.inr (Or.inr rfl)⟩
  · by_cases hpy : p = y
    · exact ⟨x, by rw [getI_swapL_fst l x y hx, ← hpy, hd],
        Or.inr (Or.inl rfl)⟩
    · exact ⟨p, by rw [getI_swapL_ne l x y p hpx hpy]; exact hd, Or.inl rfl⟩

/-- One scrambling swap of `breakPatterns_func` keeps a toxic element inside
`[a, a + length)`. -/
theorem breakPatternsSwap_toxic [Inhabited α] (d : α)
    (a length modulus idx i : Nat) (st : List α × Nat)
    (hmod : 1 ≤ modulus) (hmod2 : modulus ≤ 2 * length)
    (hidx1 : a ≤ idx - 1 + i) (hidx2 : idx - 1 + i < a + length)
    (hlen : a + length ≤ st.1.length)
    (p : Nat) (hp1 : a ≤ p) (hp2 : p < a + length) (hd : getI st.1 p = d) :
    ∃ q, a ≤ q ∧ q < a + length ∧
      getI (breakPatternsSwap a length modulus idx st i).1 q = d := by
  rw [breakPatternsSwap]
  have hoth : (if xorshiftNext st.2 % modulus ≥ length
      then xorshiftNext st.2 % modulus - length
      else xorshiftNext st.2 % modulus) < length := by
    have hm := Nat.mod_lt (xorshiftNext st.2) (show 0 < modulus by omega)
    by_cases hge : xorshiftNext st.2 % modulus ≥ length
    · rw [if_pos hge]
      omega
    · rw [if_neg hge]
      omega
  obtain ⟨q, hq, hcase⟩ := swapL_track st.1 (idx - 1 + i)
    (a + (if xorshiftNext st.2 % modulus ≥ length
      then xorshiftNext st.2 % modulus - length
      else xorshiftNext st.2 % modulus)) p d (by omega) (by omega) hd
  refine ⟨q, ?_, ?_, hq⟩
  · rcases hcase with h5 | h5 | h5 <;> omega
  · rcases hcase with h5 | h5 | h5 <;> omega

/-- `breakPatterns_func` keeps a toxic element inside `[a, b)`. -/
theorem breakPatternsM_toxic [Inhabited α] (d : α) (l : List α)
    (a b p : Nat) (hab : a ≤ b) (hbl : b ≤ l.length) (hp1 : a ≤ p)
    (hp2 : p < b) (hd : getI l p = d) :
    ∃ q, a ≤ q ∧ q < b ∧ getI (breakPatternsM l a b) q = d := by
  rw [breakPatternsM]
  by_cases h8 : b - a ≥ 8
  · rw [if_pos h8]
    have hmod1 : 1 ≤ 2 ^ bitsLen (b - a) := Nat.one_le_two_pow
    have hmod2 : 2 ^ bitsLen (b - a) ≤ 2 * (b - a) := by
      rw [bitsLen, if_neg (by omega), pow_succ]
      have := Nat.log2_self_le (show b - a ≠ 0 by omega)
      omega
    have hq2 : 2 ≤ (b - a) / 4 := by omega
    have hlen0 := breakPatternsSwap_frame (fun _ : α => 0) a (b - a)
      (2 ^ bitsLen (b - a)) (a + (b - a) / 4 * 2 - 1) 0 (l, b - a) hmod1
      hmod2 h8 (by omega) (by omega)
      (by show a + (b - a) ≤ l.length; omega)
    have hlen1 := breakPatternsSwap_frame (fun _ : α => 0) a (b - a)
      (2 ^ bitsLen (b - a)) (a + (b - a) / 4 * 2 - 1) 1
      (breakPatternsSwap a (b - a) (2 ^ bitsLen (b - a))
        (a + (b - a) / 4 * 2 - 1) (l, b - a) 0)
      hmod1 hmod2 h8 (by omega) (by omega)
      (by rw [hlen0.2]; show a + (b - a) ≤ l.length; omega)
    obtain ⟨q0, hq01, hq02, hq0d⟩ := breakPatternsSwap_toxic d a (b - a)
      (2 ^ bitsLen (b - a)) (a + (b - a) / 4 * 2 - 1) 0 (l, b - a) hmod1
      hmod2 (by omega) (by omega)
      (by show a + (b - a) ≤ l.length; omega) p (by omega) (by omega) hd
    obtain ⟨q1, hq11, hq12, hq1d⟩ := breakPatternsSwap_toxic d a (b - a)
      (2 ^ bitsLen (b - a)) (a + (b - a) / 4 * 2 - 1) 1
      (breakPatternsSwap a (b - a) (2 ^ bitsLen (b - a))
        (a + (b - a) / 4 * 2 - 1) (l, b - a) 0)
      hmod1 hmod2 (by omega) (by omega)
      (by rw [hlen0.2]; show a + (b - a) ≤ l.length; omega) q0 hq01 hq02
      hq0d
    obtain ⟨q2, hq21, hq22, hq2d⟩ := breakPatternsSwap_toxic d a (b - a)
      (2 ^ bitsLen (b - a)) (a + (b - a) / 4 * 2 - 1) 2
      (breakPatternsSwap a (b - a) (2 ^ bitsLen (b - a))
        (a + (b - a) / 4 * 2 - 1)
        (breakPatternsSwap a (b - a) (2 ^ bitsLen (b - a))
          (a + (b - a) / 4 * 2 - 1) (l, b - a) 0) 1)
      hmod1 hmod2 (by omega) (by omega)
      (by rw [hlen1.2, hlen0.2]; show a + (b - a) ≤ l.length; omega) q1
      hq11 hq12 hq1d
    exact ⟨q2, by omega, by omega, hq2d⟩
  · rw [if_neg h8]
    exact ⟨p, hp1, hp2, hd⟩

theorem seg_reverseRangeL (l : List α) (a b : Nat) (hab : a ≤ b)
    (hb : b ≤ l.length) :
    seg (reverseRangeL l a b) a b = (seg l a b).reverse := by
  unfold seg reverseRangeL
  rw [List.append_assoc,
    List.drop_left' (by rw [List.length_take]; omega),
    List.take_left' (by
      rw [List.length_reverse, List.length_take, List.length_drop]
      omega)]

/-- `reverseRange_func` keeps a toxic element inside `[a, b)`. -/
theorem reverseRangeL_toxic [Inhabited α] (d : α) (l : List α)
    (a b p : Nat) (hab : a ≤ b) (hb : b ≤ l.length) (hp1 : a ≤ p)
    (hp2 : p < b) (hd : getI l p = d) :
    ∃ q, a ≤ q ∧ q < b ∧ getI (reverseRangeL l a b) q = d := by
  have hmem : d ∈ seg (reverseRangeL l a b) a b := by
    rw [seg_reverseRangeL l a b hab hb, List.mem_reverse]
    have hin := mem_seg l a b p hp1 hp2 hb
    rw [hd] at hin
    exact hin
  exact mem_seg_inv (reverseRangeL l a b) a b d hab
    (by rw [reverseRangeL_length l a b hab hb]; exact hb) hmem

/-- The loop body of `pdqsort_func` past the small-range and heap-sort exits
always aborts when a toxic element is in the range: the partial insertion
sort cannot report the range sorted, and both partitioning procedures
abort. -/
theorem pdqsortTail_toxic [Inhabited α] (less : α → α → Option Bool) (d : α)
    (hLd : ∀ y, less d y = none) (hRd : ∀ y, less y d = none)
    (fuel : Nat) (l : List α) (a b limit : Nat) (wb wp : Bool)
    (hbl : b ≤ l.length) (hab : a + 2 ≤ b) (p : Nat)
    (hp1 : a ≤ p) (hp2 : p < b) (hd : getI l p = d) :
    pdqsortTail less fuel l a b limit wb wp = none := by
  simp only [pdqsortTail, Option.bind_eq_bind]
  have hafter : ∀ (l2 : List α) (pivot q : Nat),
      b ≤ l2.length → a ≤ q → q < b → getI l2 q = d →
      a ≤ pivot → pivot < b →
      ((if false = true then pure l2
        else if a > 0 then
          (less (getI l2 (a - 1)) (getI l2 pivot)).bind fun bl =>
            (some (!bl)).bind fun useEqual =>
              if useEqual = true then
                (partitionEqualM less l2 a b pivot).bind fun r =>
                  pdqsortM less fuel r.1 r.2 b limit wb wp
              else
                (partitionM less l2 a b pivot).bind fun r =>
                  if r.2.1 - a < b - r.2.1 then
                    (pdqsortM less fuel r.1 a r.2.1 limit
                      (decide (min (r.2.1 - a) (b - r.2.1) ≥ (b - a) / 8))
                      r.2.2).bind
                      fun l4 => pdqsortM less fuel l4 (r.2.1 + 1) b limit
                        (decide (min (r.2.1 - a) (b - r.2.1) ≥ (b - a) / 8))
                        r.2.2
                  else
                    (pdqsortM less fuel r.1 (r.2.1 + 1) b limit
                      (decide (min (r.2.1 - a) (b - r.2.1) ≥ (b - a) / 8))
                      r.2.2).bind
                      fun l4 => pdqsortM less fuel l4 a r.2.1 limit
                        (decide (min (r.2.1 - a) (b - r.2.1) ≥ (b - a) / 8))
                        r.2.2
        else
          (some false).bind fun useEqual =>
            if useEqual = true then
              (partitionEqualM less l2 a b pivot).bind fun r =>
                pdqsortM less fuel r.1 r.2 b limit wb wp
            else
              (partitionM less l2 a b pivot).bind fun r =>
                if r.2.1 - a < b - r.2.1 then
                  (pdqsortM less fuel r.1 a r.2.1 limit
                    (decide (min (r.2.1 - a) (b - r.2.1) ≥ (b - a) / 8))
                    r.2.2).bind
                    fun l4 => pdqsortM less fuel l4 (r.2.1 + 1) b limit
                      (decide (min (r.2.1 - a) (b - r.2.1) ≥ (b - a) / 8))
                      r.2.2
                else
                  (pdqsortM less fuel r.1 (r.2.1 + 1) b limit
                    (decide (min (r.2.1 - a) (b - r.2.1) ≥ (b - a) / 8))
                    r.2.2).bind
                    fun l4 => pdqsortM less fuel l4 a r.2.1 limit
                      (decide (min (r.2.1 - a) (b - r.2.1) ≥ (b - a) / 8))
                      r.2.2 :
          Option (List α)) = none) := by
    intro l2 pivot q hb2 hq1 hq2 hd2 hpv1 hpv2
    have hpm : partitionM less l2 a b pivot = none :=
      partitionM_toxic less d hLd hRd l2 a b pivot q hb2 hab hpv1 hpv2 hq1
        hq2 hd2
    have hpe : partitionEqualM less l2 a b pivot = none :=
      partitionEqualM_toxic less d hLd hRd l2 a b pivot q hb2 hab hpv1 hpv2
        hq1 hq2 hd2
    rw [if_neg (by simp : ¬ false = true)]
    by_cases ha0 : a > 0
    · rw [if_pos ha0]
      cases hguard : less (getI l2 (a - 1)) (getI l2 pivot) with
      | none => rfl
      | some bl =>
        simp only [Option.some_bind]
        cases bl with
        | true =>
          rw [if_neg (by simp), hpm]
          rfl
        | false =>
          rw [if_pos (by simp), hpe]
          rfl
    · rw [if_neg ha0]
      simp only [Option.some_bind]
      rw [if_neg (by simp), hpm]
      rfl
  cases hph : choosePivotM less l a b with
  | none => rfl
  | some ph =>
    simp only [Option.some_bind]
    obtain ⟨hpv1, hpv2⟩ := choosePivotM_bounds less l a b ph hph (by omega)
    by_cases hdec : ph.2 = Hint.decreasing
    · rw [if_pos hdec]
      rw [show ((reverseRangeL l a b, b - 1 - (ph.1 - a), Hint.increasing) :
          List α × Nat × Hint).1 = reverseRangeL l a b from rfl,
        show ((reverseRangeL l a b, b - 1 - (ph.1 - a), Hint.increasing) :
          List α × Nat × Hint).2.2 = Hint.increasing from rfl,
        show ((reverseRangeL l a b, b - 1 - (ph.1 - a), Hint.increasing) :
          List α × Nat × Hint).2.1 = b - 1 - (ph.1 - a) from rfl]
      obtain ⟨q, hq1, hq2, hqd⟩ := reverseRangeL_toxic d l a b p (by omega)
        hbl hp1 hp2 hd
      have hbL : b ≤ (reverseRangeL l a b).length := by
        rw [reverseRangeL_length l a b (by omega) hbl]
        exact hbl
      by_cases hpi : wb = true ∧ wp = true ∧
          Hint.increasing = Hint.increasing
      · rw [if_pos hpi]
        rcases partialInsertionSortM_toxic less d hLd hRd
            (reverseRangeL l a b) a b q hab hq1 hq2 hqd with
          hnone | ⟨l3, heq, hd3, hlen3⟩
        · rw [hnone]
          rfl
        · rw [heq]
          exact hafter l3 (b - 1 - (ph.1 - a)) q (by rw [hlen3]; exact hbL)
            hq1 hq2 hd3 (by omega) (by omega)
      · rw [if_neg hpi]
        exact hafter (reverseRangeL l a b) (b - 1 - (ph.1 - a)) q hbL hq1
          hq2 hqd (by omega) (by omega)
    · rw [if_neg hdec]
      rw [show ((l, ph.1, ph.2) : List α × Nat × Hint).1 = l from rfl,
        show ((l, ph.1, ph.2) : List α × Nat × Hint).2.2 = ph.2 from rfl,
        show ((l, ph.1, ph.2) : List α × Nat × Hint).2.1 = ph.1 from rfl]
      by_cases hpi : wb = true ∧ wp = true ∧ ph.2 = Hint.increasing
      · rw [if_pos hpi]
        rcases partialInsertionSortM_toxic less d hLd hRd l a b p hab hp1
            hp2 hd with hnone | ⟨l3, heq, hd3, hlen3⟩
        · rw [hnone]
          rfl
        · rw [heq]
          exact hafter l3 ph.1 p (by rw [hlen3]; exact hbl) hp1 hp2 hd3 hpv1
            hpv2
      · rw [if_neg hpi]
        exact hafter l ph.1 p hbl hp1 hp2 hd hpv1 hpv2

/-- `pdqsort_func` on a range of at least two elements containing a toxic
element always aborts, whatever the fuel, limit and heuristic flags: the
insertion-sort exit, the heap-sort exit and the partitioning body each
necessarily evaluate a comparison involving the toxic element. -/
theorem pdqsortM_toxic [Inhabited α] (less : α → α → Option Bool) (d : α)
    (hLd : ∀ y, less d y = none) (hRd : ∀ y, less y d = none)
    (fuel : Nat) (l : List α) (a b limit : Nat) (wb wp : Bool) (p : Nat)
    (hbl : b ≤ l.length) (hab : a + 2 ≤ b) (hp1 : a ≤ p) (hp2 : p < b)
    (hd : getI l p = d) : pdqsortM less fuel l a b limit wb wp = none := by
  cases fuel with
  | zero => rfl
  | succ fuel =>
    rw [pdqsortM_succ]
    by_cases h12 : b - a ≤ 12
    · rw [if_pos h12]
      simp only [onSegM, Option.bind_eq_bind]
      have hseg : insertionSortM less ((l.drop a).take (b - a)) = none :=
        insertionSortM_toxic less d hLd hRd ((l.drop a).take (b - a))
          (by
            have hin := mem_seg l a b p hp1 hp2 hbl
            rw [hd] at hin
            exact hin)
          (by
            rw [show ((l.drop a).take (b - a) : List α) = seg l a b from rfl,
              seg_length l a b (by omega) hbl]
            omega)
      rw [hseg]
      rfl
    · rw [if_neg h12]
      by_cases hlim : limit = 0
      · rw [if_pos hlim]
        exact heapSortM_toxic less d hLd hRd l a b p hab hp1 hp2 hd
      · rw [if_neg hlim]
        cases wb with
        | false =>
          rw [if_pos (by simp)]
          obtain ⟨q, hq1, hq2, hqd⟩ := breakPatternsM_toxic d l a b p
            (by omega) hbl hp1 hp2 hd
          exact pdqsortTail_toxic less d hLd hRd fuel (breakPatternsM l a b)
            a b (limit - 1) false wp
            (by
              rw [(breakPatternsM_frame (fun _ : α => 0) l a b (by omega)
                hbl).2]
              exact hbl)
            hab q hq1 hq2 hqd
        | true =>
          rw [if_neg (by simp)]
          exact pdqsortTail_toxic less d hLd hRd fuel l a b limit true wp
            hbl hab p hp1 hp2 hd

/-- `sort.Slice` aborts whenever some element's every comparison panics and
the slice has at least two elements. -/
theorem sortSliceM_toxic [Inhabited α] (less : α → α → Option Bool) (d : α)
    (hLd : ∀ y, less d y = none) (hRd : ∀ y, less y d = none)
    (l : List α) (hd : d ∈ l) (hlen : 2 ≤ l.length) :
    sortSliceM less l = none := by
  obtain ⟨p, hplt, hpeq⟩ := List.mem_iff_getElem.mp hd
  rw [sortSliceM]
  exact pdqsortM_toxic less d hLd hRd (2 * l.length + 8) l 0 l.length
    (bitsLen l.length) true true p (Nat.le_refl _) (by omega) (Nat.zero_le p)
    hplt (by rw [getI_eq_getElem l p hplt]; exact hpeq)

/-- C9: counterexample.  The claim quantifies over every invocation, but the
panics live inside the comparator, which only runs when the sort compares the
offending declaration: (i) with the alphabetical option disabled, a Func-kind
declaration whose receiver-type shape `funcName` would reject is never
inspected — `sortFile` completes and emits the whole file; (ii) a declaration
of unrecognized kind that is the only declaration of the file is never
compared — `sortFile` completes and emits output.  The last two conjuncts
generalize: a one-declaration file is sorted without any comparison under
either configuration, and with the alphabetical option disabled every
Func-vs-Func comparison answers `false` without ever parsing a receiver, so a
malformed receiver never panics there. -/
theorem no_abort_without_comparison :
    funcName weirdRecvFunc = none ∧
    GoDecl.funcDecl weirdRecvFunc ∈ c9treeA.decls ∧
    sortFile c9treeA c9contentA plainConf = some c9contentA ∧
    getToken badKindDecl = none ∧
    badKindDecl ∈ c9treeB.decls ∧
    sortFile c9treeB c9contentB plainConf = some c9contentB ∧
    (∀ (dd : GoDecl) (cf : Config), sortAST [dd] cf = some [dd]) ∧
    (∀ (fa fb : FuncDeclData) (w : Bool),
      declLess { sortAlphabetically := false, writeToFile := w }
        (GoDecl.funcDecl fa) (GoDecl.funcDecl fb) = some false) := by
  refine ⟨by decide, by decide, by decide, by decide, by decide, by decide,
    fun dd cf => rfl, fun fa fb w => rfl⟩

/-- C9 (amended): the aborts happen exactly when the comparator runs on the
offending declaration, and then no output is emitted.  For an
unrecognized-kind declaration this is guaranteed as soon as the file has at
least one other declaration — for files of any size, through every regime of
`sort.Slice` (insertion sort, partitioning, heap sort): the sort necessarily
evaluates a comparison involving the offending declaration, the panic unwinds
out of `sort.Slice`, and `sortFile` produces nothing. -/
theorem unknown_kind_aborts (tree : GoFile) (content : List Byte)
    (conf : Config) (d : GoDecl) (hd : d ∈ tree.decls)
    (hbad : getToken d = none) (hlen2 : 2 ≤ tree.decls.length) :
    sortAST tree.decls conf = none ∧ sortFile tree content conf = none := by
  have habort : sortAST tree.decls conf = none := by
    rw [sortAST]
    exact sortSliceM_toxic (declLess conf) d
      (fun y => declLess_none_left conf d y hbad)
      (fun y => declLess_none_right conf y d hbad) tree.decls hd hlen2
  refine ⟨habort, ?_⟩
  simp [sortFile, habort]

/-- Witness for the amended C9: a file with an unrecognized-kind declaration
and one more declaration aborts without output. -/
theorem unknown_kind_aborts_witness :
    badKindDecl ∈ c9treeC.decls ∧ getToken badKindDecl = none ∧
    2 ≤ c9treeC.decls.length ∧
    (sortAST c9treeC.decls plainConf = none ∧
      sortFile c9treeC c9contentB plainConf = none) :=
  ⟨by decide, by decide, by decide,
    unknown_kind_aborts c9treeC c9contentB plainConf badKindDecl (by decide)
      (by decide) (by decide)⟩

/-- C1: comment fidelity.  Whenever the sort completes, every declaration `d`
of the result is emitted as the contiguous block `attached bytes ++ raw span`
(first conjunct: the output splits around that block), and for every comment
the classifier attached to `d`, the comment's captured bytes — its exact
bytes together with its trailing blank-line run — appear inside `d`'s
attached bytes (second conjunct), hence immediately before `d`'s span up to
the other comments attached to the same declaration.  Sorting only changes
which position the block occupies: the map is keyed by declaration identity
and is built before the sort. -/
theorem comment_fidelity (tree : GoFile) (content : List Byte) (conf : Config)
    (sorted : List GoDecl) (d : GoDecl)
    (hsort : sortAST tree.decls conf = some sorted) (hd : d ∈ sorted) :
    (∃ pre post, sortFile tree content conf =
      some (pre ++ (assignRootCommentsToDecl tree content (some d) ++
        declBytes content d) ++ post)) ∧
    ∀ c ∈ tree.comments, isRootComment tree.decls tree.packagePos c = true →
      attachTarget tree.decls c = some d →
      ∃ u v, assignRootCommentsToDecl tree content (some d) =
        u ++ capturedComment content c ++ v := by
  constructor
  · obtain ⟨pre0, post0, hsplit⟩ :=
      writeDeclsLoop_mem_split content (assignRootCommentsToDecl tree content)
        sorted d hd
    refine ⟨docBytes tree.doc ++ pkgHeader tree.name ++ pre0,
      post0 ++ assignRootCommentsToDecl tree content none, ?_⟩
    simp only [sortFile, hsort]
    simp [write, hsplit, List.append_assoc]
  · intro c hcmem hroot htar
    rw [assignRoot_apply]
    have hcf : c ∈ tree.comments.filter fun c2 =>
        isRootComment tree.decls tree.packagePos c2 &&
        decide (attachTarget tree.decls c2 = some d) :=
      List.mem_filter.mpr ⟨hcmem, by simp [hroot, htar]⟩
    obtain ⟨u, v, huv⟩ :=
      flatten_map_mem_split (assignedBytes tree.decls content) _ c hcf
    refine ⟨initComments (some d) ++ u, v, ?_⟩
    rw [huv]
    simp [assignedBytes, htar]

/-- Witness for C1: in `wtree`, alphabetical sorting moves `func B() {}` from
first to last, and its doc comment's block moves with it. -/
theorem comment_fidelity_witness :
    sortAST wtree.decls alphaConf = some [wdeclA, wdeclB] ∧
    wdeclB ∈ [wdeclA, wdeclB] ∧
    ((∃ pre post, sortFile wtree wcontent alphaConf =
      some (pre ++ (assignRootCommentsToDecl wtree wcontent (some wdeclB) ++
        declBytes wcontent wdeclB) ++ post)) ∧
    ∀ c ∈ wtree.comments, isRootComment wtree.decls wtree.packagePos c = true →
      attachTarget wtree.decls c = some wdeclB →
      ∃ u v, assignRootCommentsToDecl wtree wcontent (some wdeclB) =
        u ++ capturedComment wcontent c ++ v) :=
  ⟨by decide, by decide,
    comment_fidelity wtree wcontent alphaConf [wdeclA, wdeclB] wdeclB
      (by decide) (by decide)⟩

/-- C8: the serializer's output is, in order: the header doc comment
(each `Text` line followed by a newline), the `package <name>` line with its
blank line, then each declaration in sorted order preceded by its attached
comment bytes with exactly one `"\n\n"` separator between consecutive
declarations and none after the last, and finally the sentinel bucket's
bytes. -/
theorem serializer_layout (tree : GoFile) (content : List Byte)
    (conf : Config) (sorted : List GoDecl)
    (hsort : sortAST tree.decls conf = some sorted) :
    sortFile tree content conf = some (
      docBytes tree.doc ++ pkgHeader tree.name ++
      List.intercalate [nlByte, nlByte] (sorted.map fun d =>
        assignRootCommentsToDecl tree content (some d) ++ declBytes content d) ++
      assignRootCommentsToDecl tree content none) := by
  simp only [sortFile, hsort]
  simp [write, writeDeclsLoop_eq]

/-- Witness for C8 at the concrete file of `wtree`. -/
theorem serializer_layout_witness :
    sortAST wtree.decls alphaConf = some [wdeclA, wdeclB] ∧
    sortFile wtree wcontent alphaConf = some (
      docBytes wtree.doc ++ pkgHeader wtree.name ++
      List.intercalate [nlByte, nlByte] ([wdeclA, wdeclB].map fun d =>
        assignRootCommentsToDecl wtree wcontent (some d) ++
          declBytes wcontent d) ++
      assignRootCommentsToDecl wtree wcontent none) :=
  ⟨by decide,
    serializer_layout wtree wcontent alphaConf [wdeclA, wdeclB] (by decide)⟩

/-- C5: kind grouping.  Whenever the sort completes — on files of any size,
through every regime of `sort.Slice` (insertion sort, full `pdqsort`
partitioning, heap-sort fallback) — the resulting declaration sequence is
weakly increasing in kind priority (`Import(0), Const(1), Var(2), Type(3),
Func(4)`): every pair, not merely adjacent ones, is ordered, so no
declaration of one kind lies between two declarations of another kind, for
either setting of the alphabetical option. -/
theorem kind_grouping (decls : List GoDecl) (conf : Config)
    (sorted : List GoDecl)
    (hsort : sortAST decls conf = some sorted) :
    sorted.Pairwise fun u v => kindRank u ≤ kindRank v := by
  rw [sortAST] at hsort
  obtain ⟨hperm, hsorted⟩ := sortSliceM_sorted (fun _ => True)
    (declLess conf) kindRank (kindRank_fcompat conf) decls sorted hsort
    (fun x _ => trivial)
  have hlen : sorted.length = decls.length := hperm.length_eq
  rw [List.pairwise_iff_getElem]
  intro i j hi hj hij
  have hval := hsorted i j (Nat.zero_le i) (by omega) (by omega)
  rw [getI_eq_getElem sorted i (by omega),
    getI_eq_getElem sorted j (by omega)] at hval
  exact hval

/-- Witness for C5: four declarations of four kinds in scrambled order come
out grouped `Import, Var, Type, Func`. -/
theorem kind_grouping_witness :
    sortAST c5input plainConf =
      some [c5import, vdecl "v" 22, tdecl "T" 12, c5func] ∧
    List.Pairwise (fun u v => kindRank u ≤ kindRank v)
      [c5import, vdecl "v" 22, tdecl "T" 12, c5func] :=
  ⟨by decide, kind_grouping c5input plainConf _ (by decide)⟩

/-- C6: with the alphabetical option enabled, the unique free function named
`main` is the last declaration of the sorted order (declarations of every
other kind precede Func-kind ones, methods and other free functions precede
`main`), for files of any size — through every regime of `sort.Slice`.  The
hypotheses record that `mainD` occurs exactly once, that nothing else is a
free `main`, and the parser invariant that no general declaration is tagged
`FUNC`. -/
theorem main_function_last (decls : List GoDecl) (conf : Config)
    (sorted : List GoDecl) (mainD : GoDecl)
    (halpha : conf.sortAlphabetically = true)
    (hsort : sortAST decls conf = some sorted)
    (hmem : mainD ∈ decls)
    (hmain : isFreeMainB mainD = true)
    (huniq : ∀ d ∈ decls, isFreeMainB d = true → d = mainD)
    (hcount : decls.count mainD = 1)
    (hgen : ∀ d ∈ decls, genTokOK d = true) :
    sorted.getLast? = some mainD := by
  rw [sortAST] at hsort
  obtain ⟨hperm, hsorted⟩ := sortSliceM_sorted
    (fun d : GoDecl => genTokOK d = true) (declLess conf) mainRank
    (mainRank_fcompat conf halpha) decls sorted hsort hgen
  have hlen : sorted.length = decls.length := hperm.length_eq
  have hmem2 : mainD ∈ sorted := hperm.mem_iff.mpr hmem
  obtain ⟨i, hilt, hieq⟩ := List.mem_iff_getElem.mp hmem2
  have hzlt : sorted.length - 1 < sorted.length := by omega
  obtain ⟨fm, nm, hfm, hnm, hr1, hr2⟩ := isFreeMain_extract mainD hmain
  have hk4 : kindRank mainD = 4 := by rw [hfm]; rfl
  have h9 : mainRank mainD = 9 := by
    unfold mainRank
    rw [if_pos hmain, hk4]
  have hzrank := hsorted i (sorted.length - 1) (Nat.zero_le i)
    (by omega) (by omega)
  rw [getI_eq_getElem sorted i hilt,
    getI_eq_getElem sorted (sorted.length - 1) hzlt, hieq, h9] at hzrank
  have hzfm : isFreeMainB (sorted[sorted.length - 1]) = true := by
    by_contra hcon
    have hzk := kindRank_le_four (sorted[sorted.length - 1])
    have hle8 : mainRank (sorted[sorted.length - 1]) ≤ 8 := by
      unfold mainRank
      rw [if_neg hcon]
      omega
    omega
  have hzmem : sorted[sorted.length - 1] ∈ decls :=
    hperm.mem_iff.mp (List.getElem_mem hzlt)
  have hzeq : sorted[sorted.length - 1] = mainD := huniq _ hzmem hzfm
  rw [List.getLast?_eq_getElem?, List.getElem?_eq_getElem hzlt, hzeq]

/-- Witness for C6: a file listing `main` first, then a method, a free
function and a `var`; after sorting, `main` is the last declaration. -/
theorem main_function_last_witness :
    c6main ∈ c6input ∧
    isFreeMainB c6main = true ∧
    sortAST c6input alphaConf =
      some [vdecl "x" 62, c6method, c6free, c6main] ∧
    List.getLast? [vdecl "x" 62, c6method, c6free, c6main] = some c6main :=
  ⟨by decide, by decide, by decide,
    main_function_last c6input alphaConf _ c6main
      (by decide) (by decide) (by decide) (by decide) (by decide)
      (by decide) (by decide)⟩

end GoOrder
